import Mathlib

/-!
Sorting predicates of `src/pl-list.c`.

A shallow embedding of the sort engine of `pl-list.c` (`nat_sort`, `extract_key`,
`prolog_list_to_sort_list`, `put_sort_list`, `pl_nat_sort`, `get_key_arg_ex`, `order_defs`
and the predicates `sort/2`, `msort/2`, `keysort/2`, `sort/4`), followed by theorems about it.

Modelling conventions.

* Terms are finite, fully dereferenced trees.  A tagged (small) integer and a boxed (big)
  integer are different constructors, because `get_key_arg_ex` tells them apart
  (`isTaggedInt` against `isInteger`).
* `nat_sort` is embedded twice.  In the list model, which the predicates use, a chain of
  `List_Record` nodes is a Lean list of nodes: the `next` field of a node is the position in the
  list, `NIL` is `[]`, relinking is list surgery and `FREE` drops the node.  Every node carries
  the index of its slot in the block reserved at `gTop`, which is its identity.  In the block
  model (namespace `Ptr`) the block is a map from slot index to cell, the `next` fields are
  pointers that the code reads and writes, and `FREE` resets the slot.  Theorem `nat_sort_sim`
  shows that the block model returns a chain holding exactly the nodes that the list model
  returns, and `pl_nat_sort_on_block` that `pl_nat_sort` returns what it would return with the
  block model run on the block that `prolog_list_to_sort_list` builds.
* `compareStandard` is not part of this file of the program; it is a parameter `cmp`.
* The run counter `runs` (a C `int`) is a natural number and the run stack is a list whose head
  is the top of the stack; popping an empty stack is an explicit failure (`none`).
* Heap and local stack reservations (`ensureLocalSpace`, `ensureGlobalSpace`, `malloc`) succeed.
* Errors are the arguments given to the error sink; the context that the sink adds is not modelled.
-/

namespace PlList

/-! ## Terms -/

/-- One step of a sort key, as stored in `argv`: a tagged integer or an atom. -/
inductive KeyArg where
  | int (v : Int)
  | atom (name : String)
  deriving DecidableEq, Repr

/-- Prolog terms, dereferenced.  `cons` is the list cell `'[|]'(H,T)`, `atom "[]"` is the empty
list, `compound` is any other non-dict compound and `dict` is a dict with its fields. -/
inductive Term where
  | var (id : Nat)
  | int (v : Int)
  | bigint (v : Int)
  | float (id : Nat)
  | str (s : String)
  | atom (name : String)
  | cons (head tail : Term)
  | compound (name : String) (args : List Term)
  | dict (tag : Term) (fields : List (KeyArg × Term))

/-- The word `ATOM_nil`. -/
def ATOM_nil : Term := Term.atom "[]"

/-- The proper list with the given elements. -/
def mkList : List Term → Term
  | [] => ATOM_nil
  | h :: t => Term.cons h (mkList t)

/-- Errors handed to the error sink. -/
inductive PlError where
  | instantiation
  | type_error (expected : String) (culprit : Term)
  | existence_error (kind : String) (key : KeyArg) (culprit : Term)
  | domain_error (domain : String) (culprit : Term)

/-- How a predicate can end without a result: with an error raised, with plain failure
(`false` and no error), or in behaviour that C leaves undefined. -/
inductive Failure where
  | raised (e : PlError)
  | failed
  | undefined

/-- Outcome of a predicate (or of a helper that can fail): the value, or a `Failure`. -/
abbrev Outcome (α : Type) := Except Failure α

/-! ## The sort engine -/

/-- The enumeration `sort_order`. -/
inductive sort_order where
  | SORT_ASC
  | SORT_DESC
  deriving DecidableEq, Repr

/-- The struct `ITEM`: the element and its sort key. -/
structure ITEM where
  term : Term
  key : Term

/-- The struct `List_Record`, without its `next` field (see the conventions above);
`addr` is the index of the node in the reserved block. -/
structure List_Record where
  addr : Nat
  item : ITEM

/-- A chain of nodes ending in `NIL`. -/
abbrev list := List List_Record

/-- The macro `compare(c, x, y)`: `COMPARE_KEY` on the two keys, negated for `SORT_DESC`. -/
def compare (cmp : Term → Term → Int) (order : sort_order) (x y : List_Record) : Int :=
  let c := cmp x.item.key y.item.key
  if order = sort_order.SORT_DESC then -c else c

/-- The loop `for (r = data; r != NIL; )` of `nat_sort` that extends the run whose last node
is `q`.  Returns the nodes linked after `q` and the value of `r` at the exit of the loop. -/
def run_loop (cmp : Term → Term → Int) (order : sort_order) (remove_dups : Int) :
    List_Record → list → list × list
  | _, [] => ([], [])
  | q, r :: s =>
    let c := compare cmp order q r
    if c > 0 then ([], r :: s)
    else if c = remove_dups then run_loop cmp order remove_dups q s
    else
      let res := run_loop cmp order remove_dups r s
      (r :: res.1, res.2)

/-- Picking up a run from the front of `data = p :: rest`: returns the run and the rest of the
data. -/
def pick_run (cmp : Term → Term → Int) (order : sort_order) (remove_dups : Int)
    (p : List_Record) : list → list × list
  | [] => ([p], [])
  | q :: data =>
    let c := compare cmp order p q
    if c > 0 then
      let res := run_loop cmp order remove_dups p data
      (q :: p :: res.1, res.2)
    else if c = remove_dups then
      let res := run_loop cmp order remove_dups p data
      (p :: res.1, res.2)
    else
      let res := run_loop cmp order remove_dups q data
      (p :: q :: res.1, res.2)

/-- The loop `while (q && p)` for a fixed non-empty `q = qh :: qt`, by recursion on `p`;
`rec_qt` is the merge with `q` advanced to `qt`. -/
def merge_step (cmp : Term → Term → Int) (order : sort_order) (remove_dups : Int)
    (qh : List_Record) (qt : list) (rec_qt : list → list) : list → list
  | [] => qh :: qt
  | ph :: pt =>
    let c := compare cmp order qh ph
    if c ≤ 0 then
      if c = remove_dups then qh :: rec_qt pt
      else qh :: rec_qt (ph :: pt)
    else ph :: merge_step cmp order remove_dups qh qt rec_qt pt

/-- The two-way merge of `nat_sort`: `q` is the chain popped off the stack (it precedes `p`),
the result is `header.next` after `r->next = q ? q : p`. -/
def merge (cmp : Term → Term → Int) (order : sort_order) (remove_dups : Int) :
    list → list → list
  | [], p => p
  | qh :: qt, p => merge_step cmp order remove_dups qh qt (merge cmp order remove_dups qt) p

/-- The loop `for (k = runs; 1 &~ k; k >>= 1)` followed by the push `*sp++ = p`.
Returns the new stack, or `none` when `*--sp` is executed on an empty stack. -/
def merge_runs (cmp : Term → Term → Int) (order : sort_order) (remove_dups : Int) :
    Nat → list → List list → Option (List list)
  | k, p, [] => if k % 2 = 0 then none else some [p]
  | k, p, q :: sp =>
    if k % 2 = 0 then merge_runs cmp order remove_dups (k / 2) (merge cmp order remove_dups q p) sp
    else some (p :: q :: sp)

/-- The loop `while ((p = data) != NIL)` of `nat_sort`, with the run counter and the stack as
state.  The first argument bounds the number of iterations. -/
def nat_sort_loop (cmp : Term → Term → Int) (order : sort_order) (remove_dups : Int) :
    Nat → list → Nat → List list → Option (List list)
  | _, [], _, stack => some stack
  | 0, _ :: _, _, _ => none
  | fuel + 1, p :: rest, runs, stack =>
    let res := pick_run cmp order remove_dups p rest
    match merge_runs cmp order remove_dups (runs + 1) res.1 stack with
    | none => none
    | some stack1 => nat_sort_loop cmp order remove_dups fuel res.2 (runs + 1) stack1

/-- The loop `while (sp != stack)` that merges all the runs left on the stack into `p`. -/
def merge_all (cmp : Term → Term → Int) (order : sort_order) (remove_dups : Int) :
    list → List list → list
  | p, [] => p
  | p, q :: sp => merge_all cmp order remove_dups (merge cmp order remove_dups q p) sp

/-- The function `nat_sort(data, remove_dups, order)`.  Every iteration of the outer loop
consumes a node, so `data.length` iterations are allowed. -/
def nat_sort (cmp : Term → Term → Int) (data : list) (remove_dups : Bool) (order : sort_order) :
    Option list :=
  let rd : Int := if remove_dups then 0 else 1
  match nat_sort_loop cmp order rd data.length data 0 [] with
  | none => none
  | some [] => some []
  | some (p :: sp) => some (merge_all cmp order rd p sp)

/-! ## Key extraction -/

/-- The macro `FUNCTOR_minus2` test `hasFunctor(*p1, FUNCTOR_minus2)`: the first argument of a
`Key-Value` term, if `p1` is one. -/
def pair_key : Term → Option Term
  | Term.compound "-" [k, _] => some k
  | _ => none

/-- The arguments of a compound that is not a dict (`isTerm` and not `termIsDict`). -/
def arg_list : Term → Option (List Term)
  | Term.cons h t => some [h, t]
  | Term.compound _ args => some args
  | _ => none

/-- Modelled from the spec: `dict_lookup_ptr` is defined in `pl-dict.c`, which is not part of
this file; it is the field lookup of a dictionary-like value by field name. -/
def dict_lookup_ptr (fields : List (KeyArg × Term)) (name : KeyArg) : Option Term :=
  fields.lookup name

/-- The `for(; --argc >= 0; argv++)` loop of `extract_key` (the branch `!pair`).
`sword an` is compared with `size_t arity` as an unsigned number, so a negative `an` is never
within the arity; `an = 0` would read the argument before the first one. -/
def extract_path : Term → List KeyArg → Outcome Term
  | p1, [] => .ok p1
  | p1, a :: argv =>
    match p1 with
    | Term.dict _ fields =>
      match dict_lookup_ptr fields a with
      | some vp => extract_path vp argv
      | none => .error (.raised (.existence_error "key" a p1))
    | _ =>
      match arg_list p1 with
      | none => .error (.raised (.type_error "compound" p1))
      | some args =>
        match a with
        | KeyArg.atom _ => .error (.raised (.type_error "dict" p1))
        | KeyArg.int an =>
          if an = 0 then .error .undefined
          else if 0 < an ∧ an ≤ args.length then
            match args.get? (an - 1).toNat with
            | some vp => extract_path vp argv
            | none => .error .undefined
          else .error (.raised (.existence_error "argument" a p1))

/-- The function `extract_key(p1, argc, argv, pair)`; `argc` is the length of `argv`. -/
def extract_key (p1 : Term) (argv : List KeyArg) (pair : Bool) : Outcome Term :=
  if pair then
    match pair_key p1 with
    | some k => .ok k
    | none => .error (.raised (.type_error "pair" p1))
  else extract_path p1 argv

/-! ## From the Prolog list to the chain and back -/

/-- Modelled from the spec: `skip_list` is defined in `pl-prims.c`, which is not part of this
file.  It walks the list cells of its argument and returns the elements passed (their number
is the C result `len`) and the tail at which the walk stopped. -/
def skip_list : Term → List Term × Term
  | Term.cons h t => (h :: (skip_list t).1, (skip_list t).2)
  | t => ([], t)

/-- The macro `isNil`. -/
def isNil : Term → Bool
  | Term.atom name => name = "[]"
  | _ => false

/-- The macro `isList`: the word is a list cell. -/
def isList : Term → Bool
  | Term.cons _ _ => true
  | _ => false

/-- The macro `isVar`. -/
def isVar : Term → Bool
  | Term.var _ => true
  | _ => false

/-- The enumeration `list_sort`, with what the function hands back in each case: the error for
`SORT_ERR` and the chain `*lp` for `SORT_SORT`. -/
inductive list_sort where
  | SORT_ERR (f : Failure)
  | SORT_SORT (lp : list)
  | SORT_NIL
  | SORT_NOSORT

/-- The loop `while(len-- > 0)` of `prolog_list_to_sort_list`: one node per element, in list
order, at consecutive slots from `addr`; stops at the first element whose key cannot be
extracted. -/
def build_nodes (argv : List KeyArg) (pair : Bool) : Nat → List Term → Outcome list
  | _, [] => .ok []
  | addr, h :: t =>
    match extract_key h argv pair with
    | .error f => .error f
    | .ok k =>
      match build_nodes argv pair (addr + 1) t with
      | .error f => .error f
      | .ok rest => .ok ({ addr := addr, item := { term := h, key := k } } :: rest)

/-- The body of `prolog_list_to_sort_list` after `len = skip_list(l, &tail)`: `heads` are
the `len` elements walked and `tail` is where the walk stopped (a list cell only for a cyclic
list). -/
def prolog_list_to_sort_list_walked (t : Term) (heads : List Term) (tail : Term)
    (remove_dups : Bool) (argv : List KeyArg) (pair : Bool) : list_sort :=
  if !(isNil tail || (isList tail && remove_dups)) then
    if isVar tail then .SORT_ERR (.raised .instantiation)
    else .SORT_ERR (.raised (.type_error "list" t))
  else if heads.length = 0 then .SORT_NIL
  else if heads.length = 1 ∧ pair = false ∧ argv.length = 0 ∧ isList tail = false then .SORT_NOSORT
  else
    match build_nodes argv pair 0 heads with
    | .error f => .SORT_ERR f
    | .ok lp => .SORT_SORT lp

/-- The function `prolog_list_to_sort_list(t, remove_dups, argc, argv, pair, lp, end)`. -/
def prolog_list_to_sort_list (t : Term) (remove_dups : Bool) (argv : List KeyArg)
    (pair : Bool) : list_sort :=
  prolog_list_to_sort_list_walked t (skip_list t).1 (skip_list t).2 remove_dups argv pair

/-- The function `put_sort_list(l, sl)`: the chain rewritten as list cells.  The loop reads
`sl->next` before any test, so `NIL` is outside its domain. -/
def put_sort_list : list → Option Term
  | [] => none
  | [sl] => some (Term.cons sl.item.term ATOM_nil)
  | sl :: n :: rest =>
    match put_sort_list (n :: rest) with
    | none => none
    | some tl => some (Term.cons sl.item.term tl)

/-- The function `pl_nat_sort(in, out, remove_dups, order, argc, argv, pair)` for an unbound
`out`: the value `out` is unified with, or how the call fails. -/
def pl_nat_sort (cmp : Term → Term → Int) (t : Term) (remove_dups : Bool) (order : sort_order)
    (argv : List KeyArg) (pair : Bool) : Outcome Term :=
  match prolog_list_to_sort_list t remove_dups argv pair with
  | .SORT_ERR f => .error f
  | .SORT_NIL => .ok ATOM_nil
  | .SORT_NOSORT => .ok t
  | .SORT_SORT l =>
    match nat_sort cmp l remove_dups order with
    | none => .error .undefined
    | some sl =>
      match put_sort_list sl with
      | none => .error .undefined
      | some tmp => .ok tmp

/-! ## The predicates -/

/-- The predicate `sort/2`. -/
def pl_sort2 (cmp : Term → Term → Int) (A1 : Term) : Outcome Term :=
  pl_nat_sort cmp A1 true sort_order.SORT_ASC [] false

/-- The predicate `msort/2`. -/
def pl_msort2 (cmp : Term → Term → Int) (A1 : Term) : Outcome Term :=
  pl_nat_sort cmp A1 false sort_order.SORT_ASC [] false

/-- The predicate `keysort/2`. -/
def pl_keysort2 (cmp : Term → Term → Int) (A1 : Term) : Outcome Term :=
  pl_nat_sort cmp A1 false sort_order.SORT_ASC [] true

/-- The result of `get_key_arg_ex`: `true` with the key stored in `*k`, `false` with or
without an error raised, or `-1`. -/
inductive key_arg_rc where
  | rc_true (k : KeyArg)
  | rc_false (raised : Option PlError)
  | rc_minus1

/-- The function `get_key_arg_ex(t, k, zero_ok)`. -/
def get_key_arg_ex (t : Term) (zero_ok : Bool) : key_arg_rc :=
  match t with
  | Term.int v =>
    if v > 0 then .rc_true (KeyArg.int v)
    else if v = 0 ∧ zero_ok = true then .rc_true (KeyArg.int v)
    else if v ≤ 0 then .rc_false (some (.domain_error "not_less_than_one" t))
    else .rc_false none
  | Term.atom name => .rc_true (KeyArg.atom name)
  | Term.bigint v =>
    if v ≤ 0 then .rc_false (some (.domain_error "not_less_than_one" t))
    else .rc_false none
  | _ => .rc_minus1

/-- The struct `order_def`. -/
structure order_def where
  name : String
  order : sort_order
  remove_dups : Bool

/-- The table `order_defs`, without its terminating entry; the atoms are written by their
text. -/
def order_defs : List order_def :=
  [ { name := "<", order := sort_order.SORT_ASC, remove_dups := true },
    { name := "@<", order := sort_order.SORT_ASC, remove_dups := true },
    { name := "=<", order := sort_order.SORT_ASC, remove_dups := false },
    { name := "@=<", order := sort_order.SORT_ASC, remove_dups := false },
    { name := ">", order := sort_order.SORT_DESC, remove_dups := true },
    { name := "@>", order := sort_order.SORT_DESC, remove_dups := true },
    { name := ">=", order := sort_order.SORT_DESC, remove_dups := false },
    { name := "@>=", order := sort_order.SORT_DESC, remove_dups := false } ]

/-- The loop `for(od=order_defs; od->name; od++)` of `sort/4`: the first entry with the
given name, or `none` when the terminating entry is reached. -/
def find_order (order_name : String) : List order_def → Option order_def
  | [] => none
  | od :: ods => if od.name = order_name then some od else find_order order_name ods

/-- The loop `for(argc=0; PL_get_list(tail, head, tail); argc++)` of `sort/4`: the steps of a
key given as a list, or the failure at the first element that `get_key_arg_ex` does not
accept (`rc = false; goto out`). -/
def get_key_args : List Term → Outcome (List KeyArg)
  | [] => .ok []
  | head :: tail =>
    match get_key_arg_ex head false with
    | .rc_true k =>
      match get_key_args tail with
      | .error f => .error f
      | .ok argv => .ok (k :: argv)
    | .rc_false (some e) => .error (.raised e)
    | .rc_false none => .error .failed
    | .rc_minus1 => .error .failed

/-- The key-spec part of `sort/4` (from its start to the label before `PL_get_atom_ex`):
the vector `argv`, empty for the key `0`. -/
def sort4_key (A1 : Term) : Outcome (List KeyArg) :=
  match get_key_arg_ex A1 true with
  | .rc_false (some e) => .error (.raised e)
  | .rc_false none => .error .failed
  | .rc_true k => if k = KeyArg.int 0 then .ok [] else .ok [k]
  | .rc_minus1 =>
    if isNil (skip_list A1).2 then get_key_args (skip_list A1).1
    else .error (.raised (.type_error "sort_key" A1))

/-- Modelled from the spec: `PL_get_atom_ex` is defined in `pl-fli.c`, which is not part of
this file; it yields the atom, or raises an error when the term is not an atom. -/
def PL_get_atom_ex (t : Term) : Outcome String :=
  match t with
  | Term.atom name => .ok name
  | Term.var _ => .error (.raised .instantiation)
  | _ => .error (.raised (.type_error "atom" t))

/-- The predicate `sort/4`, `sort(+Key, +Order, +List, -Sorted)`. -/
def pl_sort4 (cmp : Term → Term → Int) (A1 A2 A3 : Term) : Outcome Term :=
  match sort4_key A1 with
  | .error f => .error f
  | .ok argv =>
    match PL_get_atom_ex A2 with
    | .error f => .error f
    | .ok order_name =>
      match find_order order_name order_defs with
      | none => .error (.raised (.domain_error "order" A2))
      | some od => pl_nat_sort cmp A3 od.remove_dups od.order argv false

/-! ## Notions used in the statements -/

/-- What the sort engine needs of `compareStandard`: the sign of the result flips when the
arguments are swapped, and "not greater" is transitive (a total preorder on keys). -/
structure StandardOrder (cmp : Term → Term → Int) : Prop where
  flip : ∀ a b, 0 < cmp a b ↔ cmp b a < 0
  trans : ∀ a b c, cmp a b ≤ 0 → cmp b c ≤ 0 → cmp a c ≤ 0

/-- The same two laws for a comparison on any carrier (nodes compared by their keys, elements
compared by the key extracted from them). -/
structure NodeOrder {α : Type} (c : α → α → Int) : Prop where
  flip : ∀ x y, 0 < c x y ↔ c y x < 0
  trans : ∀ x y z, c x y ≤ 0 → c y z ≤ 0 → c x z ≤ 0

/-- The order that a finished chain obeys: `x` may precede `y` when the comparison is not
positive and is not the value at which the later node is dropped (`0` when duplicates are
removed, which makes the order strict; `1` otherwise). -/
def keyR {α : Type} (c : α → α → Int) (rd : Int) (x y : α) : Prop :=
  c x y ≤ 0 ∧ c x y ≠ rd

/-- The test "the key of `x` compares equal to the key of `a`". -/
def keyEq {α : Type} (c : α → α → Int) (a x : α) : Bool :=
  decide (c a x = 0)

/-- What is kept of a group of nodes with equal keys: its first node when duplicates are
removed (`rd = 0`), all of it otherwise. -/
def sel {α : Type} (rd : Int) (l : List α) : List α :=
  if rd = 0 then l.take 1 else l

/-- The chain `out` is the sorted form of the segment `seg` of the input: it is in order, and
for every key the nodes of `out` with that key are those selected from `seg`, in the order
of `seg`. -/
structure Good {α : Type} (c : α → α → Int) (rd : Int) (out seg : List α) : Prop where
  sorted : out.Pairwise (keyR c rd)
  classes : ∀ a, out.filter (keyEq c a) = sel rd (seg.filter (keyEq c a))

/-- The stack (top first) holds the sorted forms of consecutive segments of the input which
together make up `consumed`. -/
inductive StackGood (c : List_Record → List_Record → Int) (rd : Int) : List list → list → Prop where
  | nil : StackGood c rd [] []
  | push {sp : List list} {consumed p seg : list} :
      StackGood c rd sp consumed → Good c rd p seg → StackGood c rd (p :: sp) (consumed ++ seg)

/-- The number `n` has `m` one-bits in its binary representation. -/
inductive OneBits : Nat → Nat → Prop where
  | zero : OneBits 0 0
  | even {n m : Nat} : 0 < n → OneBits n m → OneBits (2 * n) m
  | odd {n m : Nat} : OneBits n m → OneBits (2 * n + 1) (m + 1)

/-- The key under which an element is sorted: what `extract_key` returns for it (the element
itself where `extract_key` fails; the sort is then not reached). -/
def key_of (argv : List KeyArg) (pair : Bool) (t : Term) : Term :=
  match extract_key t argv pair with
  | .ok k => k
  | .error _ => t

/-- The macro `compare` on two elements, through the keys given by `kf`. -/
def term_compare (cmp : Term → Term → Int) (order : sort_order) (kf : Term → Term)
    (x y : Term) : Int :=
  compare cmp order { addr := 0, item := { term := x, key := kf x } }
    { addr := 0, item := { term := y, key := kf y } }

/-- The term `Key-Value`. -/
def mkPair (kv : Term × Term) : Term :=
  Term.compound "-" [kv.1, kv.2]

/-- A comparison given by a rank of the terms: the sign of the difference of the ranks. -/
def rank_cmp (rank : Term → Int) (a b : Term) : Int :=
  rank a - rank b

/-- A rank for the examples: an integer by its value, an atom by the code of its first
character, any other term `0`. -/
def sample_rank : Term → Int
  | Term.int v => v
  | Term.atom name => ((name.toList.headD 'a').toNat : Int)
  | _ => 0

/-- The `N`-th argument (counted from 1) of a compound that is not a dict; the term itself
where there is no such argument. -/
def arg_of (N : Int) (t : Term) : Term :=
  match arg_list t with
  | some args => args.getD (N - 1).toNat t
  | none => t

/-- The names of the eight order atoms of `sort/4`. -/
def order_names : List String :=
  ["<", "@<", "=<", "@=<", ">", "@>", ">=", "@>="]

/-- A step of a key-spec as the spec describes it: a positive (tagged) integer or an atom; the
integer `0` too where it is allowed. -/
def valid_key_arg (zero_ok : Bool) : Term → Bool
  | Term.int v => decide (0 < v) || (decide (v = 0) && zero_ok)
  | Term.atom _ => true
  | _ => false

/-- A key-spec as the spec describes it: zero, a positive integer, an atom, or a proper list
of positive integers and atoms (the integers being tagged ones). -/
def valid_key_spec (A1 : Term) : Bool :=
  valid_key_arg true A1 ||
    (isList A1 && isNil (skip_list A1).2 && (skip_list A1).1.all (valid_key_arg false))

/-- The runs that the iterations of the loop `while ((p = data) != NIL)` of `nat_sort` pick up
from the front of the data, in order; the first argument bounds the number of iterations. -/
def picked_runs (cmp : Term → Term → Int) (order : sort_order) (remove_dups : Int) :
    Nat → list → List list
  | _, [] => []
  | 0, _ :: _ => []
  | fuel + 1, p :: rest =>
    (pick_run cmp order remove_dups p rest).1 ::
      picked_runs cmp order remove_dups fuel (pick_run cmp order remove_dups p rest).2

/-- The states of `nat_sort` after each push `*sp++ = p`: the run counter `runs`, the stack
(top first) and the rest of the data, for the loop started as `nat_sort_loop` is. -/
def nat_sort_states (cmp : Term → Term → Int) (order : sort_order) (remove_dups : Int) :
    Nat → list → Nat → List list → List (Nat × List list × list)
  | _, [], _, _ => []
  | 0, _ :: _, _, _ => []
  | fuel + 1, p :: rest, runs, stack =>
    match merge_runs cmp order remove_dups (runs + 1)
        (pick_run cmp order remove_dups p rest).1 stack with
    | none => []
    | some stack1 =>
      (runs + 1, stack1, (pick_run cmp order remove_dups p rest).2) ::
        nat_sort_states cmp order remove_dups fuel (pick_run cmp order remove_dups p rest).2
          (runs + 1) stack1

/-! ## The sort engine on the block of nodes

The same function `nat_sort`, now with the `next` pointers: the block of `List_Record` structs
is a map from slot index to cell, a pointer is `none` (`NIL`) or the index of a slot, and every
access to a slot that `FREE` has reset is an explicit failure.  The loops follow pointers, so
they take a bound on the number of iterations. -/

/-- One slot of the block reserved at `gTop`: a `List_Record` with its `next` pointer and its
item, or the three unbound variables that `FREE` leaves. -/
inductive Cell where
  | node (next : Option Nat) (item : ITEM)
  | freed

/-- The block of nodes, by slot index. -/
abbrev Heap := Nat → Cell

namespace Ptr

/-- The loop `for (r = data; r != NIL; )` of `nat_sort`, where `q` is the last node of the run.
Returns the block, `q` and `r` at the exit of the loop. -/
def run_loop (cmp : Term → Term → Int) (order : sort_order) (remove_dups : Int) :
    Nat → Heap → Nat → Option Nat → Option (Heap × Nat × Option Nat)
  | _, H, q, none => some (H, q, none)
  | 0, _, _, some _ => none
  | fuel + 1, H, q, some r =>
    match H q, H r with
    | Cell.node _ qi, Cell.node s ri =>
      let c := compare cmp order ⟨q, qi⟩ ⟨r, ri⟩
      if c > 0 then some (H, q, some r)
      else if c = remove_dups then
        run_loop cmp order remove_dups fuel (Function.update H r Cell.freed) q s
      else
        let H1 := Function.update H q (Cell.node (some r) qi)
        match H1 r with
        | Cell.node s1 _ => run_loop cmp order remove_dups fuel H1 r s1
        | Cell.freed => none
    | _, _ => none

/-- The end of picking up a run, `q->next.as_ptr = NIL; data = r`, on the state in which the
loop `for (r = data; r != NIL; )` ends; `p` is the first node of the run. -/
def end_run (p : Nat) : Option (Heap × Nat × Option Nat) → Option (Heap × Nat × Option Nat)
  | none => none
  | some (H, q, r) =>
    match H q with
    | Cell.freed => none
    | Cell.node _ i => some (Function.update H q (Cell.node none i), p, r)

/-- Picking up a run from the front of the data, whose first node is `p`: the body of the loop
`while ((p = data) != NIL)` up to `runs++`.  Returns the block, `p` and `data`. -/
def pick_run (cmp : Term → Term → Int) (order : sort_order) (remove_dups : Int)
    (fuel : Nat) (H : Heap) (p : Nat) : Option (Heap × Nat × Option Nat) :=
  match H p with
  | Cell.freed => none
  | Cell.node none _ => some (H, p, none)
  | Cell.node (some q) pi =>
    match H q with
    | Cell.freed => none
    | Cell.node data qi =>
      let c := compare cmp order ⟨p, pi⟩ ⟨q, qi⟩
      let start : Heap × Nat × Nat :=
        if c > 0 then (Function.update H q (Cell.node (some p) qi), q, p)
        else if c = remove_dups then
          (Function.update (Function.update H p (Cell.node data pi)) q Cell.freed, p, p)
        else (H, p, q)
      end_run start.2.1 (run_loop cmp order remove_dups fuel start.1 start.2.2 data)

/-- The assignment `r->next.as_ptr = x`, where `r` is `&header` (`none`) or a slot.  The state
is the block and `header.next`. -/
def link (H : Heap) (hd : Option Nat) (r : Option Nat) (x : Option Nat) :
    Option (Heap × Option Nat) :=
  match r with
  | none => some (H, x)
  | some b =>
    match H b with
    | Cell.node _ bi => some (Function.update H b (Cell.node x bi), hd)
    | Cell.freed => none

/-- The loop `while (q && p)` followed by `r->next.as_ptr = q ? q : p`.  Returns the block and
`header.next`. -/
def merge_loop (cmp : Term → Term → Int) (order : sort_order) (remove_dups : Int) :
    Nat → Heap → Option Nat → Option Nat → Option Nat → Option Nat → Option (Heap × Option Nat)
  | _, H, hd, r, none, p => link H hd r p
  | _, H, hd, r, some q, none => link H hd r (some q)
  | 0, _, _, _, some _, some _ => none
  | fuel + 1, H, hd, r, some q, some p =>
    match H q, H p with
    | Cell.node _ qi, Cell.node _ pi =>
      let c := compare cmp order ⟨q, qi⟩ ⟨p, pi⟩
      if c ≤ 0 then
        match link H hd r (some q) with
        | none => none
        | some (H1, hd1) =>
          match H1 q with
          | Cell.freed => none
          | Cell.node qn _ =>
            if c = remove_dups then
              match H1 p with
              | Cell.freed => none
              | Cell.node s _ =>
                merge_loop cmp order remove_dups fuel (Function.update H1 p Cell.freed) hd1
                  (some q) qn s
            else merge_loop cmp order remove_dups fuel H1 hd1 (some q) qn (some p)
      else
        match link H hd r (some p) with
        | none => none
        | some (H1, hd1) =>
          match H1 p with
          | Cell.freed => none
          | Cell.node pn _ => merge_loop cmp order remove_dups fuel H1 hd1 (some p) (some q) pn
    | _, _ => none

/-- The two-way merge of `nat_sort`: `r = &header`, the loop, and `p = header.next.as_ptr`.
`header.next` is written before it is read, so it starts as `NIL` here. -/
def merge (cmp : Term → Term → Int) (order : sort_order) (remove_dups : Int)
    (fuel : Nat) (H : Heap) (q p : Option Nat) : Option (Heap × Option Nat) :=
  merge_loop cmp order remove_dups fuel H none none q p

/-- The loop `for (k = runs; 1 &~ k; k >>= 1)` followed by the push `*sp++ = p`. -/
def merge_runs (cmp : Term → Term → Int) (order : sort_order) (remove_dups : Int)
    (fuel : Nat) : Heap → Nat → Option Nat → List (Option Nat) →
    Option (Heap × List (Option Nat))
  | H, k, p, [] => if k % 2 = 0 then none else some (H, [p])
  | H, k, p, q :: sp =>
    if k % 2 = 0 then
      match merge cmp order remove_dups fuel H q p with
      | none => none
      | some (H1, p1) => merge_runs cmp order remove_dups fuel H1 (k / 2) p1 sp
    else some (H, p :: q :: sp)

/-- The loop `while ((p = data) != NIL)` of `nat_sort`, with the run counter and the stack as
state; `n` bounds the inner loops and the first argument the iterations of this one. -/
def nat_sort_loop (cmp : Term → Term → Int) (order : sort_order) (remove_dups : Int)
    (n : Nat) : Nat → Heap → Option Nat → Nat → List (Option Nat) →
    Option (Heap × List (Option Nat))
  | _, H, none, _, stack => some (H, stack)
  | 0, _, some _, _, _ => none
  | fuel + 1, H, some p, runs, stack =>
    match pick_run cmp order remove_dups n H p with
    | none => none
    | some (H1, p1, data1) =>
      match merge_runs cmp order remove_dups n H1 (runs + 1) (some p1) stack with
      | none => none
      | some (H2, stack1) => nat_sort_loop cmp order remove_dups n fuel H2 data1 (runs + 1) stack1

/-- The loop `while (sp != stack)` that merges all the runs left on the stack into `p`. -/
def merge_all (cmp : Term → Term → Int) (order : sort_order) (remove_dups : Int)
    (fuel : Nat) : Heap → Option Nat → List (Option Nat) → Option (Heap × Option Nat)
  | H, p, [] => some (H, p)
  | H, p, q :: sp =>
    match merge cmp order remove_dups fuel H q p with
    | none => none
    | some (H1, p1) => merge_all cmp order remove_dups fuel H1 p1 sp

/-- The function `nat_sort(data, remove_dups, order)` on a block of `n` nodes.  Returns the
block and the pointer that the function returns. -/
def nat_sort (cmp : Term → Term → Int) (n : Nat) (H : Heap) (data : Option Nat)
    (remove_dups : Bool) (order : sort_order) : Option (Heap × Option Nat) :=
  let rd : Int := if remove_dups then 0 else 1
  match nat_sort_loop cmp order rd n n H data 0 [] with
  | none => none
  | some (H1, []) => some (H1, none)
  | some (H1, p :: sp) => merge_all cmp order rd n H1 p sp

end Ptr

/-- The pointer `p` heads a chain in the block: the slots `l`, each a live node linked to the
next, the last one to `NIL`. -/
inductive IsChain (H : Heap) : Option Nat → List Nat → Prop where
  | nil : IsChain H none []
  | cons {a : Nat} {n : Option Nat} {i : ITEM} {l : List Nat} :
      H a = Cell.node n i → IsChain H n l → IsChain H (some a) (a :: l)

/-- The slots `l` run from `a` to `e`, each a live node linked to the next; the `next` pointer
of `e` is not constrained. -/
inductive Seg (H : Heap) : Nat → List Nat → Nat → Prop where
  | one {a : Nat} {n : Option Nat} {i : ITEM} : H a = Cell.node n i → Seg H a [a] a
  | cons {a b e : Nat} {i : ITEM} {l : List Nat} :
      H a = Cell.node (some b) i → Seg H b l e → Seg H a (a :: l) e

/-- The output of a merge so far: nothing while `r = &header`, else the slots `pre`, linked
from `header.next` to `r`. -/
def OutSeg (H : Heap) (hd r : Option Nat) (pre : List Nat) : Prop :=
  match r with
  | none => pre = []
  | some b => ∃ a, hd = some a ∧ Seg H a pre b

/-- The item stored in a slot (two unbound variables for a freed slot). -/
def item_at (H : Heap) (a : Nat) : ITEM :=
  match H a with
  | Cell.node _ i => i
  | Cell.freed => ⟨Term.var 0, Term.var 0⟩

/-- The nodes in the slots `l`, as the chain that the list model works on. -/
def nodes_of (H : Heap) (l : List Nat) : list :=
  l.map fun a => ⟨a, item_at H a⟩

/-- Between the blocks `H` and `H1` only `next` fields were rewritten and slots freed. -/
def Rewrites (H H1 : Heap) : Prop :=
  ∀ x, H1 x = Cell.freed ∨ ∃ n n1 i, H x = Cell.node n i ∧ H1 x = Cell.node n1 i

/-- What a piece of `nat_sort` that works on the slots `foot` and leaves the slots `out`
linked does to the block: it only rewrites `next` fields or frees, it leaves every slot
outside `foot` alone, and it frees the slots of `foot` that are not in `out`. -/
structure Step (H H1 : Heap) (foot out : List Nat) : Prop where
  rew : Rewrites H H1
  frame : ∀ x, x ∉ foot → H1 x = H x
  freed : ∀ x, x ∈ foot → x ∉ out → H1 x = Cell.freed
  sub : ∀ x, x ∈ out → x ∈ foot

/-- A block for the examples: the chain of slot 0 (key 2), slot 1 (key 1) and slot 2 (key 2). -/
def sample_heap : Heap := fun a =>
  if a = 0 then Cell.node (some 1) ⟨Term.atom "x", Term.int 2⟩
  else if a = 1 then Cell.node (some 2) ⟨Term.atom "y", Term.int 1⟩
  else if a = 2 then Cell.node none ⟨Term.atom "z", Term.int 2⟩
  else Cell.freed

/-- The block that `prolog_list_to_sort_list` leaves at `gTop` for the nodes `data`: every node
in the slot given by its `addr`, with `next` pointing to the node after it, the last one to
`NIL`; no other slot holds a node. -/
def block_of : list → Heap
  | [] => fun _ => Cell.freed
  | x :: rest =>
    Function.update (block_of rest) x.addr (Cell.node (rest.head?.map fun n => n.addr) x.item)

/-! ## Order lemmas -/

theorem compare_nodeOrder {cmp : Term → Term → Int} (h : StandardOrder cmp) (order : sort_order) :
    NodeOrder (compare cmp order) := by
  cases order
  · constructor
    · intro x y; simpa [compare] using h.flip x.item.key y.item.key
    · intro x y z; simpa [compare] using h.trans x.item.key y.item.key z.item.key
  · constructor
    · intro x y
      have h1 := h.flip x.item.key y.item.key
      have h2 := h.flip y.item.key x.item.key
      simp only [compare, if_true]
      omega
    · intro x y z hxy hyz
      have h1 := h.flip y.item.key x.item.key
      have h2 := h.flip z.item.key y.item.key
      have h3 := h.flip z.item.key x.item.key
      have h4 := h.trans z.item.key y.item.key x.item.key
      simp only [compare, if_true] at hxy hyz ⊢
      omega

namespace NodeOrder
variable {α : Type} {c : α → α → Int} (h : NodeOrder c)
include h

theorem refl (x : α) : c x x = 0 := by
  have := h.flip x x; omega

theorem symm {x y : α} (e : c x y = 0) : c y x = 0 := by
  have h1 := h.flip x y; have h2 := h.flip y x; omega

theorem eq_trans {x y z : α} (e1 : c x y = 0) (e2 : c y z = 0) : c x z = 0 := by
  have h1 := h.trans x y z (by omega) (by omega)
  have h2 := h.trans z y x (by have := h.symm e2; omega) (by have := h.symm e1; omega)
  have h3 := h.flip z x
  omega

theorem lt_of_lt_of_le {x y z : α} (e1 : c x y < 0) (e2 : c y z ≤ 0) : c x z < 0 := by
  have h1 := h.trans x y z (by omega) e2
  by_contra hn
  have h0 : c x z = 0 := by omega
  have h2 := h.trans y z x e2 (by have := h.symm h0; omega)
  have h3 := h.flip y x
  omega

theorem lt_of_le_of_lt {x y z : α} (e1 : c x y ≤ 0) (e2 : c y z < 0) : c x z < 0 := by
  have h1 := h.trans x y z e1 (by omega)
  by_contra hn
  have h0 : c x z = 0 := by omega
  have h2 := h.trans z x y (by have := h.symm h0; omega) e1
  have h3 := h.flip z y
  omega

end NodeOrder

/-! ## The two-way merge -/

section Merge
variable (cmp : Term → Term → Int) (order : sort_order) (rd : Int)

theorem merge_nil_right (q : list) : merge cmp order rd q [] = q := by
  cases q <;> rfl

theorem merge_cons_cons (qh : List_Record) (qt : list) (ph : List_Record) (pt : list) :
    merge cmp order rd (qh :: qt) (ph :: pt) =
      if compare cmp order qh ph ≤ 0 then
        if compare cmp order qh ph = rd then qh :: merge cmp order rd qt pt
        else qh :: merge cmp order rd qt (ph :: pt)
      else ph :: merge cmp order rd (qh :: qt) pt := rfl

theorem merge_ind {motive : list → list → Prop} (nil_left : ∀ p, motive [] p)
    (nil_right : ∀ qh qt, motive (qh :: qt) [])
    (step : ∀ qh qt ph pt, motive qt pt → motive qt (ph :: pt) → motive (qh :: qt) pt →
      motive (qh :: qt) (ph :: pt)) : ∀ q p, motive q p := by
  intro q
  induction q with
  | nil => exact nil_left
  | cons qh qt ihq =>
    intro p
    induction p with
    | nil => exact nil_right qh qt
    | cons ph pt ihp => exact step qh qt ph pt (ihq pt) (ihq (ph :: pt)) ihp

theorem mem_merge {x : List_Record} : ∀ q p : list, x ∈ merge cmp order rd q p → x ∈ q ∨ x ∈ p := by
  refine merge_ind ?_ ?_ ?_
  · intro p hx; exact Or.inr hx
  · intro qh qt hx; rw [merge_nil_right] at hx; exact Or.inl hx
  · intro qh qt ph pt ih1 ih2 ih3 hx
    rw [merge_cons_cons] at hx
    split at hx
    · split at hx
      · rcases List.mem_cons.1 hx with rfl | hx
        · simp
        · rcases ih1 hx with h | h <;> simp [h]
      · rcases List.mem_cons.1 hx with rfl | hx
        · simp
        · rcases ih2 hx with h | h
          · simp [h]
          · exact Or.inr h
    · rcases List.mem_cons.1 hx with rfl | hx
      · simp
      · rcases ih3 hx with h | h
        · exact Or.inl h
        · simp [h]

end Merge

theorem keyR_of_lt {α : Type} {c : α → α → Int} {rd : Int} (hrd : rd = 0 ∨ rd = 1)
    {x y : α} (h1 : c x y < 0) : keyR c rd x y := by
  rcases hrd with rfl | rfl <;> exact ⟨by omega, by omega⟩

section Order
variable {α : Type} {c : α → α → Int} (h : NodeOrder c) {rd : Int} (hrd : rd = 0 ∨ rd = 1)
include h hrd

theorem keyR_trans {x y z : α} (h1 : keyR c rd x y) (h2 : keyR c rd y z) : keyR c rd x z := by
  rcases hrd with rfl | rfl
  · have := h.lt_of_lt_of_le (x := x) (y := y) (z := z) (by have := h1.1; have := h1.2; omega) h2.1
    exact ⟨by omega, by omega⟩
  · have := h.trans x y z h1.1 h2.1
    exact ⟨this, by omega⟩

theorem keyR_of_le {x y z : α} (h1 : c x y ≤ 0) (h2 : keyR c rd y z) : keyR c rd x z := by
  rcases hrd with rfl | rfl
  · have := h.lt_of_le_of_lt (x := x) (y := y) (z := z) h1 (by have := h2.1; have := h2.2; omega)
    exact ⟨by omega, by omega⟩
  · have := h.trans x y z h1 h2.1
    exact ⟨this, by omega⟩

theorem keyR_of_gt {x y : α} (h1 : 0 < c y x) : keyR c rd x y :=
  keyR_of_lt hrd ((h.flip y x).1 h1)

end Order

section MergeSorted
variable {cmp : Term → Term → Int} {order : sort_order} {rd : Int}

theorem merge_sorted (h : NodeOrder (compare cmp order)) (hrd : rd = 0 ∨ rd = 1) :
    ∀ q p : list, q.Pairwise (keyR (compare cmp order) rd) → p.Pairwise (keyR (compare cmp order) rd) →
      (merge cmp order rd q p).Pairwise (keyR (compare cmp order) rd) := by
  refine merge_ind ?_ ?_ ?_
  · intro p _ hp; exact hp
  · intro qh qt hq _; rw [merge_nil_right]; exact hq
  · intro qh qt ph pt ih1 ih2 ih3 hq hp
    have hq' := List.pairwise_cons.1 hq
    have hp' := List.pairwise_cons.1 hp
    rw [merge_cons_cons]
    split
    · rename_i hle
      split
      · rename_i heq
        refine List.pairwise_cons.2 ⟨?_, ih1 hq'.2 hp'.2⟩
        intro y hy
        rcases mem_merge cmp order rd qt pt hy with hy | hy
        · exact hq'.1 y hy
        · exact keyR_of_le h hrd hle (hp'.1 y hy)
      · rename_i hne
        refine List.pairwise_cons.2 ⟨?_, ih2 hq'.2 hp⟩
        intro y hy
        rcases mem_merge cmp order rd qt (ph :: pt) hy with hy | hy
        · exact hq'.1 y hy
        · rcases List.mem_cons.1 hy with rfl | hy
          · exact ⟨hle, hne⟩
          · exact keyR_of_le h hrd hle (hp'.1 y hy)
    · rename_i hgt
      have hgt' : 0 < compare cmp order qh ph := by omega
      refine List.pairwise_cons.2 ⟨?_, ih3 hq hp'.2⟩
      intro y hy
      rcases mem_merge cmp order rd (qh :: qt) pt hy with hy | hy
      · rcases List.mem_cons.1 hy with rfl | hy
        · exact keyR_of_gt h hrd hgt'
        · exact keyR_trans h hrd (keyR_of_gt h hrd hgt') (hq'.1 y hy)
      · exact hp'.1 y hy

end MergeSorted

/-! ## Groups of equal keys -/

section Classes
variable {α : Type} {c : α → α → Int} (h : NodeOrder c)
include h

theorem keyEq_congr {a x y : α} (e : c x y = 0) : keyEq c a x = keyEq c a y := by
  unfold keyEq
  by_cases h1 : c a x = 0
  · have := h.eq_trans h1 e; simp [h1, this]
  · have h2 : c a y ≠ 0 := fun h2 => h1 (h.eq_trans h2 (h.symm e))
    simp [h1, h2]

theorem filter_keyEq_nil {a x : α} {l : List α} (hl : ∀ y ∈ l, c x y < 0)
    (e : keyEq c a x = true) : l.filter (keyEq c a) = [] := by
  rw [List.filter_eq_nil_iff]
  intro y hy hay
  have e1 : c a x = 0 := by simpa [keyEq] using e
  have e2 : c a y = 0 := by simpa [keyEq] using hay
  have := h.eq_trans (h.symm e1) e2
  have := hl y hy
  omega

end Classes

theorem keyR_zero {α : Type} {c : α → α → Int} {x y : α} :
    keyR c 0 x y ↔ c x y < 0 := by
  unfold keyR; omega

theorem keyR_one {α : Type} {c : α → α → Int} {x y : α} :
    keyR c 1 x y ↔ c x y ≤ 0 := by
  unfold keyR; omega

section MergeClasses
variable {cmp : Term → Term → Int} {order : sort_order}

theorem merge_classes_keep (h : NodeOrder (compare cmp order)) (a : List_Record) :
    ∀ q p : list, q.Pairwise (keyR (compare cmp order) 1) →
      (merge cmp order 1 q p).filter (keyEq (compare cmp order) a) =
        q.filter (keyEq (compare cmp order) a) ++ p.filter (keyEq (compare cmp order) a) := by
  refine merge_ind ?_ ?_ ?_
  · intro p _; simp [merge]
  · intro qh qt _; rw [merge_nil_right]; simp
  · intro qh qt ph pt _ ih2 ih3 hq
    have hq' := List.pairwise_cons.1 hq
    rw [merge_cons_cons]
    split
    · rename_i hle
      rw [if_neg (by omega)]
      simp only [List.filter_cons, ih2 hq'.2]
      split <;> simp
    · rename_i hgt
      rw [List.filter_cons, ih3 hq]
      by_cases e : keyEq (compare cmp order) a ph = true
      · have hnil : (qh :: qt).filter (keyEq (compare cmp order) a) = [] := by
          apply filter_keyEq_nil h (x := ph) _ e
          intro y hy
          have h1 : compare cmp order ph qh < 0 := (h.flip qh ph).1 (by omega)
          rcases List.mem_cons.1 hy with rfl | hy
          · exact h1
          · exact h.lt_of_lt_of_le h1 (keyR_one.1 (hq'.1 y hy))
        rw [hnil]
        simp [e]
      · simp [e]

theorem filter_sorted_dedup {α : Type} {c : α → α → Int} (h : NodeOrder c)
    (a : α) : ∀ l : List α, l.Pairwise (keyR c 0) →
      (l.filter (keyEq c a)).take 1 = l.filter (keyEq c a) := by
  intro l
  induction l with
  | nil => intro _; rfl
  | cons x t ih =>
    intro hl
    have hl' := List.pairwise_cons.1 hl
    rw [List.filter_cons]
    by_cases e : keyEq c a x = true
    · have hnil : t.filter (keyEq c a) = [] :=
        filter_keyEq_nil h (fun y hy => keyR_zero.1 (hl'.1 y hy)) e
      simp [e, hnil]
    · simp [e, ih hl'.2]

theorem merge_classes_dedup (h : NodeOrder (compare cmp order)) (a : List_Record) :
    ∀ q p : list, q.Pairwise (keyR (compare cmp order) 0) → p.Pairwise (keyR (compare cmp order) 0) →
      (merge cmp order 0 q p).filter (keyEq (compare cmp order) a) =
        (q.filter (keyEq (compare cmp order) a) ++ p.filter (keyEq (compare cmp order) a)).take 1 := by
  refine merge_ind ?_ ?_ ?_
  · intro p _ hp
    simp only [merge, List.filter_nil, List.nil_append]
    exact (filter_sorted_dedup h a p hp).symm
  · intro qh qt hq _
    rw [merge_nil_right]
    simp only [List.filter_nil, List.append_nil]
    exact (filter_sorted_dedup h a _ hq).symm
  · intro qh qt ph pt ih1 ih2 ih3 hq hp
    have hq' := List.pairwise_cons.1 hq
    have hp' := List.pairwise_cons.1 hp
    have hqt : ∀ y ∈ qt, compare cmp order qh y < 0 := fun y hy => keyR_zero.1 (hq'.1 y hy)
    have hpt : ∀ y ∈ pt, compare cmp order ph y < 0 := fun y hy => keyR_zero.1 (hp'.1 y hy)
    rw [merge_cons_cons]
    split
    · rename_i hle
      split
      · rename_i heq
        have hc := keyEq_congr h (a := a) heq
        by_cases e : keyEq (compare cmp order) a qh = true
        · have e' : keyEq (compare cmp order) a ph = true := by rw [← hc]; exact e
          simp [List.filter_cons, ih1 hq'.2 hp'.2, e, e', filter_keyEq_nil h hqt e,
            filter_keyEq_nil h hpt e']
        · have e' : ¬ keyEq (compare cmp order) a ph = true := by rw [← hc]; exact e
          simp [List.filter_cons, ih1 hq'.2 hp'.2, e, e']
      · rename_i hne
        have hlt : compare cmp order qh ph < 0 := by omega
        by_cases e : keyEq (compare cmp order) a qh = true
        · have hp2 : ∀ y ∈ ph :: pt, compare cmp order qh y < 0 := by
            intro y hy
            rcases List.mem_cons.1 hy with rfl | hy
            · exact hlt
            · exact h.lt_of_lt_of_le hlt (by have := hpt y hy; omega)
          rw [List.filter_cons, ih2 hq'.2 hp, filter_keyEq_nil h hqt e, filter_keyEq_nil h hp2 e]
          simp [List.filter_cons, e, filter_keyEq_nil h hqt e]
        · rw [List.filter_cons, ih2 hq'.2 hp]
          simp [List.filter_cons, e]
    · rename_i hgt
      have hlt : compare cmp order ph qh < 0 := (h.flip qh ph).1 (by omega)
      by_cases e : keyEq (compare cmp order) a ph = true
      · have hq2 : ∀ y ∈ qh :: qt, compare cmp order ph y < 0 := by
          intro y hy
          rcases List.mem_cons.1 hy with rfl | hy
          · exact hlt
          · exact h.lt_of_lt_of_le hlt (by have := hqt y hy; omega)
        rw [List.filter_cons, ih3 hq hp'.2, filter_keyEq_nil h hq2 e, filter_keyEq_nil h hpt e]
        simp [List.filter_cons, e, filter_keyEq_nil h hpt e]
      · rw [List.filter_cons, ih3 hq hp'.2]
        simp [List.filter_cons, e]

end MergeClasses

/-! ## Runs -/

theorem sel_zero {α : Type} (l : List α) : sel 0 l = l.take 1 := by simp [sel]

theorem sel_one {α : Type} (l : List α) : sel 1 l = l := by simp [sel]

theorem sel_nil {α : Type} (rd : Int) : sel rd ([] : List α) = [] := by
  unfold sel; split <;> rfl

theorem sel_singleton {α : Type} (rd : Int) (x : α) : sel rd [x] = [x] := by
  unfold sel; split <;> rfl

section Good
variable {cmp : Term → Term → Int} {order : sort_order} {rd : Int}

theorem good_nil {α : Type} (c : α → α → Int) (rd : Int) : Good c rd [] [] :=
  ⟨List.Pairwise.nil, fun _ => by simp [sel_nil]⟩

theorem good_singleton {α : Type} (c : α → α → Int) (rd : Int) (x : α) :
    Good c rd [x] [x] := by
  refine ⟨List.pairwise_singleton _ _, fun a => ?_⟩
  rw [List.filter_cons]
  split
  · simp [sel_singleton]
  · simp [sel_nil]

theorem merge_good (h : NodeOrder (compare cmp order)) (hrd : rd = 0 ∨ rd = 1) {q p s1 s2 : list}
    (hq : Good (compare cmp order) rd q s1) (hp : Good (compare cmp order) rd p s2) :
    Good (compare cmp order) rd (merge cmp order rd q p) (s1 ++ s2) := by
  refine ⟨merge_sorted h hrd q p hq.sorted hp.sorted, fun a => ?_⟩
  rcases hrd with rfl | rfl
  · rw [merge_classes_dedup h a q p hq.sorted hp.sorted, hq.classes a, hp.classes a,
      List.filter_append]
    simp only [sel_zero]
    cases List.filter (keyEq (compare cmp order) a) s1 with
    | nil => simp
    | cons x l => simp
  · rw [merge_classes_keep h a q p hq.sorted, hq.classes a, hp.classes a, List.filter_append]
    simp only [sel_one]

theorem good_cons (h : NodeOrder (compare cmp order)) (hrd : rd = 0 ∨ rd = 1) {q : List_Record}
    {out seg : list} (hq : ∀ y ∈ out, keyR (compare cmp order) rd q y)
    (hg : Good (compare cmp order) rd out seg) :
    Good (compare cmp order) rd (q :: out) (q :: seg) := by
  refine ⟨List.pairwise_cons.2 ⟨hq, hg.sorted⟩, fun a => ?_⟩
  rcases hrd with rfl | rfl
  · by_cases e : keyEq (compare cmp order) a q = true
    · have hnil := filter_keyEq_nil h (fun y hy => keyR_zero.1 (hq y hy)) e
      simp [List.filter_cons, e, hnil, sel_zero]
    · simp [List.filter_cons, e, hg.classes a]
  · simp only [sel_one, List.filter_cons, hg.classes a]

theorem good_dup (h : NodeOrder (compare cmp order)) {q x : List_Record} {out seg : list}
    (e : compare cmp order q x = 0) (hg : Good (compare cmp order) 0 out (q :: seg)) :
    Good (compare cmp order) 0 out (q :: x :: seg) := by
  refine ⟨hg.sorted, fun a => ?_⟩
  rw [hg.classes a]
  have hc := keyEq_congr h (a := a) e
  by_cases e1 : keyEq (compare cmp order) a q = true
  · simp [List.filter_cons, e1, sel_zero]
  · have e2 : ¬ keyEq (compare cmp order) a x = true := by rw [← hc]; exact e1
    simp [List.filter_cons, e1, e2]

theorem good_swap (h : NodeOrder (compare cmp order)) {q p : List_Record} {out seg : list}
    (e : compare cmp order p q ≠ 0) (hg : Good (compare cmp order) rd out (q :: p :: seg)) :
    Good (compare cmp order) rd out (p :: q :: seg) := by
  refine ⟨hg.sorted, fun a => ?_⟩
  rw [hg.classes a]
  congr 1
  by_cases e1 : keyEq (compare cmp order) a q = true
  · have e2 : ¬ keyEq (compare cmp order) a p = true := by
      intro e2
      have h1 : compare cmp order a q = 0 := by simpa [keyEq] using e1
      have h2 : compare cmp order a p = 0 := by simpa [keyEq] using e2
      exact e (h.eq_trans (h.symm h2) h1)
    simp [List.filter_cons, e1, e2]
  · simp [List.filter_cons, e1]

theorem run_loop_good (h : NodeOrder (compare cmp order)) (hrd : rd = 0 ∨ rd = 1) :
    ∀ (r : list) (q : List_Record), ∃ pre : list,
      r = pre ++ (run_loop cmp order rd q r).2 ∧
      Good (compare cmp order) rd (q :: (run_loop cmp order rd q r).1) (q :: pre) := by
  intro r
  induction r with
  | nil => intro q; exact ⟨[], rfl, good_singleton _ _ q⟩
  | cons x s ih =>
    intro q
    rw [run_loop]
    simp only
    split
    · exact ⟨[], rfl, good_singleton _ _ q⟩
    · rename_i hle
      split
      · rename_i heq
        have hrd0 : rd = 0 := by omega
        subst hrd0
        obtain ⟨pre, hs, hg⟩ := ih q
        exact ⟨x :: pre, by rw [List.cons_append, ← hs], good_dup h heq hg⟩
      · rename_i hne
        obtain ⟨pre, hs, hg⟩ := ih x
        refine ⟨x :: pre, by rw [List.cons_append, ← hs], good_cons h hrd ?_ hg⟩
        have hqx : keyR (compare cmp order) rd q x := ⟨by omega, hne⟩
        intro y hy
        rcases List.mem_cons.1 hy with rfl | hy
        · exact hqx
        · exact keyR_trans h hrd hqx ((List.pairwise_cons.1 hg.sorted).1 y hy)

theorem pick_run_good (h : NodeOrder (compare cmp order)) (hrd : rd = 0 ∨ rd = 1)
    (p : List_Record) (rest : list) : ∃ pre : list,
      p :: rest = pre ++ (pick_run cmp order rd p rest).2 ∧ pre ≠ [] ∧
      Good (compare cmp order) rd (pick_run cmp order rd p rest).1 pre := by
  cases rest with
  | nil => exact ⟨[p], rfl, by simp, good_singleton _ _ p⟩
  | cons q data =>
    by_cases hgt : compare cmp order p q > 0
    · have e : pick_run cmp order rd p (q :: data) =
          (q :: p :: (run_loop cmp order rd p data).1, (run_loop cmp order rd p data).2) := by
        simp [pick_run, hgt]
      rw [e]
      obtain ⟨pre, hs, hg⟩ := run_loop_good h hrd data p
      refine ⟨p :: q :: pre, by simp [← hs], by simp, ?_⟩
      apply good_swap h (by omega)
      apply good_cons h hrd _ hg
      have hqp : keyR (compare cmp order) rd q p := keyR_of_gt h hrd hgt
      intro y hy
      rcases List.mem_cons.1 hy with rfl | hy
      · exact hqp
      · exact keyR_trans h hrd hqp ((List.pairwise_cons.1 hg.sorted).1 y hy)
    · have e : pick_run cmp order rd p (q :: data) =
          (p :: (run_loop cmp order rd p (q :: data)).1, (run_loop cmp order rd p (q :: data)).2) := by
        simp only [pick_run, run_loop, hgt, if_false]
        split <;> rfl
      rw [e]
      obtain ⟨pre, hs, hg⟩ := run_loop_good h hrd (q :: data) p
      exact ⟨p :: pre, by rw [List.cons_append, ← hs], by simp, hg⟩

end Good

/-! ## The run stack -/

section Stack
variable {cmp : Term → Term → Int} {order : sort_order} {rd : Int}

theorem stackGood_nil_inv {c : List_Record → List_Record → Int} {rd : Int} {consumed : list}
    (hs : StackGood c rd [] consumed) : consumed = [] := by
  cases hs; rfl

theorem stackGood_cons_inv {c : List_Record → List_Record → Int} {rd : Int} {p : list}
    {sp : List list} {consumed : list} (hs : StackGood c rd (p :: sp) consumed) :
    ∃ c0 seg, consumed = c0 ++ seg ∧ StackGood c rd sp c0 ∧ Good c rd p seg := by
  cases hs with
  | push hs0 hp => exact ⟨_, _, rfl, hs0, hp⟩

theorem merge_runs_good (h : NodeOrder (compare cmp order)) (hrd : rd = 0 ∨ rd = 1) :
    ∀ (stack : List list) (k : Nat) (p seg consumed : list) (stack1 : List list),
      StackGood (compare cmp order) rd stack consumed → Good (compare cmp order) rd p seg →
      merge_runs cmp order rd k p stack = some stack1 →
      StackGood (compare cmp order) rd stack1 (consumed ++ seg) := by
  intro stack
  induction stack with
  | nil =>
    intro k p seg consumed stack1 hs hp hm
    rw [merge_runs] at hm
    split at hm
    · exact absurd hm (by simp)
    · cases hm
      exact StackGood.push hs hp
  | cons q sp ih =>
    intro k p seg consumed stack1 hs hp hm
    rw [merge_runs] at hm
    split at hm
    · cases hs with
      | push hs0 hq =>
        rw [List.append_assoc]
        exact ih _ _ _ _ _ hs0 (merge_good h hrd hq hp) hm
    · cases hm
      exact StackGood.push hs hp

theorem merge_runs_some :
    ∀ n m : Nat, OneBits n m → ∀ (p : list) (stack : List list), stack.length = m →
      ∃ stack1, merge_runs cmp order rd (n + 1) p stack = some stack1 ∧
        OneBits (n + 1) stack1.length := by
  intro n m hb
  induction hb with
  | zero =>
    intro p stack hl
    have : stack = [] := List.length_eq_zero.1 hl
    subst this
    exact ⟨[p], by simp [merge_runs], OneBits.odd OneBits.zero⟩
  | @even n m hn hb _ =>
    intro p stack hl
    refine ⟨p :: stack, ?_, ?_⟩
    · cases stack with
      | nil => rw [merge_runs, if_neg (by omega)]
      | cons q sp => rw [merge_runs, if_neg (by omega)]
    · simpa [hl] using OneBits.odd hb
  | @odd n m hb ih =>
    intro p stack hl
    cases stack with
    | nil => simp at hl
    | cons q sp =>
      have hl' : sp.length = m := by simpa using hl
      obtain ⟨stack1, h1, h2⟩ := ih (merge cmp order rd q p) sp hl'
      refine ⟨stack1, ?_, ?_⟩
      · rw [merge_runs, if_pos (by omega)]
        have : (2 * n + 1 + 1) / 2 = n + 1 := by omega
        rw [this]; exact h1
      · have : 2 * n + 1 + 1 = 2 * (n + 1) := by omega
        rw [this]; exact OneBits.even (by omega) h2

theorem merge_all_good (h : NodeOrder (compare cmp order)) (hrd : rd = 0 ∨ rd = 1) :
    ∀ (stack : List list) (p seg consumed : list),
      StackGood (compare cmp order) rd stack consumed → Good (compare cmp order) rd p seg →
      Good (compare cmp order) rd (merge_all cmp order rd p stack) (consumed ++ seg) := by
  intro stack
  induction stack with
  | nil =>
    intro p seg consumed hs hp
    cases hs
    simpa [merge_all] using hp
  | cons q sp ih =>
    intro p seg consumed hs hp
    cases hs with
    | push hs0 hq =>
      rw [merge_all, List.append_assoc]
      exact ih _ _ _ hs0 (merge_good h hrd hq hp)

theorem nat_sort_loop_good (h : NodeOrder (compare cmp order)) (hrd : rd = 0 ∨ rd = 1) :
    ∀ (fuel : Nat) (data : list) (runs : Nat) (stack : List list) (consumed : list),
      data.length ≤ fuel → OneBits runs stack.length →
      StackGood (compare cmp order) rd stack consumed →
      ∃ stack1, nat_sort_loop cmp order rd fuel data runs stack = some stack1 ∧
        StackGood (compare cmp order) rd stack1 (consumed ++ data) ∧
        ∃ runs1, OneBits runs1 stack1.length ∧ runs1 ≤ runs + data.length := by
  intro fuel
  induction fuel with
  | zero =>
    intro data runs stack consumed hl hb hs
    have : data = [] := List.length_eq_zero.1 (by omega)
    subst this
    exact ⟨stack, by simp [nat_sort_loop], by simpa using hs, runs, hb, by omega⟩
  | succ fuel ih =>
    intro data runs stack consumed hl hb hs
    cases data with
    | nil => exact ⟨stack, by simp [nat_sort_loop], by simpa using hs, runs, hb, by omega⟩
    | cons p rest =>
      obtain ⟨pre, hpre, hne, hg⟩ := pick_run_good h hrd p rest
      obtain ⟨stack1, h1, h2⟩ := @merge_runs_some cmp order rd
        runs stack.length hb (pick_run cmp order rd p rest).1 stack rfl
      have hs1 := merge_runs_good h hrd _ _ _ _ _ _ hs hg h1
      have hlen0 : (pick_run cmp order rd p rest).2.length + 1 ≤ (p :: rest).length := by
        have := congrArg List.length hpre
        rw [List.length_append] at this
        have hpos : 0 < pre.length := List.length_pos.2 hne
        omega
      have hlen : (pick_run cmp order rd p rest).2.length ≤ fuel := by omega
      obtain ⟨stack2, h3, h4, runs1, h5, h6⟩ :=
        ih _ (runs + 1) stack1 (consumed ++ pre) hlen h2 hs1
      refine ⟨stack2, ?_, ?_, runs1, h5, by omega⟩
      · rw [nat_sort_loop]
        simp only [h1]
        exact h3
      · rw [hpre, ← List.append_assoc]; exact h4

/-- The value of the C variable `remove_dups` after `remove_dups = !remove_dups`. -/
theorem rd_cases (remove_dups : Bool) :
    (if remove_dups then (0 : Int) else 1) = 0 ∨ (if remove_dups then (0 : Int) else 1) = 1 := by
  cases remove_dups <;> simp

theorem nat_sort_good (h : StandardOrder cmp) (data : list) (remove_dups : Bool)
    (order : sort_order) : ∃ out, nat_sort cmp data remove_dups order = some out ∧
      Good (compare cmp order) (if remove_dups then 0 else 1) out data := by
  have hn := compare_nodeOrder h order
  have hrd := rd_cases remove_dups
  obtain ⟨stack1, h1, h2, _⟩ := nat_sort_loop_good hn hrd data.length data 0 [] [] (le_refl _)
    OneBits.zero StackGood.nil
  unfold nat_sort
  simp only [h1]
  cases stack1 with
  | nil =>
    refine ⟨[], rfl, ?_⟩
    have := stackGood_nil_inv h2
    rw [List.nil_append] at this
    rw [this]
    exact good_nil _ _
  | cons p sp =>
    refine ⟨_, rfl, ?_⟩
    obtain ⟨c0, seg, he, hs, hp⟩ := stackGood_cons_inv h2
    rw [List.nil_append] at he
    rw [he]
    exact merge_all_good hn hrd sp p seg c0 hs hp

end Stack

/-! ## What the groups determine -/

section Determined
variable {α : Type} {c : α → α → Int} (h : NodeOrder c)
include h

theorem keyEq_self (x : α) : keyEq c x x = true := by
  simp [keyEq, h.refl x]

theorem nil_of_classes_nil {l : List α} (hl : ∀ a, l.filter (keyEq c a) = []) : l = [] := by
  cases l with
  | nil => rfl
  | cons y u =>
    have := hl y
    simp [List.filter_cons, keyEq_self h y] at this

theorem perm_of_classes : ∀ (n : Nat) (l1 l2 : List α), l1.length ≤ n →
    (∀ a, l1.filter (keyEq c a) = l2.filter (keyEq c a)) → l1.Perm l2 := by
  intro n
  induction n with
  | zero =>
    intro l1 l2 hn hcl
    have h1 : l1 = [] := List.length_eq_zero.1 (by omega)
    subst h1
    have h2 : l2 = [] := nil_of_classes_nil h (fun a => (hcl a).symm)
    subst h2
    exact List.Perm.refl _
  | succ n ih =>
    intro l1 l2 hn hcl
    cases l1 with
    | nil =>
      have h2 : l2 = [] := nil_of_classes_nil h (fun a => (hcl a).symm)
      subst h2
      exact List.Perm.refl _
    | cons x t =>
      have hrest : (List.filter (fun y => !keyEq c x y) (x :: t)).Perm
          (List.filter (fun y => !keyEq c x y) l2) := by
        apply ih
        · have h1 : List.filter (fun y => !keyEq c x y) (x :: t) =
              List.filter (fun y => !keyEq c x y) t := by
            simp [List.filter_cons, keyEq_self h x]
          rw [h1]
          have := List.length_filter_le (fun y => !keyEq c x y) t
          simp only [List.length_cons] at hn
          omega
        · intro a
          rw [List.filter_comm, hcl a, List.filter_comm]
      have h1 := List.filter_append_perm (keyEq c x) (x :: t)
      have h2 := List.filter_append_perm (keyEq c x) l2
      rw [hcl x] at h1
      exact h1.symm.trans ((List.Perm.append_left _ hrest).trans h2)

theorem eq_of_sorted_classes {rd : Int} : ∀ (l1 l2 : List α),
    l1.Pairwise (keyR c rd) → l2.Pairwise (keyR c rd) →
    (∀ a, l1.filter (keyEq c a) = l2.filter (keyEq c a)) → l1 = l2 := by
  intro l1
  induction l1 with
  | nil =>
    intro l2 _ _ hcl
    exact (nil_of_classes_nil h (fun a => (hcl a).symm)).symm
  | cons x t ih =>
    intro l2 hs1 hs2 hcl
    cases l2 with
    | nil => exact nil_of_classes_nil h (fun a => hcl a)
    | cons y u =>
      have hs1' := List.pairwise_cons.1 hs1
      have hs2' := List.pairwise_cons.1 hs2
      have hxy : x = y := by
        by_cases e : c x y = 0
        · have hx := hcl x
          have e1 : keyEq c x y = true := by simp [keyEq, e]
          simp only [List.filter_cons, keyEq_self h x, e1, if_true] at hx
          exact (List.cons.inj hx).1
        · exfalso
          have hy_in : y ∈ (x :: t).filter (keyEq c y) := by
            rw [hcl y]; simp [List.filter_cons, keyEq_self h y]
          have hx_in : x ∈ (y :: u).filter (keyEq c x) := by
            rw [← hcl x]; simp [List.filter_cons, keyEq_self h x]
          have hy1 := (List.mem_filter.1 hy_in).1
          have hx1 := (List.mem_filter.1 hx_in).1
          have hyt : y ∈ t := by
            rcases List.mem_cons.1 hy1 with e1 | e1
            · exact absurd (by rw [e1]; exact h.refl x) e
            · exact e1
          have hxu : x ∈ u := by
            rcases List.mem_cons.1 hx1 with e1 | e1
            · exact absurd (by rw [e1]; exact h.refl y) e
            · exact e1
          have l1 := (hs1'.1 y hyt).1
          have l2 := (hs2'.1 x hxu).1
          have f := h.flip y x
          omega
      subst hxy
      congr 1
      apply ih u hs1'.2 hs2'.2
      intro a
      have ha := hcl a
      simp only [List.filter_cons] at ha
      split at ha
      · exact (List.cons.inj ha).2
      · exact ha

end Determined

section GoodFacts
variable {α : Type} {c : α → α → Int} (h : NodeOrder c)
include h

theorem Good.perm {out seg : List α} (hg : Good c 1 out seg) : out.Perm seg :=
  perm_of_classes h out.length out seg (le_refl _) (fun a => by rw [hg.classes a, sel_one])

theorem Good.mem_seg {rd : Int} {out seg : List α} (hg : Good c rd out seg) {x : α}
    (hx : x ∈ out) : x ∈ seg := by
  have h1 : x ∈ out.filter (keyEq c x) := List.mem_filter.2 ⟨hx, keyEq_self h x⟩
  rw [hg.classes x] at h1
  unfold sel at h1
  split at h1
  · exact (List.mem_filter.1 (List.mem_of_mem_take h1)).1
  · exact (List.mem_filter.1 h1).1

theorem Good.exists_eq {rd : Int} (hrd : rd = 0 ∨ rd = 1) {out seg : List α}
    (hg : Good c rd out seg) {y : α} (hy : y ∈ seg) : ∃ x ∈ out, c y x = 0 := by
  have h1 : y ∈ seg.filter (keyEq c y) := List.mem_filter.2 ⟨hy, keyEq_self h y⟩
  have h2 : sel rd (seg.filter (keyEq c y)) ≠ [] := by
    cases hl : seg.filter (keyEq c y) with
    | nil => rw [hl] at h1; simp at h1
    | cons z u => rcases hrd with rfl | rfl <;> simp [sel]
  rw [← hg.classes y] at h2
  obtain ⟨x, hx⟩ := List.exists_mem_of_ne_nil _ h2
  have hx' := List.mem_filter.1 hx
  exact ⟨x, hx'.1, by simpa [keyEq] using hx'.2⟩

end GoodFacts

/-! ## From the list to the chain and back -/

theorem skip_list_mkList (L : List Term) : skip_list (mkList L) = (L, ATOM_nil) := by
  induction L with
  | nil => rfl
  | cons x t ih => simp [mkList, skip_list, ih]

theorem put_sort_list_eq : ∀ l : list, l ≠ [] →
    put_sort_list l = some (mkList (l.map (fun n => n.item.term))) := by
  intro l
  induction l with
  | nil => intro hl; exact absurd rfl hl
  | cons sl rest ih =>
    intro _
    cases rest with
    | nil => rfl
    | cons n rest =>
      rw [put_sort_list, ih (by simp)]
      rfl

theorem build_nodes_ok (argv : List KeyArg) (pair : Bool) : ∀ (L : List Term) (addr : Nat),
    (∀ x ∈ L, ∃ k, extract_key x argv pair = .ok k) →
    ∃ lp, build_nodes argv pair addr L = .ok lp ∧ lp.map (fun n => n.item.term) = L ∧
      ∀ n ∈ lp, n.item.key = key_of argv pair n.item.term := by
  intro L
  induction L with
  | nil => intro addr _; exact ⟨[], rfl, rfl, by simp⟩
  | cons x t ih =>
    intro addr hex
    obtain ⟨k, hk⟩ := hex x (by simp)
    obtain ⟨lp, h1, h2, h3⟩ := ih (addr + 1) (fun y hy => hex y (by simp [hy]))
    refine ⟨{ addr := addr, item := { term := x, key := k } } :: lp, ?_, ?_, ?_⟩
    · simp [build_nodes, hk, h1]
    · simp [h2]
    · intro n hn
      rcases List.mem_cons.1 hn with rfl | hn
      · simp [key_of, hk]
      · exact h3 n hn

theorem sel_map {α β : Type} (f : α → β) (rd : Int) (l : List α) :
    (sel rd l).map f = sel rd (l.map f) := by
  unfold sel; split <;> simp [List.map_take]

theorem term_compare_nodeOrder {cmp : Term → Term → Int} (h : StandardOrder cmp)
    (order : sort_order) (kf : Term → Term) : NodeOrder (term_compare cmp order kf) := by
  have hn := compare_nodeOrder h order
  exact ⟨fun x y => hn.flip _ _, fun x y z => hn.trans _ _ _⟩

theorem good_map_term {cmp : Term → Term → Int} (h : StandardOrder cmp) {order : sort_order}
    {rd : Int} {kf : Term → Term} {out lp : list}
    (hk : ∀ n ∈ lp, n.item.key = kf n.item.term)
    (hg : Good (compare cmp order) rd out lp) :
    Good (term_compare cmp order kf) rd (out.map (fun n => n.item.term))
      (lp.map (fun n => n.item.term)) := by
  have hn := compare_nodeOrder h order
  have hsub : ∀ n ∈ out, n ∈ lp := fun n hn' => hg.mem_seg hn hn'
  have hc : ∀ (a : List_Record) (n : List_Record), n ∈ lp →
      compare cmp order a n = compare cmp order a
        { addr := 0, item := { term := n.item.term, key := kf n.item.term } } := by
    intro a n hn'
    simp [compare, hk n hn']
  have hc2 : ∀ (a : List_Record) (n : List_Record), a ∈ lp →
      compare cmp order a n = compare cmp order
        { addr := 0, item := { term := a.item.term, key := kf a.item.term } } n := by
    intro a n hn'
    simp [compare, hk a hn']
  constructor
  · rw [List.pairwise_map]
    refine List.Pairwise.imp_of_mem ?_ hg.sorted
    intro a b ha hb hab
    unfold keyR term_compare
    rw [← hc _ b (hsub b hb), ← hc2 a _ (hsub a ha)]
    exact hab
  · intro a
    have key : ∀ l : list, (∀ n ∈ l, n ∈ lp) →
        List.filter (keyEq (term_compare cmp order kf) a) (l.map (fun n => n.item.term)) =
        (List.filter (keyEq (compare cmp order)
          { addr := 0, item := { term := a, key := kf a } }) l).map (fun n => n.item.term) := by
      intro l hl
      rw [List.filter_map]
      congr 1
      apply List.filter_congr
      intro n hn'
      simp only [Function.comp, keyEq, term_compare]
      have := hc { addr := 0, item := { term := a, key := kf a } } n (hl n hn')
      simp only [this]
    rw [key out hsub, key lp (fun n hn' => hn'), hg.classes, sel_map]

theorem compare_eq_zero (cmp : Term → Term → Int) (order : sort_order) (a x : List_Record) :
    compare cmp order a x = 0 ↔ cmp a.item.key x.item.key = 0 := by
  cases order <;> simp [compare]

theorem keyEq_compare (cmp : Term → Term → Int) (order : sort_order) (a x : List_Record) :
    keyEq (compare cmp order) a x = decide (cmp a.item.key x.item.key = 0) := by
  unfold keyEq
  exact decide_eq_decide.2 (compare_eq_zero cmp order a x)

theorem classes_map_term {cmp : Term → Term → Int} (h : StandardOrder cmp) {order : sort_order}
    {rd : Int} {kf : Term → Term} {out lp : list}
    (hk : ∀ n ∈ lp, n.item.key = kf n.item.term)
    (hg : Good (compare cmp order) rd out lp) (k : Term) :
    List.filter (fun x => decide (cmp k (kf x) = 0)) (out.map (fun n => n.item.term)) =
      sel rd (List.filter (fun x => decide (cmp k (kf x) = 0)) (lp.map (fun n => n.item.term))) := by
  have hn := compare_nodeOrder h order
  have hsub : ∀ n ∈ out, n ∈ lp := fun n hn' => hg.mem_seg hn hn'
  have key : ∀ l : list, (∀ n ∈ l, n ∈ lp) →
      List.filter (fun x => decide (cmp k (kf x) = 0)) (l.map (fun n => n.item.term)) =
      (List.filter (keyEq (compare cmp order)
        { addr := 0, item := { term := k, key := k } }) l).map (fun n => n.item.term) := by
    intro l hl
    rw [List.filter_map]
    congr 1
    apply List.filter_congr
    intro n hn'
    simp only [Function.comp, keyEq_compare, hk n (hl n hn')]
  rw [key out hsub, key lp (fun n hn' => hn'), hg.classes, sel_map]

theorem isNil_ATOM_nil : isNil ATOM_nil = true := by
  simp [isNil, ATOM_nil]

theorem pl_nat_sort_good {cmp : Term → Term → Int} (h : StandardOrder cmp) (L : List Term)
    (remove_dups : Bool) (order : sort_order) (argv : List KeyArg) (pair : Bool)
    (hex : ∀ x ∈ L, ∃ k, extract_key x argv pair = .ok k) :
    ∃ S, pl_nat_sort cmp (mkList L) remove_dups order argv pair = .ok (mkList S) ∧
      Good (term_compare cmp order (key_of argv pair)) (if remove_dups then 0 else 1) S L ∧
      ∀ k : Term, S.filter (fun x => decide (cmp k (key_of argv pair x) = 0)) =
        sel (if remove_dups then 0 else 1)
          (L.filter (fun x => decide (cmp k (key_of argv pair x) = 0))) := by
  unfold pl_nat_sort prolog_list_to_sort_list prolog_list_to_sort_list_walked
  simp only [skip_list_mkList, isNil_ATOM_nil, Bool.true_or, Bool.not_true]
  cases L with
  | nil => exact ⟨[], by simp [mkList], good_nil _ _, fun k => by simp [sel_nil]⟩
  | cons x t =>
    by_cases hno : (x :: t).length = 1 ∧ pair = false ∧ argv.length = 0 ∧ isList ATOM_nil = false
    · have ht : t = [] := by
        have := hno.1
        simp at this
        exact this
      subst ht
      refine ⟨[x], by simp [hno], good_singleton _ _ x, fun k => ?_⟩
      rw [List.filter_cons]
      split
      · simp [sel_singleton]
      · simp [sel_nil]
    · obtain ⟨lp, h1, h2, h3⟩ := build_nodes_ok argv pair (x :: t) 0 hex
      obtain ⟨out, h4, h5⟩ := nat_sort_good h lp remove_dups order
      have hn := compare_nodeOrder h order
      have hlp : lp ≠ [] := by
        intro e; rw [e] at h2; simp at h2
      have hout : out ≠ [] := by
        obtain ⟨y, hy⟩ := List.exists_mem_of_ne_nil _ hlp
        obtain ⟨z, hz, _⟩ := h5.exists_eq hn (rd_cases remove_dups) hy
        exact List.ne_nil_of_mem hz
      refine ⟨out.map (fun n => n.item.term), ?_, ?_, ?_⟩
      · have hlen : ¬ (x :: t).length = 0 := by simp
        simp only [if_neg hlen, if_neg hno, h1, h4, put_sort_list_eq out hout,
          Bool.false_eq_true, if_false]
      · rw [← h2]
        exact good_map_term h h3 h5
      · intro k
        rw [← h2]
        exact classes_map_term h h3 h5 k

/-! ## The claims -/

theorem rank_cmp_standardOrder (rank : Term → Int) : StandardOrder (rank_cmp rank) := by
  constructor
  · intro a b; unfold rank_cmp; omega
  · intro a b c; unfold rank_cmp; omega

theorem key_of_whole (t : Term) : key_of [] false t = t := by
  simp [key_of, extract_key, extract_path]

theorem term_compare_asc (cmp : Term → Term → Int) (kf : Term → Term) (x y : Term) :
    term_compare cmp sort_order.SORT_ASC kf x y = cmp (kf x) (kf y) := by
  simp [term_compare, compare]

theorem term_compare_desc (cmp : Term → Term → Int) (kf : Term → Term) (x y : Term) :
    term_compare cmp sort_order.SORT_DESC kf x y = -cmp (kf x) (kf y) := by
  simp [term_compare, compare]

theorem take_one_filter {α : Type} (p : α → Bool) (l : List α) :
    (l.filter p).take 1 = (l.find? p).toList := by
  induction l with
  | nil => rfl
  | cons x t ih =>
    rw [List.filter_cons, List.find?_cons]
    cases hp : p x with
    | true => simp
    | false => simpa using ih

/-- C1: for every proper list `L` (and a `compareStandard` that is a total preorder), `sort/2`
returns a list that is strictly ascending, every element of which is an element of `L`, and
which holds, for every element of `L`, an element that compares equal to it. -/
theorem sort2_strictly_ascending_dedup (cmp : Term → Term → Int) (h : StandardOrder cmp)
    (L : List Term) :
    ∃ S, pl_sort2 cmp (mkList L) = .ok (mkList S) ∧
      S.Pairwise (fun x y => cmp x y < 0) ∧
      (∀ x ∈ S, x ∈ L) ∧
      (∀ y ∈ L, ∃ x ∈ S, cmp y x = 0) := by
  obtain ⟨S, hS, hg, _⟩ := pl_nat_sort_good h L true sort_order.SORT_ASC [] false
    (fun x _ => ⟨x, rfl⟩)
  have hn := term_compare_nodeOrder h sort_order.SORT_ASC (key_of [] false)
  simp only [if_true] at hg
  refine ⟨S, hS, ?_, ?_, ?_⟩
  · refine hg.sorted.imp ?_
    intro x y hxy
    have := keyR_zero.1 hxy
    simpa [term_compare_asc, key_of_whole] using this
  · intro x hx
    exact hg.mem_seg hn hx
  · intro y hy
    obtain ⟨x, hx, e⟩ := hg.exists_eq hn (Or.inl rfl) hy
    exact ⟨x, hx, by simpa [term_compare_asc, key_of_whole] using e⟩

/-- Witness of C1 on the list `[3, 1, 3]`. -/
theorem sort2_strictly_ascending_dedup_witness :
    StandardOrder (rank_cmp sample_rank) ∧
    ∃ S, pl_sort2 (rank_cmp sample_rank) (mkList [Term.int 3, Term.int 1, Term.int 3]) =
        .ok (mkList S) ∧
      S.Pairwise (fun x y => rank_cmp sample_rank x y < 0) ∧
      (∀ x ∈ S, x ∈ [Term.int 3, Term.int 1, Term.int 3]) ∧
      (∀ y ∈ [Term.int 3, Term.int 1, Term.int 3], ∃ x ∈ S, rank_cmp sample_rank y x = 0) :=
  ⟨rank_cmp_standardOrder _,
    sort2_strictly_ascending_dedup _ (rank_cmp_standardOrder _) _⟩

theorem std_refl {cmp : Term → Term → Int} (h : StandardOrder cmp) (a : Term) : cmp a a = 0 := by
  have := h.flip a a; omega

/-- C2: `msort/2` returns a permutation of `L` (so of the same length) that is non-descending
and keeps the elements that compare equal in their order in `L`; the same holds of `nat_sort`
without duplicate removal for nodes with any keys; and the chain tagged `(1,a),(3,b),(1,c)` with
the first component as key is sorted into `(1,a),(1,c),(3,b)`. -/
theorem msort2_stable_permutation (cmp : Term → Term → Int) (h : StandardOrder cmp) :
    (∀ L : List Term, ∃ S, pl_msort2 cmp (mkList L) = .ok (mkList S) ∧
      S.Perm L ∧ S.length = L.length ∧
      S.Pairwise (fun x y => cmp x y ≤ 0) ∧
      ∀ k : Term, S.filter (fun x => decide (cmp k x = 0)) =
        L.filter (fun x => decide (cmp k x = 0))) ∧
    (∀ data : list, ∃ out, nat_sort cmp data false sort_order.SORT_ASC = some out ∧
      out.Perm data ∧ out.length = data.length ∧
      out.Pairwise (fun x y => cmp x.item.key y.item.key ≤ 0) ∧
      ∀ k : Term, out.filter (fun x => decide (cmp k x.item.key = 0)) =
        data.filter (fun x => decide (cmp k x.item.key = 0))) ∧
    (∀ a b c : Term, cmp (Term.int 1) (Term.int 3) < 0 →
      nat_sort cmp
        [ { addr := 0, item := { term := a, key := Term.int 1 } },
          { addr := 1, item := { term := b, key := Term.int 3 } },
          { addr := 2, item := { term := c, key := Term.int 1 } } ] false sort_order.SORT_ASC =
      some
        [ { addr := 0, item := { term := a, key := Term.int 1 } },
          { addr := 2, item := { term := c, key := Term.int 1 } },
          { addr := 1, item := { term := b, key := Term.int 3 } } ]) := by
  refine ⟨?_, ?_, ?_⟩
  · intro L
    obtain ⟨S, hS, hg, hk⟩ := pl_nat_sort_good h L false sort_order.SORT_ASC [] false
      (fun x _ => ⟨x, rfl⟩)
    have hn := term_compare_nodeOrder h sort_order.SORT_ASC (key_of [] false)
    simp only [Bool.false_eq_true, if_false] at hg hk
    have hp := hg.perm hn
    refine ⟨S, hS, hp, hp.length_eq, ?_, ?_⟩
    · refine hg.sorted.imp ?_
      intro x y hxy
      have := keyR_one.1 hxy
      simpa [term_compare_asc, key_of_whole] using this
    · intro k
      have := hk k
      simpa [key_of_whole, sel_one] using this
  · intro data
    obtain ⟨out, ho, hg⟩ := nat_sort_good h data false sort_order.SORT_ASC
    have hn := compare_nodeOrder h sort_order.SORT_ASC
    simp only [Bool.false_eq_true, if_false] at hg
    have hp := hg.perm hn
    refine ⟨out, ho, hp, hp.length_eq, ?_, ?_⟩
    · refine hg.sorted.imp ?_
      intro x y hxy
      have := keyR_one.1 hxy
      simpa [compare] using this
    · intro k
      have := hg.classes { addr := 0, item := { term := k, key := k } }
      simpa [keyEq_compare, sel_one] using this
  · intro a b c h13
    have h31 : ¬ cmp (Term.int 3) (Term.int 1) ≤ 0 := by
      have := (h.flip (Term.int 3) (Term.int 1)).2 h13; omega
    have h31' : 0 < cmp (Term.int 3) (Term.int 1) := by omega
    have h11 := std_refl h (Term.int 1)
    have hne : ¬ cmp (Term.int 1) (Term.int 3) = 1 := by omega
    simp [hne, nat_sort, nat_sort_loop, pick_run, run_loop, merge_runs, merge, merge_step,
      merge_all, compare, h13, h31, h31', h11, not_lt.2 (le_of_lt h13)]

/-- Witness of C2 with the ranks as comparison. -/
theorem msort2_stable_permutation_witness :
    StandardOrder (rank_cmp sample_rank) ∧
    nat_sort (rank_cmp sample_rank)
        [ { addr := 0, item := { term := Term.atom "a", key := Term.int 1 } },
          { addr := 1, item := { term := Term.atom "b", key := Term.int 3 } },
          { addr := 2, item := { term := Term.atom "c", key := Term.int 1 } } ] false
        sort_order.SORT_ASC =
      some
        [ { addr := 0, item := { term := Term.atom "a", key := Term.int 1 } },
          { addr := 2, item := { term := Term.atom "c", key := Term.int 1 } },
          { addr := 1, item := { term := Term.atom "b", key := Term.int 3 } } ] :=
  ⟨rank_cmp_standardOrder _,
    (msort2_stable_permutation _ (rank_cmp_standardOrder _)).2.2 _ _ _ (by decide)⟩

theorem keyEq_compare_fun (cmp : Term → Term → Int) (order : sort_order) (a : List_Record) :
    keyEq (compare cmp order) a = fun x => decide (cmp a.item.key x.item.key = 0) :=
  funext (keyEq_compare cmp order a)

/-- C3: with duplicate removal (any keys, either direction) `nat_sort` returns a chain in
which the nodes of each group of equal keys are exactly the first node of that group in the
input: one node for every group that occurs in the input, none for the others. -/
theorem nat_sort_dedup_keeps_first (cmp : Term → Term → Int) (h : StandardOrder cmp)
    (data : list) (order : sort_order) :
    ∃ out, nat_sort cmp data true order = some out ∧
      (∀ k : Term, out.filter (fun x => decide (cmp k x.item.key = 0)) =
        (data.find? (fun x => decide (cmp k x.item.key = 0))).toList) ∧
      (∀ a ∈ data, ∃ first,
        data.find? (fun x => decide (cmp a.item.key x.item.key = 0)) = some first ∧
        out.filter (fun x => decide (cmp a.item.key x.item.key = 0)) = [first]) := by
  obtain ⟨out, ho, hg⟩ := nat_sort_good h data true order
  simp only [if_true] at hg
  have hcl : ∀ k : Term, out.filter (fun x => decide (cmp k x.item.key = 0)) =
      (data.find? (fun x => decide (cmp k x.item.key = 0))).toList := by
    intro k
    have := hg.classes { addr := 0, item := { term := k, key := k } }
    rw [sel_zero, take_one_filter, keyEq_compare_fun] at this
    exact this
  refine ⟨out, ho, hcl, ?_⟩
  intro a ha
  cases hf : data.find? (fun x => decide (cmp a.item.key x.item.key = 0)) with
  | none =>
    have := List.find?_eq_none.1 hf a ha
    simp [std_refl h] at this
  | some first =>
    refine ⟨first, rfl, ?_⟩
    rw [hcl, hf]
    rfl

/-- Witness of C3 on a chain of three nodes, two of them with the same key. -/
theorem nat_sort_dedup_keeps_first_witness :
    StandardOrder (rank_cmp sample_rank) ∧
    ∃ out, nat_sort (rank_cmp sample_rank)
        [ { addr := 0, item := { term := Term.atom "x", key := Term.int 2 } },
          { addr := 1, item := { term := Term.atom "y", key := Term.int 1 } },
          { addr := 2, item := { term := Term.atom "z", key := Term.int 2 } } ] true
        sort_order.SORT_DESC = some out ∧
      (∀ k : Term, out.filter (fun x => decide (rank_cmp sample_rank k x.item.key = 0)) =
        (List.find? (fun x => decide (rank_cmp sample_rank k x.item.key = 0))
          [ { addr := 0, item := { term := Term.atom "x", key := Term.int 2 } },
            { addr := 1, item := { term := Term.atom "y", key := Term.int 1 } },
            { addr := 2, item := { term := Term.atom "z", key := Term.int 2 } } ]).toList) ∧
      (∀ a ∈ ([ { addr := 0, item := { term := Term.atom "x", key := Term.int 2 } },
            { addr := 1, item := { term := Term.atom "y", key := Term.int 1 } },
            { addr := 2, item := { term := Term.atom "z", key := Term.int 2 } } ] : list),
        ∃ first,
          List.find? (fun x => decide (rank_cmp sample_rank a.item.key x.item.key = 0))
            [ { addr := 0, item := { term := Term.atom "x", key := Term.int 2 } },
              { addr := 1, item := { term := Term.atom "y", key := Term.int 1 } },
              { addr := 2, item := { term := Term.atom "z", key := Term.int 2 } } ] = some first ∧
          out.filter (fun x => decide (rank_cmp sample_rank a.item.key x.item.key = 0)) =
            [first]) :=
  ⟨rank_cmp_standardOrder _,
    nat_sort_dedup_keeps_first _ (rank_cmp_standardOrder _) _ _⟩

theorem key_of_mkPair (kv : Term × Term) : key_of [] true (mkPair kv) = kv.1 := by
  simp [key_of, extract_key, mkPair, pair_key]

theorem mkPair_injective : Function.Injective mkPair := by
  intro a b hab
  simp only [mkPair, Term.compound.injEq, List.cons.injEq, and_true, true_and] at hab
  exact Prod.ext hab.1 hab.2

theorem exists_pairs_of_mem : ∀ (S : List Term) (P : List (Term × Term)),
    (∀ x ∈ S, x ∈ P.map mkPair) → ∃ Q : List (Term × Term), S = Q.map mkPair := by
  intro S
  induction S with
  | nil => intro P _; exact ⟨[], rfl⟩
  | cons x t ih =>
    intro P hS
    obtain ⟨Q, hQ⟩ := ih P (fun y hy => hS y (by simp [hy]))
    obtain ⟨kv, _, hkv⟩ := List.mem_map.1 (hS x (by simp))
    exact ⟨kv :: Q, by simp [hkv, hQ]⟩

/-- C4: `keysort/2` on a proper list of `Key-Value` pairs returns a permutation of the list
ordered non-descending on the keys alone, the pairs of equal key in their input order; and
`keysort([b-2, a-1, a-3])` is `[a-1, a-3, b-2]` when `a` is before `b`. -/
theorem keysort2_stable_on_keys (cmp : Term → Term → Int) (h : StandardOrder cmp) :
    (∀ P : List (Term × Term), ∃ Q : List (Term × Term),
      pl_keysort2 cmp (mkList (P.map mkPair)) = .ok (mkList (Q.map mkPair)) ∧
      Q.Perm P ∧
      Q.Pairwise (fun x y => cmp x.1 y.1 ≤ 0) ∧
      ∀ k : Term, Q.filter (fun x => decide (cmp k x.1 = 0)) =
        P.filter (fun x => decide (cmp k x.1 = 0))) ∧
    (cmp (Term.atom "a") (Term.atom "b") < 0 →
      pl_keysort2 cmp (mkList [mkPair (Term.atom "b", Term.int 2),
        mkPair (Term.atom "a", Term.int 1), mkPair (Term.atom "a", Term.int 3)]) =
      .ok (mkList [mkPair (Term.atom "a", Term.int 1), mkPair (Term.atom "a", Term.int 3),
        mkPair (Term.atom "b", Term.int 2)])) := by
  constructor
  · intro P
    obtain ⟨S, hS, hg, hk⟩ := pl_nat_sort_good h (P.map mkPair) false sort_order.SORT_ASC [] true
      (by
        intro x hx
        obtain ⟨kv, _, rfl⟩ := List.mem_map.1 hx
        exact ⟨kv.1, by simp [extract_key, mkPair, pair_key]⟩)
    have hn := term_compare_nodeOrder h sort_order.SORT_ASC (key_of [] true)
    simp only [Bool.false_eq_true, if_false] at hg hk
    have hp := hg.perm hn
    obtain ⟨Q, rfl⟩ := exists_pairs_of_mem S P (fun x hx => hp.subset hx)
    refine ⟨Q, hS, ?_, ?_, ?_⟩
    · have hinv : ∀ l : List (Term × Term), (l.map mkPair).map (fun t => match t with
          | Term.compound _ [k, v] => (k, v)
          | _ => (t, t)) = l := by
        intro l
        induction l with
        | nil => rfl
        | cons x t ih => simp only [List.map_cons, ih, mkPair]
      have := hp.map (fun t => match t with
        | Term.compound _ [k, v] => (k, v)
        | _ => (t, t))
      rw [hinv, hinv] at this
      exact this
    · have := hg.sorted
      rw [List.pairwise_map] at this
      refine this.imp ?_
      intro x y hxy
      have := keyR_one.1 hxy
      simpa [term_compare_asc, key_of_mkPair] using this
    · intro k
      have := hk k
      rw [sel_one, List.filter_map, List.filter_map] at this
      have := List.map_injective_iff.2 mkPair_injective this
      simpa [Function.comp, key_of_mkPair] using this
  · intro hab
    have hba : ¬ cmp (Term.atom "b") (Term.atom "a") ≤ 0 := by
      have := (h.flip (Term.atom "b") (Term.atom "a")).2 hab; omega
    have hba' : 0 < cmp (Term.atom "b") (Term.atom "a") := by omega
    have haa := std_refl h (Term.atom "a")
    simp [pl_keysort2, pl_nat_sort, prolog_list_to_sort_list, prolog_list_to_sort_list_walked,
      skip_list, mkList, isNil, isList, ATOM_nil, build_nodes, extract_key, pair_key, mkPair,
      put_sort_list,
      nat_sort, nat_sort_loop, pick_run, run_loop, merge_runs, merge, merge_step,
      merge_all, compare, hba, hba', haa]

/-- Witness of C4 with the ranks as comparison. -/
theorem keysort2_stable_on_keys_witness :
    StandardOrder (rank_cmp sample_rank) ∧
    pl_keysort2 (rank_cmp sample_rank) (mkList [mkPair (Term.atom "b", Term.int 2),
        mkPair (Term.atom "a", Term.int 1), mkPair (Term.atom "a", Term.int 3)]) =
      .ok (mkList [mkPair (Term.atom "a", Term.int 1), mkPair (Term.atom "a", Term.int 3),
        mkPair (Term.atom "b", Term.int 2)]) :=
  ⟨rank_cmp_standardOrder _,
    (keysort2_stable_on_keys _ (rank_cmp_standardOrder _)).2 (by decide)⟩

/-- C5: `sort/2` applied to the result of `sort/2` yields that result again. -/
theorem sort2_idempotent (cmp : Term → Term → Int) (h : StandardOrder cmp) (L : List Term) :
    ∃ S, pl_sort2 cmp (mkList L) = .ok S ∧ pl_sort2 cmp S = .ok S := by
  obtain ⟨S0, hS0, hg0, _⟩ := pl_nat_sort_good h L true sort_order.SORT_ASC [] false
    (fun x _ => ⟨x, rfl⟩)
  obtain ⟨S1, hS1, hg1, _⟩ := pl_nat_sort_good h S0 true sort_order.SORT_ASC [] false
    (fun x _ => ⟨x, rfl⟩)
  have hn := term_compare_nodeOrder h sort_order.SORT_ASC (key_of [] false)
  simp only [if_true] at hg0 hg1
  have e : S1 = S0 := by
    apply eq_of_sorted_classes hn S1 S0 hg1.sorted hg0.sorted
    intro a
    rw [hg1.classes a, sel_zero]
    exact filter_sorted_dedup hn a S0 hg0.sorted
  refine ⟨mkList S0, hS0, ?_⟩
  rw [← e] at hS1 ⊢
  exact hS1

/-- Witness of C5 on the list `[2, 1, 2]`. -/
theorem sort2_idempotent_witness :
    StandardOrder (rank_cmp sample_rank) ∧
    ∃ S, pl_sort2 (rank_cmp sample_rank) (mkList [Term.int 2, Term.int 1, Term.int 2]) = .ok S ∧
      pl_sort2 (rank_cmp sample_rank) S = .ok S :=
  ⟨rank_cmp_standardOrder _, sort2_idempotent _ (rank_cmp_standardOrder _) _⟩

theorem find_order_none (name : String) (hn : name ∉ order_names) :
    find_order name order_defs = none := by
  simp only [order_names, List.mem_cons, List.mem_singleton, not_or, List.not_mem_nil,
    or_false] at hn
  obtain ⟨h1, h2, h3, h4, h5, h6, h7, h8⟩ := hn
  simp [find_order, order_defs, Ne.symm h1, Ne.symm h2, Ne.symm h3, Ne.symm h4, Ne.symm h5,
    Ne.symm h6, Ne.symm h7, Ne.symm h8]

theorem pl_sort4_eq (cmp : Term → Term → Int) {A1 : Term} {argv : List KeyArg}
    (hk : sort4_key A1 = .ok argv) {name : String} {od : order_def}
    (ho : find_order name order_defs = some od) (A3 : Term) :
    pl_sort4 cmp A1 (Term.atom name) A3 =
      pl_nat_sort cmp A3 od.remove_dups od.order argv false := by
  simp [pl_sort4, PL_get_atom_ex, hk, ho]

/-- Counterexample to C6 as stated: the key-spec `1` is valid and `[a]` is a proper list, yet
`sort(1, >=, [a], S)` raises a type error, because no key can be extracted from `a`. -/
theorem sort4_desc_nonstrict_counterexample :
    sort4_key (Term.int 1) = .ok [KeyArg.int 1] ∧
    pl_sort4 (rank_cmp sample_rank) (Term.int 1) (Term.atom ">=") (mkList [Term.atom "a"]) =
      .error (.raised (.type_error "compound" (Term.atom "a"))) ∧
    ¬ ∃ S, pl_sort4 (rank_cmp sample_rank) (Term.int 1) (Term.atom ">=")
      (mkList [Term.atom "a"]) = .ok (mkList S) := by
  refine ⟨rfl, rfl, ?_⟩
  rintro ⟨S, hS⟩
  have e : pl_sort4 (rank_cmp sample_rank) (Term.int 1) (Term.atom ">=")
      (mkList [Term.atom "a"]) = .error (.raised (.type_error "compound" (Term.atom "a"))) := rfl
  rw [e] at hS
  cases hS

/-- C6 (amended): for a key-spec that `sort/4` accepts, a proper list `L` from every element of
which the key can be extracted, and the order atom `>=` or `@>=`, the comparison is the negated
result of `compareStandard` and `sort/4` returns a permutation of `L` whose keys are
non-ascending, the elements of equal key in their input order. -/
theorem sort4_desc_nonstrict (cmp : Term → Term → Int) (h : StandardOrder cmp) (A1 : Term)
    (argv : List KeyArg) (hkey : sort4_key A1 = .ok argv) (L : List Term)
    (hex : ∀ x ∈ L, ∃ k, extract_key x argv false = .ok k)
    (name : String) (hname : name = ">=" ∨ name = "@>=") :
    (∀ x y : List_Record, compare cmp sort_order.SORT_DESC x y = -cmp x.item.key y.item.key) ∧
    ∃ S, pl_sort4 cmp A1 (Term.atom name) (mkList L) = .ok (mkList S) ∧
      S.Perm L ∧
      S.Pairwise (fun x y => 0 ≤ cmp (key_of argv false x) (key_of argv false y)) ∧
      ∀ k : Term, S.filter (fun x => decide (cmp k (key_of argv false x) = 0)) =
        L.filter (fun x => decide (cmp k (key_of argv false x) = 0)) := by
  obtain ⟨S, hS, hg, hk⟩ := pl_nat_sort_good h L false sort_order.SORT_DESC argv false hex
  have hn := term_compare_nodeOrder h sort_order.SORT_DESC (key_of argv false)
  simp only [Bool.false_eq_true, if_false] at hg hk
  have hp := hg.perm hn
  refine ⟨fun x y => by simp [compare], S, ?_, hp, ?_, ?_⟩
  · rcases hname with rfl | rfl
    · rw [@pl_sort4_eq cmp A1 argv hkey ">=" ⟨">=", sort_order.SORT_DESC, false⟩ rfl]
      exact hS
    · rw [@pl_sort4_eq cmp A1 argv hkey "@>=" ⟨"@>=", sort_order.SORT_DESC, false⟩ rfl]
      exact hS
  · refine hg.sorted.imp ?_
    intro x y hxy
    have := keyR_one.1 hxy
    rw [term_compare_desc] at this
    omega
  · intro k
    have := hk k
    rw [sel_one] at this
    exact this

/-- Witness of C6 (amended): key-spec `1`, order `>=`, the list `[f(2), f(1), f(2)]`. -/
theorem sort4_desc_nonstrict_witness :
    StandardOrder (rank_cmp sample_rank) ∧
    (∀ x y : List_Record, compare (rank_cmp sample_rank) sort_order.SORT_DESC x y =
      -rank_cmp sample_rank x.item.key y.item.key) ∧
    ∃ S, pl_sort4 (rank_cmp sample_rank) (Term.int 1) (Term.atom ">=")
        (mkList [Term.compound "f" [Term.int 2], Term.compound "f" [Term.int 1],
          Term.compound "f" [Term.int 2]]) = .ok (mkList S) ∧
      S.Perm [Term.compound "f" [Term.int 2], Term.compound "f" [Term.int 1],
          Term.compound "f" [Term.int 2]] ∧
      S.Pairwise (fun x y => 0 ≤ rank_cmp sample_rank (key_of [KeyArg.int 1] false x)
        (key_of [KeyArg.int 1] false y)) ∧
      ∀ k : Term,
        S.filter (fun x => decide (rank_cmp sample_rank k (key_of [KeyArg.int 1] false x) = 0)) =
        List.filter (fun x => decide (rank_cmp sample_rank k (key_of [KeyArg.int 1] false x) = 0))
          [Term.compound "f" [Term.int 2], Term.compound "f" [Term.int 1],
            Term.compound "f" [Term.int 2]] :=
  ⟨rank_cmp_standardOrder _,
    sort4_desc_nonstrict _ (rank_cmp_standardOrder _) (Term.int 1) [KeyArg.int 1] rfl _
      (by
        intro x hx
        simp only [List.mem_cons, List.mem_singleton, List.not_mem_nil, or_false] at hx
        rcases hx with rfl | rfl | rfl <;> exact ⟨_, rfl⟩)
      ">=" (Or.inl rfl)⟩

theorem pl_sort4_bad_order (cmp : Term → Term → Int) {A1 : Term} {argv : List KeyArg}
    (hk : sort4_key A1 = .ok argv) {name : String} (hn : name ∉ order_names) (A3 : Term) :
    pl_sort4 cmp A1 (Term.atom name) A3 =
      .error (.raised (.domain_error "order" (Term.atom name))) := by
  simp [pl_sort4, PL_get_atom_ex, hk, find_order_none name hn]

theorem pl_sort4_twin (cmp : Term → Term → Int) (A1 A3 : Term) (n1 n2 : String)
    {o1 o2 : order_def} (h1 : find_order n1 order_defs = some o1)
    (h2 : find_order n2 order_defs = some o2) (ho : o1.order = o2.order)
    (hr : o1.remove_dups = o2.remove_dups) :
    pl_sort4 cmp A1 (Term.atom n1) A3 = pl_sort4 cmp A1 (Term.atom n2) A3 := by
  unfold pl_sort4
  cases sort4_key A1 with
  | error f => rfl
  | ok argv => simp [PL_get_atom_ex, h1, h2, ho, hr]

/-- C7: the table `order_defs` resolves the order atom to exactly eight combinations; an atom
and its `@` twin give the same outcome of `sort/4` for every key-spec and input; an atom that is
not in the table is resolved to nothing, and `sort/4` never succeeds with it. -/
theorem order_defs_eight_combinations :
    (find_order "<" order_defs = some ⟨"<", sort_order.SORT_ASC, true⟩ ∧
     find_order "@<" order_defs = some ⟨"@<", sort_order.SORT_ASC, true⟩ ∧
     find_order "=<" order_defs = some ⟨"=<", sort_order.SORT_ASC, false⟩ ∧
     find_order "@=<" order_defs = some ⟨"@=<", sort_order.SORT_ASC, false⟩ ∧
     find_order ">" order_defs = some ⟨">", sort_order.SORT_DESC, true⟩ ∧
     find_order "@>" order_defs = some ⟨"@>", sort_order.SORT_DESC, true⟩ ∧
     find_order ">=" order_defs = some ⟨">=", sort_order.SORT_DESC, false⟩ ∧
     find_order "@>=" order_defs = some ⟨"@>=", sort_order.SORT_DESC, false⟩) ∧
    (∀ name : String, name ∉ order_names → find_order name order_defs = none) ∧
    (∀ (cmp : Term → Term → Int) (A1 A3 : Term),
      pl_sort4 cmp A1 (Term.atom "<") A3 = pl_sort4 cmp A1 (Term.atom "@<") A3 ∧
      pl_sort4 cmp A1 (Term.atom "=<") A3 = pl_sort4 cmp A1 (Term.atom "@=<") A3 ∧
      pl_sort4 cmp A1 (Term.atom ">") A3 = pl_sort4 cmp A1 (Term.atom "@>") A3 ∧
      pl_sort4 cmp A1 (Term.atom ">=") A3 = pl_sort4 cmp A1 (Term.atom "@>=") A3) ∧
    (∀ (cmp : Term → Term → Int) (A1 A3 : Term) (name : String), name ∉ order_names →
      ∀ S : Term, pl_sort4 cmp A1 (Term.atom name) A3 ≠ .ok S) := by
  refine ⟨⟨rfl, rfl, rfl, rfl, rfl, rfl, rfl, rfl⟩, find_order_none, ?_, ?_⟩
  · intro cmp A1 A3
    exact ⟨pl_sort4_twin cmp A1 A3 "<" "@<" rfl rfl rfl rfl,
      pl_sort4_twin cmp A1 A3 "=<" "@=<" rfl rfl rfl rfl,
      pl_sort4_twin cmp A1 A3 ">" "@>" rfl rfl rfl rfl,
      pl_sort4_twin cmp A1 A3 ">=" "@>=" rfl rfl rfl rfl⟩
  · intro cmp A1 A3 name hn S
    unfold pl_sort4
    cases sort4_key A1 with
    | error f => simp
    | ok argv => simp [PL_get_atom_ex, find_order_none name hn]

/-- Witness of C7: the atom `foo` is not in the table, and `sort/4` does not succeed with it. -/
theorem order_defs_eight_combinations_witness :
    find_order "foo" order_defs = none ∧
    ∀ S : Term, pl_sort4 (rank_cmp sample_rank) (Term.int 0) (Term.atom "foo")
      (mkList [Term.int 2, Term.int 1]) ≠ .ok S :=
  ⟨order_defs_eight_combinations.2.1 "foo" (by decide),
    order_defs_eight_combinations.2.2.2 _ _ _ "foo" (by decide)⟩

theorem get_key_arg_ex_true (t : Term) (zero_ok : Bool) :
    (∃ k, get_key_arg_ex t zero_ok = .rc_true k) ↔ valid_key_arg zero_ok t = true := by
  cases t <;> simp [get_key_arg_ex, valid_key_arg]
  case int v =>
    by_cases h1 : 0 < v
    · simp [h1]
    · by_cases h2 : v = 0 ∧ zero_ok = true
      · simp [h1, h2]
      · have h3 : v ≤ 0 := by omega
        simp only [h1, h2, h3, if_false, if_true, false_or]
        simp only [not_and] at h2
        constructor
        · rintro ⟨k, hk⟩
          cases hk
        · intro hh
          exact hh.elim
  case bigint v =>
    split <;> simp

theorem get_key_args_ok (l : List Term) :
    (∃ argv, get_key_args l = .ok argv) ↔ l.all (valid_key_arg false) = true := by
  induction l with
  | nil => simp [get_key_args]
  | cons x t ih =>
    rw [get_key_args, List.all_cons, Bool.and_eq_true, ← ih, ← get_key_arg_ex_true]
    constructor
    · rintro ⟨argv, h⟩
      cases hx : get_key_arg_ex x false with
      | rc_true k =>
        rw [hx] at h
        cases ht : get_key_args t with
        | error f => rw [ht] at h; simp at h
        | ok a => exact ⟨⟨k, rfl⟩, ⟨a, rfl⟩⟩
      | rc_false r =>
        rw [hx] at h
        cases r <;> simp at h
      | rc_minus1 => rw [hx] at h; simp at h
    · rintro ⟨⟨k, hk⟩, ⟨a, ha⟩⟩
      exact ⟨k :: a, by simp [hk, ha]⟩

theorem sort4_key_ok (A1 : Term) :
    (∃ argv, sort4_key A1 = .ok argv) ↔ valid_key_spec A1 = true := by
  unfold sort4_key valid_key_spec
  cases hx : get_key_arg_ex A1 true with
  | rc_true k =>
    have := (get_key_arg_ex_true A1 true).1 ⟨k, hx⟩
    simp only [this, Bool.true_or, iff_true]
    split
    · exact ⟨_, rfl⟩
    · exact ⟨_, rfl⟩
  | rc_false r =>
    have hv : valid_key_arg true A1 = false := by
      cases hv : valid_key_arg true A1 with
      | false => rfl
      | true =>
        obtain ⟨k, hk⟩ := (get_key_arg_ex_true A1 true).2 hv
        rw [hk] at hx; cases hx
    have hl : isList A1 = false := by
      cases A1 <;> simp [get_key_arg_ex, isList] at hx ⊢
    cases r <;> simp [hv, hl]
  | rc_minus1 =>
    have hv : valid_key_arg true A1 = false := by
      cases hv : valid_key_arg true A1 with
      | false => rfl
      | true =>
        obtain ⟨k, hk⟩ := (get_key_arg_ex_true A1 true).2 hv
        rw [hk] at hx; cases hx
    simp only [hv, Bool.false_or]
    by_cases hn : isNil (skip_list A1).2 = true
    · simp only [hn, if_true, Bool.and_true]
      rw [get_key_args_ok]
      cases A1 <;> simp [get_key_arg_ex, isList, isNil, skip_list] at hx hn ⊢
    · simp [hn]

/-- Counterexample to C8 as stated: with the key-spec `f(x)` and the unknown order atom `foo`,
`sort/4` raises the type error of the key-spec, not a domain error on the order. -/
theorem sort4_unknown_order_counterexample :
    "foo" ∉ order_names ∧
    pl_sort4 (rank_cmp sample_rank) (Term.compound "f" [Term.atom "x"]) (Term.atom "foo")
        (mkList []) =
      .error (.raised (.type_error "sort_key" (Term.compound "f" [Term.atom "x"]))) := by
  constructor
  · decide
  · rfl

/-- C8 (amended): for every input, every valid key-spec (zero, a positive integer, an atom, or
a proper list of positive integers and atoms) and every order atom that is not one of the
eight, `sort/4` raises the domain error `order` on the atom; the outcome is an error (no
output), the same for every input and every comparison (nothing is sorted). -/
theorem sort4_unknown_order (cmp : Term → Term → Int) (A1 : Term)
    (hkey : valid_key_spec A1 = true) (name : String) (hname : name ∉ order_names) (A3 : Term) :
    pl_sort4 cmp A1 (Term.atom name) A3 =
      .error (.raised (.domain_error "order" (Term.atom name))) ∧
    (∀ (cmp1 : Term → Term → Int) (B3 : Term),
      pl_sort4 cmp1 A1 (Term.atom name) B3 = pl_sort4 cmp A1 (Term.atom name) A3) := by
  obtain ⟨argv, hk⟩ := (sort4_key_ok A1).2 hkey
  refine ⟨pl_sort4_bad_order cmp hk hname A3, fun cmp1 B3 => ?_⟩
  rw [pl_sort4_bad_order cmp hk hname A3, pl_sort4_bad_order cmp1 hk hname B3]

/-- Witness of C8 (amended): key-spec `[1, a]`, order atom `foo`, input `[b, a]`. -/
theorem sort4_unknown_order_witness :
    pl_sort4 (rank_cmp sample_rank) (mkList [Term.int 1, Term.atom "a"]) (Term.atom "foo")
        (mkList [Term.atom "b", Term.atom "a"]) =
      .error (.raised (.domain_error "order" (Term.atom "foo"))) ∧
    (∀ (cmp1 : Term → Term → Int) (B3 : Term),
      pl_sort4 cmp1 (mkList [Term.int 1, Term.atom "a"]) (Term.atom "foo") B3 =
        pl_sort4 (rank_cmp sample_rank) (mkList [Term.int 1, Term.atom "a"]) (Term.atom "foo")
          (mkList [Term.atom "b", Term.atom "a"])) :=
  sort4_unknown_order _ (mkList [Term.int 1, Term.atom "a"]) (by decide) "foo" (by decide) _

/-- C9: for every input, `sort/4` with the key-spec `0` and the order atom `@=<` or `=<` has
the outcome of `msort/2`: both are `pl_nat_sort` without duplicate removal, ascending, with an
empty key vector and `pair = false`. -/
theorem sort4_zero_key_is_msort (cmp : Term → Term → Int) (L : Term) :
    pl_sort4 cmp (Term.int 0) (Term.atom "@=<") L = pl_msort2 cmp L ∧
    pl_sort4 cmp (Term.int 0) (Term.atom "=<") L = pl_msort2 cmp L ∧
    pl_msort2 cmp L = pl_nat_sort cmp L false sort_order.SORT_ASC [] false :=
  ⟨rfl, rfl, rfl⟩

theorem extract_key_arg {x : Term} {args : List Term} {N : Int} (ha : arg_list x = some args)
    (hN : 0 < N) (hle : N ≤ args.length) :
    extract_key x [KeyArg.int N] false = .ok (arg_of N x) := by
  have hlt : (N - 1).toNat < args.length := by omega
  have hne : N ≠ 0 := by omega
  have hget : args.get? (N - 1).toNat = some (args.getD (N - 1).toNat x) := by
    rw [List.getD_eq_getD_get?, List.get?_eq_get hlt]
    rfl
  cases x <;> simp [arg_list] at ha
  case cons hd tl =>
    subst ha
    simp only [extract_key, extract_path, arg_list, arg_of, hne, hN, hle, hget, if_false,
      Bool.false_eq_true, and_self, if_true]
  case compound nm as =>
    subst ha
    simp only [extract_key, extract_path, arg_list, arg_of, hne, hN, hle, hget, if_false,
      Bool.false_eq_true, and_self, if_true]

theorem sort4_key_pos {N : Int} (hN : 0 < N) : sort4_key (Term.int N) = .ok [KeyArg.int N] := by
  have hne : N ≠ 0 := by omega
  simp [sort4_key, get_key_arg_ex, hN, hne]

/-- Counterexample to C10 as stated: a dict is a compound term (here of arity 3), yet
`sort(1, @<, [_{a: 5}], S)` looks up the field `1` and raises an existence error instead of
ordering on the first argument. -/
theorem sort4_by_argument_counterexample :
    pl_sort4 (rank_cmp sample_rank) (Term.int 1) (Term.atom "@<")
        (mkList [Term.dict (Term.var 0) [(KeyArg.atom "a", Term.int 5)]]) =
      .error (.raised (.existence_error "key" (KeyArg.int 1)
        (Term.dict (Term.var 0) [(KeyArg.atom "a", Term.int 5)]))) ∧
    ¬ ∃ S, pl_sort4 (rank_cmp sample_rank) (Term.int 1) (Term.atom "@<")
      (mkList [Term.dict (Term.var 0) [(KeyArg.atom "a", Term.int 5)]]) = .ok S := by
  have e : pl_sort4 (rank_cmp sample_rank) (Term.int 1) (Term.atom "@<")
      (mkList [Term.dict (Term.var 0) [(KeyArg.atom "a", Term.int 5)]]) =
      .error (.raised (.existence_error "key" (KeyArg.int 1)
        (Term.dict (Term.var 0) [(KeyArg.atom "a", Term.int 5)]))) := rfl
  refine ⟨e, ?_⟩
  rintro ⟨S, hS⟩
  rw [e] at hS
  cases hS

/-- C10 (amended): for a positive integer `N` and a proper list `L` of compound terms that are
not dicts, each of arity at least `N`, `sort/4` with the key-spec `N` and an ascending order
atom returns elements of `L` in ascending order of their `N`-th arguments, with an element of
equal `N`-th argument for every element of `L`; strictly ascending for `<` and `@<`; all the
elements, those of equal `N`-th argument in their input order, for `=<` and `@=<`.  And
`sort(1, @<, [f(2), f(1)], S)` gives `S = [f(1), f(2)]` when `1` is before `2`. -/
theorem sort4_by_argument (cmp : Term → Term → Int) (h : StandardOrder cmp) :
    (∀ (N : Int) (L : List Term) (name : String), 0 < N →
      (∀ x ∈ L, ∃ args, arg_list x = some args ∧ N ≤ args.length) →
      name ∈ ["<", "@<", "=<", "@=<"] →
      ∃ S, pl_sort4 cmp (Term.int N) (Term.atom name) (mkList L) = .ok (mkList S) ∧
        S.Pairwise (fun x y => cmp (arg_of N x) (arg_of N y) ≤ 0) ∧
        (∀ x ∈ S, x ∈ L) ∧
        (∀ y ∈ L, ∃ x ∈ S, cmp (arg_of N y) (arg_of N x) = 0) ∧
        (name = "<" ∨ name = "@<" →
          S.Pairwise (fun x y => cmp (arg_of N x) (arg_of N y) < 0)) ∧
        (name = "=<" ∨ name = "@=<" →
          S.Perm L ∧ ∀ k : Term, S.filter (fun x => decide (cmp k (arg_of N x) = 0)) =
            L.filter (fun x => decide (cmp k (arg_of N x) = 0)))) ∧
    (cmp (Term.int 1) (Term.int 2) < 0 →
      pl_sort4 cmp (Term.int 1) (Term.atom "@<")
          (mkList [Term.compound "f" [Term.int 2], Term.compound "f" [Term.int 1]]) =
        .ok (mkList [Term.compound "f" [Term.int 1], Term.compound "f" [Term.int 2]])) := by
  constructor
  · intro N L name hN hL hname
    have hkey := sort4_key_pos hN
    have hex : ∀ x ∈ L, extract_key x [KeyArg.int N] false = .ok (arg_of N x) := by
      intro x hx
      obtain ⟨args, ha, hle⟩ := hL x hx
      exact extract_key_arg ha hN hle
    have hkf : ∀ x ∈ L, key_of [KeyArg.int N] false x = arg_of N x := by
      intro x hx
      simp [key_of, hex x hx]
    have hn := term_compare_nodeOrder h sort_order.SORT_ASC (key_of [KeyArg.int N] false)
    -- the facts that hold for both settings of the duplicate flag
    have main : ∀ b : Bool, ∃ S,
        pl_nat_sort cmp (mkList L) b sort_order.SORT_ASC [KeyArg.int N] false = .ok (mkList S) ∧
        Good (term_compare cmp sort_order.SORT_ASC (key_of [KeyArg.int N] false))
          (if b then 0 else 1) S L ∧
        (∀ k : Term, S.filter (fun x => decide (cmp k (arg_of N x) = 0)) =
          sel (if b then 0 else 1) (L.filter (fun x => decide (cmp k (arg_of N x) = 0)))) ∧
        S.Pairwise (fun x y => cmp (arg_of N x) (arg_of N y) ≤ 0) ∧
        (∀ x ∈ S, x ∈ L) ∧
        (∀ y ∈ L, ∃ x ∈ S, cmp (arg_of N y) (arg_of N x) = 0) := by
      intro b
      obtain ⟨S, hS, hg, hk⟩ := pl_nat_sort_good h L b sort_order.SORT_ASC [KeyArg.int N] false
        (fun x hx => ⟨_, hex x hx⟩)
      have hsub : ∀ x ∈ S, x ∈ L := fun x hx => hg.mem_seg hn hx
      refine ⟨S, hS, hg, ?_, ?_, hsub, ?_⟩
      · intro k
        have e1 : S.filter (fun x => decide (cmp k (key_of [KeyArg.int N] false x) = 0)) =
            S.filter (fun x => decide (cmp k (arg_of N x) = 0)) :=
          List.filter_congr (fun x hx => by rw [hkf x (hsub x hx)])
        have e2 : L.filter (fun x => decide (cmp k (key_of [KeyArg.int N] false x) = 0)) =
            L.filter (fun x => decide (cmp k (arg_of N x) = 0)) :=
          List.filter_congr (fun x hx => by rw [hkf x hx])
        rw [← e1, ← e2]
        exact hk k
      · refine hg.sorted.imp_of_mem ?_
        intro x y hx hy hxy
        have := hxy.1
        rw [term_compare_asc, hkf x (hsub x hx), hkf y (hsub y hy)] at this
        exact this
      · intro y hy
        obtain ⟨x, hx, e⟩ := hg.exists_eq hn (rd_cases b) hy
        rw [term_compare_asc, hkf y hy, hkf x (hsub x hx)] at e
        exact ⟨x, hx, e⟩
    have strict : ∀ S, Good (term_compare cmp sort_order.SORT_ASC (key_of [KeyArg.int N] false))
        0 S L → S.Pairwise (fun x y => cmp (arg_of N x) (arg_of N y) < 0) := by
      intro S hg
      have hsub : ∀ x ∈ S, x ∈ L := fun x hx => hg.mem_seg hn hx
      refine hg.sorted.imp_of_mem ?_
      intro x y hx hy hxy
      have := keyR_zero.1 hxy
      rw [term_compare_asc, hkf x (hsub x hx), hkf y (hsub y hy)] at this
      exact this
    simp only [List.mem_cons, List.mem_singleton, List.not_mem_nil, or_false] at hname
    rcases hname with rfl | rfl | rfl | rfl
    · obtain ⟨S, hS, hg, _, h3, h4, h5⟩ := main true
      refine ⟨S, ?_, h3, h4, h5, fun _ => strict S hg, fun hc => ?_⟩
      · rw [@pl_sort4_eq cmp _ _ hkey "<" ⟨"<", sort_order.SORT_ASC, true⟩ rfl]
        exact hS
      · rcases hc with hc | hc <;> exact absurd hc (by decide)
    · obtain ⟨S, hS, hg, _, h3, h4, h5⟩ := main true
      refine ⟨S, ?_, h3, h4, h5, fun _ => strict S hg, fun hc => ?_⟩
      · rw [@pl_sort4_eq cmp _ _ hkey "@<" ⟨"@<", sort_order.SORT_ASC, true⟩ rfl]
        exact hS
      · rcases hc with hc | hc <;> exact absurd hc (by decide)
    · obtain ⟨S, hS, hg, h2, h3, h4, h5⟩ := main false
      refine ⟨S, ?_, h3, h4, h5, fun hc => ?_, fun _ => ⟨hg.perm hn, fun k => ?_⟩⟩
      · rw [@pl_sort4_eq cmp _ _ hkey "=<" ⟨"=<", sort_order.SORT_ASC, false⟩ rfl]
        exact hS
      · rcases hc with hc | hc <;> exact absurd hc (by decide)
      · have := h2 k
        simpa [sel_one] using this
    · obtain ⟨S, hS, hg, h2, h3, h4, h5⟩ := main false
      refine ⟨S, ?_, h3, h4, h5, fun hc => ?_, fun _ => ⟨hg.perm hn, fun k => ?_⟩⟩
      · rw [@pl_sort4_eq cmp _ _ hkey "@=<" ⟨"@=<", sort_order.SORT_ASC, false⟩ rfl]
        exact hS
      · rcases hc with hc | hc <;> exact absurd hc (by decide)
      · have := h2 k
        simpa [sel_one] using this
  · intro h12
    have h21 : ¬ cmp (Term.int 2) (Term.int 1) ≤ 0 := by
      have := (h.flip (Term.int 2) (Term.int 1)).2 h12; omega
    have h21' : 0 < cmp (Term.int 2) (Term.int 1) := by omega
    simp [pl_sort4, sort4_key, get_key_arg_ex, PL_get_atom_ex, find_order, order_defs,
      pl_nat_sort, prolog_list_to_sort_list, prolog_list_to_sort_list_walked,
      skip_list, mkList, isNil, isList, ATOM_nil, build_nodes, extract_key, extract_path,
      arg_list, put_sort_list,
      nat_sort, nat_sort_loop, pick_run, run_loop, merge_runs, merge, merge_step,
      merge_all, compare, h21, h21']

/-- Witness of C10 (amended) with the ranks as comparison: key-spec `1`, order `=<` on
`[f(2), f(1)]`, and the example of the claim. -/
theorem sort4_by_argument_witness :
    StandardOrder (rank_cmp sample_rank) ∧
    (∃ S, pl_sort4 (rank_cmp sample_rank) (Term.int 1) (Term.atom "=<")
          (mkList [Term.compound "f" [Term.int 2], Term.compound "f" [Term.int 1]]) =
        .ok (mkList S) ∧
      S.Pairwise (fun x y => rank_cmp sample_rank (arg_of 1 x) (arg_of 1 y) ≤ 0) ∧
      (∀ x ∈ S, x ∈ [Term.compound "f" [Term.int 2], Term.compound "f" [Term.int 1]]) ∧
      (∀ y ∈ [Term.compound "f" [Term.int 2], Term.compound "f" [Term.int 1]],
        ∃ x ∈ S, rank_cmp sample_rank (arg_of 1 y) (arg_of 1 x) = 0) ∧
      ("=<" = "<" ∨ "=<" = "@<" →
        S.Pairwise (fun x y => rank_cmp sample_rank (arg_of 1 x) (arg_of 1 y) < 0)) ∧
      ("=<" = "=<" ∨ "=<" = "@=<" →
        S.Perm [Term.compound "f" [Term.int 2], Term.compound "f" [Term.int 1]] ∧
        ∀ k : Term, S.filter (fun x => decide (rank_cmp sample_rank k (arg_of 1 x) = 0)) =
          List.filter (fun x => decide (rank_cmp sample_rank k (arg_of 1 x) = 0))
            [Term.compound "f" [Term.int 2], Term.compound "f" [Term.int 1]])) ∧
    pl_sort4 (rank_cmp sample_rank) (Term.int 1) (Term.atom "@<")
        (mkList [Term.compound "f" [Term.int 2], Term.compound "f" [Term.int 1]]) =
      .ok (mkList [Term.compound "f" [Term.int 1], Term.compound "f" [Term.int 2]]) :=
  ⟨rank_cmp_standardOrder _,
    (sort4_by_argument _ (rank_cmp_standardOrder _)).1 1 _ "=<" (by decide)
      (by
        intro x hx
        simp only [List.mem_cons, List.mem_singleton, List.not_mem_nil, or_false] at hx
        rcases hx with rfl | rfl <;> exact ⟨_, rfl, by decide⟩)
      (by decide),
    (sort4_by_argument _ (rank_cmp_standardOrder _)).2 (by decide)⟩

/-! ## Termination and the nodes of the result, for any comparison -/

section AnyCmp
variable (cmp : Term → Term → Int) (order : sort_order) (rd : Int)

theorem run_loop_sublist : ∀ (r : list) (q : List_Record),
    ((run_loop cmp order rd q r).1 ++ (run_loop cmp order rd q r).2).Sublist r := by
  intro r
  induction r with
  | nil => intro q; simp [run_loop]
  | cons x s ih =>
    intro q
    rw [run_loop]
    simp only
    split
    · simp
    · split
      · exact (ih q).trans (List.sublist_cons_self x s)
      · simpa using (ih x)

theorem pick_run_ne_nil (p : List_Record) (rest : list) :
    (pick_run cmp order rd p rest).1 ≠ [] := by
  cases rest with
  | nil => simp [pick_run]
  | cons q data =>
    rw [pick_run]
    simp only
    split
    · simp
    · split <;> simp

theorem pick_run_subperm (p : List_Record) (rest : list) :
    ((pick_run cmp order rd p rest).1 ++ (pick_run cmp order rd p rest).2).Subperm (p :: rest) := by
  cases rest with
  | nil => simp [pick_run]
  | cons q data =>
    rw [pick_run]
    simp only
    split
    · have h1 := (run_loop_sublist cmp order rd data p).subperm
      have h2 := (List.subperm_cons q).2 ((List.subperm_cons p).2 h1)
      exact h2.trans (List.Perm.swap p q data).subperm
    · split
      · have h1 := (run_loop_sublist cmp order rd data p).subperm
        exact (List.subperm_cons p).2 (h1.cons_right q)
      · have h1 := (run_loop_sublist cmp order rd data q).subperm
        exact (List.subperm_cons p).2 ((List.subperm_cons q).2 h1)

theorem pick_run_length (p : List_Record) (rest : list) :
    (pick_run cmp order rd p rest).2.length ≤ rest.length := by
  have h1 := (pick_run_subperm cmp order rd p rest).length_le
  have h2 := List.length_pos.2 (pick_run_ne_nil cmp order rd p rest)
  rw [List.length_append, List.length_cons] at h1
  omega

theorem merge_ne_nil (q p : list) (hp : p ≠ []) : merge cmp order rd q p ≠ [] := by
  cases q with
  | nil => simpa [merge] using hp
  | cons qh qt =>
    cases p with
    | nil => exact absurd rfl hp
    | cons ph pt =>
      rw [merge_cons_cons]
      split
      · split <;> simp
      · simp

theorem merge_subperm : ∀ q p : list, (merge cmp order rd q p).Subperm (q ++ p) := by
  refine merge_ind ?_ ?_ ?_
  · intro p; simpa [merge] using List.Subperm.refl p
  · intro qh qt; rw [merge_nil_right]; simpa using List.Subperm.refl (qh :: qt)
  · intro qh qt ph pt ih1 ih2 ih3
    rw [merge_cons_cons]
    split
    · split
      · exact (List.subperm_cons qh).2
          (ih1.trans ((List.subperm_append_left qt).2 List.Subperm.cons_self))
      · exact (List.subperm_cons qh).2 ih2
    · exact ((List.subperm_cons ph).2 ih3).trans List.perm_middle.symm.subperm

theorem merge_runs_any : ∀ (stack : List list) (k : Nat) (p : list) (s : List list),
    merge_runs cmp order rd k p stack = some s → p ≠ [] → (∀ c ∈ stack, c ≠ []) →
    s ≠ [] ∧ (∀ c ∈ s, c ≠ []) ∧ s.flatten.Subperm (p ++ stack.flatten) := by
  intro stack
  induction stack with
  | nil =>
    intro k p s hm hp _
    rw [merge_runs] at hm
    split at hm
    · exact absurd hm (by simp)
    · cases hm
      exact ⟨by simp, by simpa using hp, by simpa using List.Subperm.refl p⟩
  | cons q sp ih =>
    intro k p s hm hp hst
    rw [merge_runs] at hm
    split at hm
    · obtain ⟨h1, h2, h3⟩ := ih _ _ _ hm (merge_ne_nil cmp order rd q p hp)
        (fun c hc => hst c (List.mem_cons_of_mem q hc))
      refine ⟨h1, h2, h3.trans ?_⟩
      have h4 := (List.subperm_append_right sp.flatten).2 (merge_subperm cmp order rd q p)
      refine h4.trans (List.Perm.subperm ?_)
      simp only [List.flatten_cons, List.append_assoc]
      exact List.perm_append_comm_assoc q p sp.flatten
    · cases hm
      refine ⟨by simp, ?_, by simpa using List.Subperm.refl _⟩
      intro c hc
      rcases List.mem_cons.1 hc with rfl | hc
      · exact hp
      · exact hst c hc

theorem merge_all_any : ∀ (sp : List list) (p : list), p ≠ [] →
    merge_all cmp order rd p sp ≠ [] ∧ (merge_all cmp order rd p sp).Subperm (p ++ sp.flatten) := by
  intro sp
  induction sp with
  | nil => intro p hp; exact ⟨by simpa [merge_all] using hp,
      by simpa [merge_all] using List.Subperm.refl p⟩
  | cons q sp ih =>
    intro p hp
    rw [merge_all]
    obtain ⟨h1, h2⟩ := ih (merge cmp order rd q p) (merge_ne_nil cmp order rd q p hp)
    refine ⟨h1, h2.trans ?_⟩
    have h4 := (List.subperm_append_right sp.flatten).2 (merge_subperm cmp order rd q p)
    refine h4.trans (List.Perm.subperm ?_)
    simp only [List.flatten_cons, List.append_assoc]
    exact List.perm_append_comm_assoc q p sp.flatten

theorem nat_sort_loop_any : ∀ (fuel : Nat) (data : list) (runs : Nat) (stack : List list),
    data.length ≤ fuel → OneBits runs stack.length → (∀ c ∈ stack, c ≠ []) →
    ∃ s1, nat_sort_loop cmp order rd fuel data runs stack = some s1 ∧
      (∀ c ∈ s1, c ≠ []) ∧ (data ≠ [] → s1 ≠ []) ∧ (data = [] → s1 = stack) ∧
      s1.flatten.Subperm (stack.flatten ++ data) := by
  intro fuel
  induction fuel with
  | zero =>
    intro data runs stack hl _ hst
    have : data = [] := List.length_eq_zero.1 (by omega)
    subst this
    exact ⟨stack, by simp [nat_sort_loop], hst, by simp, by simp,
      by simpa using List.Subperm.refl _⟩
  | succ fuel ih =>
    intro data runs stack hl hb hst
    cases data with
    | nil => exact ⟨stack, by simp [nat_sort_loop], hst, by simp, by simp,
        by simpa using List.Subperm.refl _⟩
    | cons p rest =>
      obtain ⟨stack1, h1, h2⟩ := @merge_runs_some cmp order rd
        runs stack.length hb (pick_run cmp order rd p rest).1 stack rfl
      obtain ⟨h3, h4, h5⟩ := merge_runs_any cmp order rd _ _ _ _ h1
        (pick_run_ne_nil cmp order rd p rest) hst
      have hlen : (pick_run cmp order rd p rest).2.length ≤ fuel := by
        have := pick_run_length cmp order rd p rest
        simp only [List.length_cons] at hl
        omega
      obtain ⟨s1, h6, h7, h8, h9, h10⟩ := ih _ (runs + 1) stack1 hlen h2 h4
      refine ⟨s1, ?_, h7, fun _ => ?_, fun hn => by simp at hn, ?_⟩
      · rw [nat_sort_loop]
        simp only [h1]
        exact h6
      · by_cases e : (pick_run cmp order rd p rest).2 = []
        · rw [h9 e]; exact h3
        · exact h8 e
      · refine h10.trans ?_
        refine ((List.subperm_append_right _).2 h5).trans ?_
        have h11 := pick_run_subperm cmp order rd p rest
        have h12 : ((pick_run cmp order rd p rest).1 ++ stack.flatten ++
            (pick_run cmp order rd p rest).2).Perm
            (stack.flatten ++ ((pick_run cmp order rd p rest).1 ++
              (pick_run cmp order rd p rest).2)) := by
          rw [List.append_assoc]
          exact List.perm_append_comm_assoc _ _ _
        exact h12.subperm.trans ((List.subperm_append_left _).2 h11)

theorem nat_sort_any (data : list) (remove_dups : Bool) :
    ∃ out, nat_sort cmp data remove_dups order = some out ∧ (out = [] ↔ data = []) ∧
      out.Subperm data := by
  obtain ⟨s1, h1, h2, h3, h4, h5⟩ := nat_sort_loop_any cmp order
    (if remove_dups then 0 else 1) data.length data 0 [] (le_refl _) OneBits.zero (by simp)
  unfold nat_sort
  simp only [h1]
  cases s1 with
  | nil =>
    refine ⟨[], rfl, ?_, by simp⟩
    constructor
    · intro _
      by_contra hd
      exact h3 hd rfl
    · intro _; rfl
  | cons p sp =>
    have hp : p ≠ [] := h2 p (by simp)
    obtain ⟨h6, h7⟩ := merge_all_any cmp order (if remove_dups then 0 else 1) sp p hp
    refine ⟨_, rfl, ?_, ?_⟩
    · constructor
      · intro e; exact absurd e h6
      · intro e
        have := h4 e
        simp at this
    · simpa using h7.trans h5

end AnyCmp

theorem nat_sort_loop_fuel (cmp : Term → Term → Int) (order : sort_order) (rd : Int) :
    ∀ (fuel : Nat) (data : list) (runs : Nat) (stack s : List list),
      nat_sort_loop cmp order rd fuel data runs stack = some s →
      ∀ fuel1, fuel ≤ fuel1 → nat_sort_loop cmp order rd fuel1 data runs stack = some s := by
  intro fuel
  induction fuel with
  | zero =>
    intro data runs stack s hs fuel1 _
    cases data with
    | nil =>
      cases fuel1 <;> simpa [nat_sort_loop] using hs
    | cons p rest => simp [nat_sort_loop] at hs
  | succ fuel ih =>
    intro data runs stack s hs fuel1 hf
    cases data with
    | nil => cases fuel1 <;> simpa [nat_sort_loop] using hs
    | cons p rest =>
      cases fuel1 with
      | zero => omega
      | succ fuel1 =>
        rw [nat_sort_loop] at hs ⊢
        cases hm : merge_runs cmp order rd (runs + 1) (pick_run cmp order rd p rest).1 stack with
        | none => simp [hm] at hs
        | some stack1 =>
          simp only [hm] at hs ⊢
          exact ih _ _ _ _ hs fuel1 (by omega)

/-- In the list model, for every chain, both settings of the duplicate flag, both directions and
any comparison, `nat_sort` returns a chain (no pop of an empty stack, and the `data.length`
iterations allowed to the outer loop are enough: more iterations give the same stack), and the
chain returned is `NIL` exactly when the input chain is `NIL`. -/
theorem nat_sort_total (cmp : Term → Term → Int) (data : list) (remove_dups : Bool)
    (order : sort_order) :
    (∃ out, nat_sort cmp data remove_dups order = some out ∧ (out = [] ↔ data = [])) ∧
    (∃ stack, ∀ fuel, data.length ≤ fuel →
      nat_sort_loop cmp order (if remove_dups then 0 else 1) fuel data 0 [] = some stack) := by
  obtain ⟨out, h1, h2, _⟩ := nat_sort_any cmp order data remove_dups
  refine ⟨⟨out, h1, h2⟩, ?_⟩
  obtain ⟨s1, h3, _⟩ := nat_sort_loop_any cmp order
    (if remove_dups then 0 else 1) data.length data 0 [] (le_refl _) OneBits.zero (by simp)
  exact ⟨s1, fun fuel hf => nat_sort_loop_fuel cmp order _ _ _ _ _ _ h3 fuel hf⟩

/-- In the list model, the chain returned by `nat_sort` is made of nodes of the input chain,
each at most as often as it occurs there (so at most once when the nodes of the input are
distinct), with their `term` and `key` as in the input; without duplicate removal it has all the
nodes of the input, and a node of the input that is absent from it has a key that compares equal
to the key of a node that is in it. -/
theorem nat_sort_nodes (cmp : Term → Term → Int) (h : StandardOrder cmp) (data : list)
    (remove_dups : Bool) (order : sort_order) :
    ∃ out, nat_sort cmp data remove_dups order = some out ∧
      out.Subperm data ∧
      (∀ y ∈ out, y ∈ data) ∧
      ((data.map (fun n => n.addr)).Nodup → (out.map (fun n => n.addr)).Nodup) ∧
      (remove_dups = false → out.Perm data) ∧
      (∀ x ∈ data, x ∉ out →
        remove_dups = true ∧ ∃ y ∈ out, cmp x.item.key y.item.key = 0) := by
  obtain ⟨out, ho, hg⟩ := nat_sort_good h data remove_dups order
  obtain ⟨out1, ho1, _, hsub⟩ := nat_sort_any cmp order data remove_dups
  rw [ho] at ho1
  cases ho1
  have hn := compare_nodeOrder h order
  refine ⟨out, ho, hsub, fun y hy => hsub.subset hy, ?_, ?_, ?_⟩
  · intro hd
    obtain ⟨l, hl1, hl2⟩ := hsub
    have h1 : (l.map (fun n => n.addr)).Nodup := (hd.sublist (hl2.map _))
    exact (hl1.map (fun n => n.addr)).nodup_iff.1 h1
  · intro hb
    subst hb
    simp only [Bool.false_eq_true, if_false] at hg
    exact hg.perm hn
  · intro x hx hxo
    cases remove_dups with
    | false =>
      simp only [Bool.false_eq_true, if_false] at hg
      exact absurd ((hg.perm hn).mem_iff.2 hx) hxo
    | true =>
      obtain ⟨y, hy, e⟩ := hg.exists_eq hn (rd_cases true) hx
      exact ⟨rfl, y, hy, (compare_eq_zero cmp order x y).1 e⟩

theorem compare_desc_asc (cmp : Term → Term → Int) (x y : List_Record) :
    compare cmp sort_order.SORT_DESC x y = -compare cmp sort_order.SORT_ASC x y := by
  simp [compare]

theorem keyEq_desc_asc (cmp : Term → Term → Int) (a : List_Record) :
    keyEq (compare cmp sort_order.SORT_DESC) a = keyEq (compare cmp sort_order.SORT_ASC) a := by
  rw [keyEq_compare_fun, keyEq_compare_fun]

theorem good_reverse {cmp : Term → Term → Int} (h : StandardOrder cmp) {out data : list}
    (hg : Good (compare cmp sort_order.SORT_ASC) 0 out data) :
    Good (compare cmp sort_order.SORT_DESC) 0 out.reverse data := by
  have hn := compare_nodeOrder h sort_order.SORT_ASC
  constructor
  · rw [List.pairwise_reverse]
    refine hg.sorted.imp ?_
    intro x y hxy
    have h1 := keyR_zero.1 hxy
    have h2 := hn.flip y x
    apply keyR_zero.2
    rw [compare_desc_asc]
    omega
  · intro a
    rw [keyEq_desc_asc, List.filter_reverse, hg.classes a, sel_zero]
    cases List.filter (keyEq (compare cmp sort_order.SORT_ASC) a) data with
    | nil => rfl
    | cons x l => simp

theorem nat_sort_desc_reverse {cmp : Term → Term → Int} (h : StandardOrder cmp) (data : list) :
    ∃ asc, nat_sort cmp data true sort_order.SORT_ASC = some asc ∧
      nat_sort cmp data true sort_order.SORT_DESC = some asc.reverse := by
  obtain ⟨asc, ha, hga⟩ := nat_sort_good h data true sort_order.SORT_ASC
  obtain ⟨desc, hd, hgd⟩ := nat_sort_good h data true sort_order.SORT_DESC
  simp only [if_true] at hga hgd
  have hn := compare_nodeOrder h sort_order.SORT_DESC
  have hr := good_reverse h hga
  have e : desc = asc.reverse := by
    apply eq_of_sorted_classes hn desc asc.reverse hgd.sorted hr.sorted
    intro a
    rw [hgd.classes a, hr.classes a]
  exact ⟨asc, ha, by rw [hd, e]⟩

theorem mkList_injective : ∀ a b : List Term, mkList a = mkList b → a = b := by
  intro a
  induction a with
  | nil =>
    intro b hb
    cases b with
    | nil => rfl
    | cons y u => simp [mkList, ATOM_nil] at hb
  | cons x t ih =>
    intro b hb
    cases b with
    | nil => simp [mkList, ATOM_nil] at hb
    | cons y u =>
      simp only [mkList, Term.cons.injEq] at hb
      rw [hb.1, ih u hb.2]

theorem build_nodes_length (argv : List KeyArg) (pair : Bool) : ∀ (L : List Term) (addr : Nat)
    (lp : list), build_nodes argv pair addr L = .ok lp → lp.length = L.length := by
  intro L
  induction L with
  | nil => intro addr lp h; simp [build_nodes] at h; subst h; rfl
  | cons x t ih =>
    intro addr lp h
    rw [build_nodes] at h
    cases hk : extract_key x argv pair with
    | error f => simp [hk] at h
    | ok k =>
      cases hr : build_nodes argv pair (addr + 1) t with
      | error f => simp [hk, hr] at h
      | ok rest =>
        simp only [hk, hr, Except.ok.injEq] at h
        subst h
        simp [ih _ _ hr]

theorem sort_list_sort_inv {L : List Term} {b : Bool} {argv : List KeyArg} {pair : Bool}
    {l : list} (hp : prolog_list_to_sort_list (mkList L) b argv pair = .SORT_SORT l) :
    L ≠ [] ∧ build_nodes argv pair 0 L = .ok l := by
  unfold prolog_list_to_sort_list prolog_list_to_sort_list_walked at hp
  simp only [skip_list_mkList, isNil_ATOM_nil, Bool.true_or, Bool.not_true,
    Bool.false_eq_true, if_false] at hp
  by_cases h0 : L.length = 0
  · simp [h0] at hp
  · simp only [h0, if_false] at hp
    split at hp
    · cases hp
    · cases hb : build_nodes argv pair 0 L with
      | error f => simp [hb] at hp
      | ok lp =>
        simp only [hb, list_sort.SORT_SORT.injEq] at hp
        subst hp
        exact ⟨fun e => h0 (by simp [e]), rfl⟩

theorem pl_nat_sort_desc_reverse {cmp : Term → Term → Int} (h : StandardOrder cmp)
    (L : List Term) (argv : List KeyArg) (pair : Bool) :
    (∀ S, pl_nat_sort cmp (mkList L) true sort_order.SORT_ASC argv pair = .ok (mkList S) →
      pl_nat_sort cmp (mkList L) true sort_order.SORT_DESC argv pair = .ok (mkList S.reverse)) ∧
    (∀ f, pl_nat_sort cmp (mkList L) true sort_order.SORT_ASC argv pair = .error f →
      pl_nat_sort cmp (mkList L) true sort_order.SORT_DESC argv pair = .error f) := by
  unfold pl_nat_sort
  cases hp : prolog_list_to_sort_list (mkList L) true argv pair with
  | SORT_ERR f => simp
  | SORT_NIL =>
    simp only [Except.ok.injEq, reduceCtorEq, false_implies, implies_true, and_true]
    intro S hS
    have : S = [] := (mkList_injective [] S hS).symm
    subst this
    rfl
  | SORT_NOSORT =>
    simp only [Except.ok.injEq, reduceCtorEq, false_implies, implies_true, and_true]
    intro S hS
    have e := mkList_injective _ _ hS
    subst e
    have hl : L.length = 1 := by
      unfold prolog_list_to_sort_list prolog_list_to_sort_list_walked at hp
      simp only [skip_list_mkList] at hp
      split at hp
      · split at hp <;> cases hp
      · split at hp
        · cases hp
        · split at hp
          · rename_i hc; exact hc.1
          · split at hp <;> cases hp
    match L, hl with
    | [x], _ => rfl
  | SORT_SORT l =>
    obtain ⟨asc, ha, hd⟩ := nat_sort_desc_reverse h l
    simp only [ha, hd]
    have hne : l ≠ [] := by
      obtain ⟨h1, h2⟩ := sort_list_sort_inv hp
      have := build_nodes_length _ _ _ _ _ h2
      intro e
      subst e
      exact h1 (List.length_eq_zero.1 this.symm)
    obtain ⟨asc1, ha1, hnil, _⟩ := nat_sort_any cmp sort_order.SORT_ASC l true
    rw [ha] at ha1
    cases ha1
    have hane : asc ≠ [] := fun e => hne (hnil.1 e)
    have hrne : asc.reverse ≠ [] := by simpa using hane
    rw [put_sort_list_eq asc hane, put_sort_list_eq asc.reverse hrne]
    refine ⟨?_, by simp⟩
    intro S hS
    simp only [Except.ok.injEq] at hS
    have := mkList_injective _ _ hS
    rw [← this, List.map_reverse]

/-- C20: with duplicate removal the chain that `nat_sort` returns for `SORT_DESC` is the
reverse of the chain it returns for `SORT_ASC`, for every chain and any keys; and `sort/4` with
`@>` (or `>`) returns the reverse of what it returns with `@<` (or `<`) for the same key-spec
and list, or fails in the same way. -/
theorem dedup_desc_is_reverse_of_asc (cmp : Term → Term → Int) (h : StandardOrder cmp) :
    (∀ data : list, ∃ asc, nat_sort cmp data true sort_order.SORT_ASC = some asc ∧
      nat_sort cmp data true sort_order.SORT_DESC = some asc.reverse) ∧
    (∀ (A1 : Term) (L : List Term),
      (∀ S, pl_sort4 cmp A1 (Term.atom "@<") (mkList L) = .ok (mkList S) →
        pl_sort4 cmp A1 (Term.atom "@>") (mkList L) = .ok (mkList S.reverse)) ∧
      (∀ f, pl_sort4 cmp A1 (Term.atom "@<") (mkList L) = .error f →
        pl_sort4 cmp A1 (Term.atom "@>") (mkList L) = .error f) ∧
      (∀ S, pl_sort4 cmp A1 (Term.atom "<") (mkList L) = .ok (mkList S) →
        pl_sort4 cmp A1 (Term.atom ">") (mkList L) = .ok (mkList S.reverse)) ∧
      (∀ f, pl_sort4 cmp A1 (Term.atom "<") (mkList L) = .error f →
        pl_sort4 cmp A1 (Term.atom ">") (mkList L) = .error f)) := by
  refine ⟨nat_sort_desc_reverse h, ?_⟩
  intro A1 L
  cases hk : sort4_key A1 with
  | error f =>
    have e : ∀ name, pl_sort4 cmp A1 (Term.atom name) (mkList L) = .error f := by
      intro name
      simp [pl_sort4, hk]
    simp only [e, reduceCtorEq, false_implies, implies_true, true_and, imp_self, and_self]
  | ok argv =>
    have e1 := @pl_sort4_eq cmp A1 argv hk "@<" ⟨"@<", sort_order.SORT_ASC, true⟩ rfl (mkList L)
    have e2 := @pl_sort4_eq cmp A1 argv hk "@>" ⟨"@>", sort_order.SORT_DESC, true⟩ rfl (mkList L)
    have e3 := @pl_sort4_eq cmp A1 argv hk "<" ⟨"<", sort_order.SORT_ASC, true⟩ rfl (mkList L)
    have e4 := @pl_sort4_eq cmp A1 argv hk ">" ⟨">", sort_order.SORT_DESC, true⟩ rfl (mkList L)
    rw [e1, e2, e3, e4]
    have := pl_nat_sort_desc_reverse h L argv false
    exact ⟨this.1, this.2, this.1, this.2⟩

/-- Witness of C20 with the ranks as comparison, on a chain of three nodes. -/
theorem dedup_desc_is_reverse_of_asc_witness :
    StandardOrder (rank_cmp sample_rank) ∧
    ∃ asc, nat_sort (rank_cmp sample_rank)
        [ { addr := 0, item := { term := Term.atom "x", key := Term.int 2 } },
          { addr := 1, item := { term := Term.atom "y", key := Term.int 1 } },
          { addr := 2, item := { term := Term.atom "z", key := Term.int 2 } } ] true
        sort_order.SORT_ASC = some asc ∧
      nat_sort (rank_cmp sample_rank)
        [ { addr := 0, item := { term := Term.atom "x", key := Term.int 2 } },
          { addr := 1, item := { term := Term.atom "y", key := Term.int 1 } },
          { addr := 2, item := { term := Term.atom "z", key := Term.int 2 } } ] true
        sort_order.SORT_DESC = some asc.reverse :=
  ⟨rank_cmp_standardOrder _,
    (dedup_desc_is_reverse_of_asc _ (rank_cmp_standardOrder _)).1 _⟩

theorem extract_path_cons (p1 : Term) (a : KeyArg) (argv : List KeyArg) :
    extract_path p1 (a :: argv) =
      match extract_path p1 [a] with
      | .ok v => extract_path v argv
      | .error f => .error f := by
  cases p1 <;> simp only [extract_path, arg_list]
  case dict tag fields =>
    cases dict_lookup_ptr fields a <;> rfl
  case cons hd tl =>
    cases a with
    | atom name => rfl
    | int an =>
      simp only
      split
      · rfl
      · split
        · cases ([hd, tl] : List Term).get? (an - 1).toNat <;> rfl
        · rfl
  case compound nm args =>
    cases a with
    | atom name => rfl
    | int an =>
      simp only
      split
      · rfl
      · split
        · cases args.get? (an - 1).toNat <;> rfl
        · rfl

theorem extract_key_step (p1 : Term) (a : KeyArg) (argv : List KeyArg) :
    extract_key p1 (a :: argv) false =
      match extract_key p1 [a] false with
      | .ok v => extract_key v argv false
      | .error f => .error f := by
  simp only [extract_key, Bool.false_eq_true, if_false]
  exact extract_path_cons p1 a argv

theorem arg_of_get {p1 : Term} {args : List Term} (ha : arg_list p1 = some args) (i : Nat)
    (hi : i < args.length) : arg_of ((i : Int) + 1) p1 = args.get ⟨i, hi⟩ := by
  have e : ((i : Int) + 1 - 1).toNat = i := by omega
  simp only [arg_of, ha, e]
  rw [List.getD_eq_getD_get?, List.get?_eq_get hi]
  rfl

/-- C11: in PATH mode `extract_key` applies the steps from left to right, and the extraction
stops with the failure of the first step that fails; it succeeds exactly when every step does.
A step on a dict is a field lookup (existence error `key` when the field is missing); on a
compound that is not a dict the integer step `i + 1` selects the argument at index `i`
(existence error `argument` beyond the arity) and an atom step is a type error `dict`; on a
term that is not a compound every step is a type error `compound`. -/
theorem extract_key_path_steps :
    (∀ p1 : Term, extract_key p1 [] false = .ok p1) ∧
    (∀ (p1 : Term) (a : KeyArg) (argv : List KeyArg),
      extract_key p1 (a :: argv) false =
        match extract_key p1 [a] false with
        | .ok v => extract_key v argv false
        | .error f => .error f) ∧
    (∀ (p1 : Term) (a : KeyArg) (argv : List KeyArg),
      (∃ k, extract_key p1 (a :: argv) false = .ok k) ↔
        ∃ v, extract_key p1 [a] false = .ok v ∧ ∃ k, extract_key v argv false = .ok k) ∧
    (∀ (tag : Term) (fields : List (KeyArg × Term)) (a : KeyArg) (v : Term),
      dict_lookup_ptr fields a = some v →
      extract_key (Term.dict tag fields) [a] false = .ok v) ∧
    (∀ (tag : Term) (fields : List (KeyArg × Term)) (a : KeyArg),
      dict_lookup_ptr fields a = none →
      extract_key (Term.dict tag fields) [a] false =
        .error (.raised (.existence_error "key" a (Term.dict tag fields)))) ∧
    (∀ (p1 : Term) (args : List Term) (i : Nat) (hi : i < args.length),
      arg_list p1 = some args →
      extract_key p1 [KeyArg.int ((i : Int) + 1)] false = .ok (args.get ⟨i, hi⟩)) ∧
    (∀ (p1 : Term) (args : List Term) (n : Int), arg_list p1 = some args →
      (args.length : Int) < n →
      extract_key p1 [KeyArg.int n] false =
        .error (.raised (.existence_error "argument" (KeyArg.int n) p1))) ∧
    (∀ (p1 : Term) (args : List Term) (name : String), arg_list p1 = some args →
      extract_key p1 [KeyArg.atom name] false = .error (.raised (.type_error "dict" p1))) ∧
    (∀ (p1 : Term) (a : KeyArg), arg_list p1 = none →
      (∀ tag fields, p1 ≠ Term.dict tag fields) →
      extract_key p1 [a] false = .error (.raised (.type_error "compound" p1))) := by
  refine ⟨fun p1 => by simp [extract_key, extract_path], extract_key_step, ?_, ?_, ?_, ?_, ?_,
    ?_, ?_⟩
  · intro p1 a argv
    rw [extract_key_step]
    cases extract_key p1 [a] false with
    | error f => simp
    | ok v => simp
  · intro tag fields a v hv
    simp [extract_key, extract_path, hv]
  · intro tag fields a hv
    simp [extract_key, extract_path, hv]
  · intro p1 args i hi ha
    rw [extract_key_arg ha (by omega) (by omega), arg_of_get ha i hi]
  · intro p1 args n ha hn
    have h1 : n ≠ 0 := by omega
    have h2 : ¬ (0 < n ∧ n ≤ (args.length : Int)) := by omega
    cases p1 <;> simp [arg_list] at ha
    case cons hd tl =>
      subst ha
      simp only [extract_key, extract_path, arg_list, h1, h2, if_false, Bool.false_eq_true]
    case compound nm as =>
      subst ha
      simp only [extract_key, extract_path, arg_list, h1, h2, if_false, Bool.false_eq_true]
  · intro p1 args name ha
    cases p1 <;> simp [arg_list] at ha
    case cons hd tl =>
      simp only [extract_key, extract_path, arg_list, if_false, Bool.false_eq_true]
    case compound nm as =>
      simp only [extract_key, extract_path, arg_list, if_false, Bool.false_eq_true]
  · intro p1 a ha hd
    cases p1 <;> simp [arg_list] at ha <;>
      first
      | exact absurd rfl (hd _ _)
      | simp only [extract_key, extract_path, arg_list, if_false, Bool.false_eq_true]

/-- Witness of C11: the path `[1, 2]` on `f(g(a, b))` gives `b`, and on `f(a)` the second step
fails with a type error on `a`. -/
theorem extract_key_path_steps_witness :
    extract_key (Term.compound "f" [Term.compound "g" [Term.atom "a", Term.atom "b"]])
        [KeyArg.int 1, KeyArg.int 2] false = .ok (Term.atom "b") ∧
    extract_key (Term.compound "f" [Term.atom "a"]) [KeyArg.int 1, KeyArg.int 2] false =
      .error (.raised (.type_error "compound" (Term.atom "a"))) := by
  have h := extract_key_path_steps
  constructor
  · rw [h.2.1]
    rfl
  · rw [h.2.1]
    rfl

theorem pl_nat_sort_ok_any (cmp : Term → Term → Int) (L : List Term) (remove_dups : Bool)
    (order : sort_order) (argv : List KeyArg) (pair : Bool)
    (hex : ∀ x ∈ L, ∃ k, extract_key x argv pair = .ok k) :
    ∃ S, pl_nat_sort cmp (mkList L) remove_dups order argv pair = .ok (mkList S) := by
  unfold pl_nat_sort prolog_list_to_sort_list prolog_list_to_sort_list_walked
  simp only [skip_list_mkList, isNil_ATOM_nil, Bool.true_or, Bool.not_true]
  cases L with
  | nil => exact ⟨[], by simp [mkList]⟩
  | cons x t =>
    by_cases hno : (x :: t).length = 1 ∧ pair = false ∧ argv.length = 0 ∧ isList ATOM_nil = false
    · exact ⟨x :: t, by simp [hno]⟩
    · obtain ⟨lp, h1, h2, _⟩ := build_nodes_ok argv pair (x :: t) 0 hex
      obtain ⟨out, h4, h5, _⟩ := nat_sort_any cmp order lp remove_dups
      have hlp : lp ≠ [] := by
        intro e; rw [e] at h2; simp at h2
      have hout : out ≠ [] := fun e => hlp (h5.1 e)
      refine ⟨out.map (fun n => n.item.term), ?_⟩
      have hlen : ¬ (x :: t).length = 0 := by simp
      simp only [if_neg hlen, if_neg hno, h1, h4, put_sort_list_eq out hout,
        Bool.false_eq_true, if_false]

theorem build_nodes_err (argv : List KeyArg) (pair : Bool) : ∀ (pre : List Term) (x : Term)
    (post : List Term) (f : Failure) (addr : Nat),
    (∀ y ∈ pre, ∃ k, extract_key y argv pair = .ok k) → extract_key x argv pair = .error f →
    build_nodes argv pair addr (pre ++ x :: post) = .error f := by
  intro pre
  induction pre with
  | nil =>
    intro x post f addr _ hx
    simp [build_nodes, hx]
  | cons y t ih =>
    intro x post f addr hpre hx
    obtain ⟨k, hk⟩ := hpre y (by simp)
    have e := ih x post f (addr + 1) (fun z hz => hpre z (by simp [hz])) hx
    rw [List.cons_append, build_nodes]
    simp only [hk, e]

theorem pl_nat_sort_err (cmp : Term → Term → Int) (pre : List Term) (x : Term)
    (post : List Term) (f : Failure) (remove_dups : Bool) (order : sort_order)
    (argv : List KeyArg) (pair : Bool)
    (hno : pair = true ∨ argv ≠ [] ∨ pre ++ post ≠ [])
    (hpre : ∀ y ∈ pre, ∃ k, extract_key y argv pair = .ok k)
    (hx : extract_key x argv pair = .error f) :
    prolog_list_to_sort_list (mkList (pre ++ x :: post)) remove_dups argv pair = .SORT_ERR f ∧
    pl_nat_sort cmp (mkList (pre ++ x :: post)) remove_dups order argv pair = .error f := by
  have e : prolog_list_to_sort_list (mkList (pre ++ x :: post)) remove_dups argv pair =
      .SORT_ERR f := by
    unfold prolog_list_to_sort_list prolog_list_to_sort_list_walked
    simp only [skip_list_mkList, isNil_ATOM_nil, Bool.true_or, Bool.not_true,
      Bool.false_eq_true, if_false]
    have hlen : ¬ (pre ++ x :: post).length = 0 := by simp
    have hns : ¬ ((pre ++ x :: post).length = 1 ∧ pair = false ∧ argv.length = 0 ∧
        isList ATOM_nil = false) := by
      rintro ⟨h1, h2, h3, _⟩
      rcases hno with h | h | h
      · rw [h2] at h; cases h
      · exact h (List.length_eq_zero.1 h3)
      · apply h
        simp only [List.length_append, List.length_cons] at h1
        have hp : pre.length = 0 := by omega
        have hq : post.length = 0 := by omega
        rw [List.length_eq_zero.1 hp, List.length_eq_zero.1 hq]
        rfl
    rw [if_neg hlen, if_neg hns, build_nodes_err argv pair pre x post f 0 hpre hx]
  exact ⟨e, by unfold pl_nat_sort; rw [e]⟩

theorem exists_first {α : Type} (P : α → Prop) : ∀ L : List α, (∃ x ∈ L, P x) →
    ∃ pre x post, L = pre ++ x :: post ∧ (∀ y ∈ pre, ¬ P y) ∧ P x := by
  intro L
  induction L with
  | nil => rintro ⟨x, hx, _⟩; simp at hx
  | cons a t ih =>
    rintro ⟨x, hx, hP⟩
    by_cases ha : P a
    · exact ⟨[], a, t, rfl, by simp, ha⟩
    · rcases List.mem_cons.1 hx with rfl | hx
      · exact absurd hP ha
      · obtain ⟨pre, y, post, h1, h2, h3⟩ := ih ⟨x, hx, hP⟩
        refine ⟨a :: pre, y, post, by simp [h1], ?_, h3⟩
        intro z hz
        rcases List.mem_cons.1 hz with rfl | hz
        · exact ha
        · exact h2 z hz

theorem pair_key_some (x : Term) :
    pair_key x ≠ none ↔ ∃ k v, x = Term.compound "-" [k, v] := by
  constructor
  · intro h
    cases hx : pair_key x with
    | none => exact absurd hx h
    | some k =>
      unfold pair_key at hx
      split at hx
      · rename_i k1 v1; exact ⟨k1, v1, rfl⟩
      · cases hx
  · rintro ⟨k, v, rfl⟩
    simp [pair_key]

/-- C12: on a proper list (of any length) `keysort/2` raises the type error `pair` exactly when
some element is not a `Key-Value` term; the error carries the first such element of the list;
it comes out of `prolog_list_to_sort_list`, so `nat_sort` is not reached, and the call has no
result. -/
theorem keysort2_pair_error (cmp : Term → Term → Int) (L : List Term) :
    (∀ x : Term, pair_key x ≠ none ↔ ∃ k v, x = Term.compound "-" [k, v]) ∧
    ((∃ c, pl_keysort2 cmp (mkList L) = .error (.raised (.type_error "pair" c))) ↔
      ∃ x ∈ L, pair_key x = none) ∧
    ((∀ x ∈ L, pair_key x ≠ none) → ∃ S, pl_keysort2 cmp (mkList L) = .ok (mkList S)) ∧
    (∀ (pre : List Term) (x : Term) (post : List Term), L = pre ++ x :: post →
      (∀ y ∈ pre, pair_key y ≠ none) → pair_key x = none →
      pl_keysort2 cmp (mkList L) = .error (.raised (.type_error "pair" x)) ∧
      prolog_list_to_sort_list (mkList L) false [] true =
        .SORT_ERR (.raised (.type_error "pair" x))) := by
  have hok : ∀ y : Term, pair_key y ≠ none → ∃ k, extract_key y [] true = .ok k := by
    intro y hy
    cases hk : pair_key y with
    | none => exact absurd hk hy
    | some k => exact ⟨k, by simp [extract_key, hk]⟩
  have herr : ∀ x : Term, pair_key x = none →
      extract_key x [] true = .error (.raised (.type_error "pair" x)) := by
    intro x hx
    simp [extract_key, hx]
  have hfirst : ∀ (pre : List Term) (x : Term) (post : List Term), L = pre ++ x :: post →
      (∀ y ∈ pre, pair_key y ≠ none) → pair_key x = none →
      pl_keysort2 cmp (mkList L) = .error (.raised (.type_error "pair" x)) ∧
      prolog_list_to_sort_list (mkList L) false [] true =
        .SORT_ERR (.raised (.type_error "pair" x)) := by
    intro pre x post hL hpre hx
    subst hL
    have := pl_nat_sort_err cmp pre x post _ false sort_order.SORT_ASC [] true (Or.inl rfl)
      (fun y hy => hok y (hpre y hy)) (herr x hx)
    exact ⟨this.2, this.1⟩
  have hall : (∀ x ∈ L, pair_key x ≠ none) → ∃ S, pl_keysort2 cmp (mkList L) = .ok (mkList S) :=
    fun h => pl_nat_sort_ok_any cmp L false sort_order.SORT_ASC [] true
      (fun x hx => hok x (h x hx))
  refine ⟨pair_key_some, ⟨?_, ?_⟩, hall, hfirst⟩
  · rintro ⟨c, hc⟩
    by_contra hn
    have hn' : ∀ x ∈ L, pair_key x ≠ none := fun x hx e => hn ⟨x, hx, e⟩
    obtain ⟨S, hS⟩ := hall hn'
    rw [hS] at hc
    cases hc
  · intro hx
    obtain ⟨pre, x, post, h1, h2, h3⟩ := exists_first (fun x => pair_key x = none) L hx
    exact ⟨x, (hfirst pre x post h1 h2 h3).1⟩

/-- Witness of C12: `keysort([a-1, b, c], S)` raises the type error `pair` on `b`. -/
theorem keysort2_pair_error_witness :
    pl_keysort2 (rank_cmp sample_rank)
        (mkList [mkPair (Term.atom "a", Term.int 1), Term.atom "b", Term.atom "c"]) =
      .error (.raised (.type_error "pair" (Term.atom "b"))) ∧
    prolog_list_to_sort_list
        (mkList [mkPair (Term.atom "a", Term.int 1), Term.atom "b", Term.atom "c"])
        false [] true = .SORT_ERR (.raised (.type_error "pair" (Term.atom "b"))) :=
  (keysort2_pair_error (rank_cmp sample_rank)
    [mkPair (Term.atom "a", Term.int 1), Term.atom "b", Term.atom "c"]).2.2.2
    [mkPair (Term.atom "a", Term.int 1)] (Term.atom "b") [Term.atom "c"] rfl
    (by intro y hy; simp only [List.mem_singleton] at hy; subst hy; simp [pair_key, mkPair])
    (by simp [pair_key])

theorem build_nodes_error_origin (argv : List KeyArg) (pair : Bool) : ∀ (L : List Term)
    (addr : Nat) (f : Failure), build_nodes argv pair addr L = .error f →
    ∃ x ∈ L, extract_key x argv pair = .error f := by
  intro L
  induction L with
  | nil => intro addr f h; simp [build_nodes] at h
  | cons x t ih =>
    intro addr f h
    rw [build_nodes] at h
    cases hk : extract_key x argv pair with
    | error g =>
      simp only [hk, Except.error.injEq] at h
      subst h
      exact ⟨x, by simp, hk⟩
    | ok k =>
      cases hr : build_nodes argv pair (addr + 1) t with
      | error g =>
        simp only [hk, hr, Except.error.injEq] at h
        subst h
        obtain ⟨y, hy, e⟩ := ih _ _ hr
        exact ⟨y, by simp [hy], e⟩
      | ok rest => simp [hk, hr] at h

/-- C13: the validation at the head of `prolog_list_to_sort_list`, for the elements `heads`
skipped and the tail `tail` at which the walk stopped.  When the tail is the empty list, or a
list cell while duplicates are to be removed, the input is accepted: the empty list gives
`SORT_NIL`, and an error can then only be the failure to extract the key of an element.
Otherwise the result is an instantiation error when the tail is an unbound variable and the
type error `list` on the input in every other case (so for a list cell as tail without
duplicate removal), whatever the elements and the key mode: no key is extracted and no node
is built. -/
theorem list_validation (t : Term) (heads : List Term) (tail : Term) (remove_dups : Bool)
    (argv : List KeyArg) (pair : Bool) :
    ((isNil tail = true ∨ (isList tail = true ∧ remove_dups = true)) →
      (heads = [] →
        prolog_list_to_sort_list_walked t heads tail remove_dups argv pair = .SORT_NIL) ∧
      (∀ f, prolog_list_to_sort_list_walked t heads tail remove_dups argv pair = .SORT_ERR f →
        ∃ x ∈ heads, extract_key x argv pair = .error f)) ∧
    (¬ (isNil tail = true ∨ (isList tail = true ∧ remove_dups = true)) →
      (isVar tail = true →
        prolog_list_to_sort_list_walked t heads tail remove_dups argv pair =
          .SORT_ERR (.raised .instantiation)) ∧
      (isVar tail = false →
        prolog_list_to_sort_list_walked t heads tail remove_dups argv pair =
          .SORT_ERR (.raised (.type_error "list" t)))) ∧
    (isList tail = true → remove_dups = false →
      prolog_list_to_sort_list_walked t heads tail remove_dups argv pair =
        .SORT_ERR (.raised (.type_error "list" t))) ∧
    (∀ (t1 : Term), prolog_list_to_sort_list t1 remove_dups argv pair =
      prolog_list_to_sort_list_walked t1 (skip_list t1).1 (skip_list t1).2 remove_dups argv
        pair) := by
  refine ⟨?_, ?_, ?_, fun _ => rfl⟩
  · intro hA
    have hc : (!(isNil tail || (isList tail && remove_dups))) = false := by
      rcases hA with h | ⟨h1, h2⟩
      · simp [h]
      · simp [h1, h2]
    constructor
    · intro hh
      subst hh
      simp [prolog_list_to_sort_list_walked, hc]
    · intro f hf
      unfold prolog_list_to_sort_list_walked at hf
      simp only [hc, Bool.false_eq_true, if_false] at hf
      split at hf
      · cases hf
      · split at hf
        · cases hf
        · cases hb : build_nodes argv pair 0 heads with
          | error g =>
            simp only [hb, list_sort.SORT_ERR.injEq] at hf
            subst hf
            exact build_nodes_error_origin argv pair heads 0 g hb
          | ok lp => simp [hb] at hf
  · intro hA
    have hc : (!(isNil tail || (isList tail && remove_dups))) = true := by
      simp only [not_or, not_and, Bool.not_eq_true] at hA
      obtain ⟨h1, h2⟩ := hA
      cases hl : isList tail with
      | false => simp [h1, hl]
      | true => simp [h1, h2 hl]
    constructor
    · intro hv
      simp [prolog_list_to_sort_list_walked, hc, hv]
    · intro hv
      simp [prolog_list_to_sort_list_walked, hc, hv]
  · intro hl hr
    have hn : isNil tail = false := by
      cases tail <;> simp [isList] at hl
      rfl
    have hv : isVar tail = false := by
      cases tail <;> simp [isList] at hl
      rfl
    simp [prolog_list_to_sort_list_walked, hn, hl, hr, hv]

/-- Witness of C13: a list whose tail is a list cell, without duplicate removal, and a list
with an unbound tail. -/
theorem list_validation_witness :
    prolog_list_to_sort_list_walked (Term.atom "cyclic") [Term.int 1, Term.int 2]
        (Term.cons (Term.int 1) (Term.atom "more")) false [] false =
      .SORT_ERR (.raised (.type_error "list" (Term.atom "cyclic"))) ∧
    prolog_list_to_sort_list_walked (Term.cons (Term.int 1) (Term.var 0)) [Term.int 1]
        (Term.var 0) true [] false = .SORT_ERR (.raised .instantiation) :=
  ⟨(list_validation _ _ _ _ _ _).2.2.1 rfl rfl,
    ((list_validation _ _ _ _ _ _).2.1 (by decide)).1 rfl⟩

theorem find_order_some (name : String) (hn : name ∈ order_names) :
    ∃ od, find_order name order_defs = some od := by
  simp only [order_names, List.mem_cons, List.mem_singleton, List.not_mem_nil, or_false] at hn
  rcases hn with rfl | rfl | rfl | rfl | rfl | rfl | rfl | rfl <;> exact ⟨_, rfl⟩

theorem nat_sort_singleton (cmp : Term → Term → Int) (n : List_Record) (remove_dups : Bool)
    (order : sort_order) : nat_sort cmp [n] remove_dups order = some [n] := by
  simp [nat_sort, nat_sort_loop, pick_run, merge_runs, merge_all]

theorem pl_nat_sort_nil (cmp : Term → Term → Int) (remove_dups : Bool) (order : sort_order)
    (argv : List KeyArg) (pair : Bool) :
    prolog_list_to_sort_list ATOM_nil remove_dups argv pair = .SORT_NIL ∧
    pl_nat_sort cmp ATOM_nil remove_dups order argv pair = .ok ATOM_nil := by
  have e : prolog_list_to_sort_list ATOM_nil remove_dups argv pair = .SORT_NIL := by
    simp [prolog_list_to_sort_list, prolog_list_to_sort_list_walked, skip_list, ATOM_nil, isNil]
  exact ⟨e, by unfold pl_nat_sort; rw [e]⟩

theorem pl_nat_sort_singleton (cmp : Term → Term → Int) (X : Term) (remove_dups : Bool)
    (order : sort_order) (argv : List KeyArg) (pair : Bool) (k : Term)
    (hk : extract_key X argv pair = .ok k) :
    pl_nat_sort cmp (mkList [X]) remove_dups order argv pair = .ok (mkList [X]) := by
  unfold pl_nat_sort prolog_list_to_sort_list prolog_list_to_sort_list_walked
  simp only [skip_list_mkList, isNil_ATOM_nil, Bool.true_or, Bool.not_true,
    Bool.false_eq_true, if_false]
  have hlen : ¬ ([X] : List Term).length = 0 := by simp
  rw [if_neg hlen]
  by_cases hno : ([X] : List Term).length = 1 ∧ pair = false ∧ argv.length = 0 ∧
      isList ATOM_nil = false
  · rw [if_pos hno]
  · rw [if_neg hno]
    simp [build_nodes, hk, nat_sort_singleton, put_sort_list, mkList]

theorem sort_list_nosort (X : Term) (remove_dups : Bool) :
    prolog_list_to_sort_list (mkList [X]) remove_dups [] false = .SORT_NOSORT := by
  simp [prolog_list_to_sort_list, prolog_list_to_sort_list_walked, skip_list_mkList,
    isNil_ATOM_nil, isList, isNil, ATOM_nil]

/-- C14: for `sort/2`, `msort/2`, `keysort/2` and `sort/4` (with a valid key-spec and one of
the eight order atoms) the empty list gives the empty list, `prolog_list_to_sort_list`
answering `SORT_NIL`, so that `nat_sort` is not reached; a one-element list `[X]` whose key can
be extracted gives `[X]`; and for `sort/2`, `msort/2` and `sort/4` with the key-spec `0`
`prolog_list_to_sort_list` answers `SORT_NOSORT` on `[X]`: no node is built and the input
itself is the result. -/
theorem empty_and_singleton_lists (cmp : Term → Term → Int) :
    (pl_sort2 cmp ATOM_nil = .ok ATOM_nil ∧ pl_msort2 cmp ATOM_nil = .ok ATOM_nil ∧
      pl_keysort2 cmp ATOM_nil = .ok ATOM_nil) ∧
    (∀ (A1 : Term) (name : String), valid_key_spec A1 = true → name ∈ order_names →
      pl_sort4 cmp A1 (Term.atom name) ATOM_nil = .ok ATOM_nil) ∧
    (∀ (remove_dups : Bool) (argv : List KeyArg) (pair : Bool),
      prolog_list_to_sort_list ATOM_nil remove_dups argv pair = .SORT_NIL) ∧
    (∀ X : Term, pl_sort2 cmp (mkList [X]) = .ok (mkList [X]) ∧
      pl_msort2 cmp (mkList [X]) = .ok (mkList [X]) ∧
      ∀ name : String, name ∈ order_names →
        pl_sort4 cmp (Term.int 0) (Term.atom name) (mkList [X]) = .ok (mkList [X])) ∧
    (∀ (X : Term) (remove_dups : Bool),
      prolog_list_to_sort_list (mkList [X]) remove_dups [] false = .SORT_NOSORT ∧
      sort4_key (Term.int 0) = .ok []) ∧
    (∀ (X k : Term), pair_key X = some k →
      pl_keysort2 cmp (mkList [X]) = .ok (mkList [X])) ∧
    (∀ (A1 : Term) (argv : List KeyArg) (name : String) (X k : Term),
      sort4_key A1 = .ok argv → name ∈ order_names → extract_key X argv false = .ok k →
      pl_sort4 cmp A1 (Term.atom name) (mkList [X]) = .ok (mkList [X])) := by
  have hwhole : ∀ X : Term, extract_key X [] false = .ok X := fun X => rfl
  refine ⟨⟨(pl_nat_sort_nil cmp _ _ _ _).2, (pl_nat_sort_nil cmp _ _ _ _).2,
    (pl_nat_sort_nil cmp _ _ _ _).2⟩, ?_, fun b argv pair => (pl_nat_sort_nil cmp b
      sort_order.SORT_ASC argv pair).1, ?_, fun X b => ⟨sort_list_nosort X b, rfl⟩, ?_, ?_⟩
  · intro A1 name hv hn
    obtain ⟨argv, hk⟩ := (sort4_key_ok A1).2 hv
    obtain ⟨od, ho⟩ := find_order_some name hn
    rw [pl_sort4_eq cmp hk ho]
    exact (pl_nat_sort_nil cmp _ _ _ _).2
  · intro X
    refine ⟨pl_nat_sort_singleton cmp X _ _ _ _ X (hwhole X),
      pl_nat_sort_singleton cmp X _ _ _ _ X (hwhole X), ?_⟩
    intro name hn
    obtain ⟨od, ho⟩ := find_order_some name hn
    have hk : sort4_key (Term.int 0) = .ok [] := rfl
    rw [pl_sort4_eq cmp hk ho]
    exact pl_nat_sort_singleton cmp X _ _ _ _ X (hwhole X)
  · intro X k hk
    exact pl_nat_sort_singleton cmp X _ _ _ _ k (by simp [extract_key, hk])
  · intro A1 argv name X k hkey hn hk
    obtain ⟨od, ho⟩ := find_order_some name hn
    rw [pl_sort4_eq cmp hkey ho]
    exact pl_nat_sort_singleton cmp X _ _ _ _ k hk

/-- Witness of C14: `sort(1, @>=, [f(a)], S)` gives `[f(a)]` and `keysort([], S)` gives `[]`. -/
theorem empty_and_singleton_lists_witness :
    pl_sort4 (rank_cmp sample_rank) (Term.int 1) (Term.atom "@>=")
        (mkList [Term.compound "f" [Term.atom "a"]]) =
      .ok (mkList [Term.compound "f" [Term.atom "a"]]) ∧
    pl_keysort2 (rank_cmp sample_rank) ATOM_nil = .ok ATOM_nil :=
  ⟨(empty_and_singleton_lists (rank_cmp sample_rank)).2.2.2.2.2.2 (Term.int 1) [KeyArg.int 1]
      "@>=" (Term.compound "f" [Term.atom "a"]) (Term.atom "a") rfl (by decide) rfl,
    (empty_and_singleton_lists (rank_cmp sample_rank)).1.2.2⟩

theorem get_key_args_stop : ∀ (pre : List Term) (x : Term) (post : List Term) (f : Failure),
    pre.all (valid_key_arg false) = true → get_key_args [x] = .error f →
    get_key_args (pre ++ x :: post) = .error f := by
  intro pre
  induction pre with
  | nil =>
    intro x post f _ hx
    simp only [List.nil_append]
    rw [get_key_args] at hx ⊢
    cases hg : get_key_arg_ex x false with
    | rc_true k => simp [hg, get_key_args] at hx
    | rc_false r => cases r <;> simpa [hg] using hx
    | rc_minus1 => simpa [hg] using hx
  | cons y t ih =>
    intro x post f hpre hx
    simp only [List.all_cons, Bool.and_eq_true] at hpre
    obtain ⟨k, hk⟩ := (get_key_arg_ex_true y false).2 hpre.1
    have e := ih x post f hpre.2 hx
    rw [List.cons_append, get_key_args]
    simp only [hk, e]

/-- C15, the code at the failing input: the key-spec `[f(x)]` is not valid, and `sort/4`
fails on it without raising an error, whatever the other arguments; so it does for an unbound
variable as element, and at the first element of a key-spec list that is neither an integer
nor an atom.  Raised, as the claim says, are: the domain error `not_less_than_one` for a
negative key, for a boxed integer that is not positive and for an integer that is not positive
inside a list, and the type error `sort_key` for a key-spec that is neither an integer, an
atom nor a proper list. -/
theorem sort4_bad_key_element_fails_silently :
    valid_key_spec (mkList [Term.compound "f" [Term.atom "x"]]) = false ∧
    (∀ (cmp : Term → Term → Int) (A2 A3 : Term),
      pl_sort4 cmp (mkList [Term.compound "f" [Term.atom "x"]]) A2 A3 = .error .failed) ∧
    (∀ (cmp : Term → Term → Int) (A2 A3 : Term),
      pl_sort4 cmp (mkList [Term.var 0]) A2 A3 = .error .failed) ∧
    (∀ (cmp : Term → Term → Int) (pre : List Term) (x : Term) (post : List Term) (A2 A3 : Term),
      pre.all (valid_key_arg false) = true →
      get_key_arg_ex x false = .rc_minus1 →
      pl_sort4 cmp (mkList (pre ++ x :: post)) A2 A3 = .error .failed) ∧
    (∀ (cmp : Term → Term → Int) (v : Int) (A2 A3 : Term), v < 0 →
      pl_sort4 cmp (Term.int v) A2 A3 =
        .error (.raised (.domain_error "not_less_than_one" (Term.int v)))) ∧
    (∀ (cmp : Term → Term → Int) (v : Int) (A2 A3 : Term), v ≤ 0 →
      pl_sort4 cmp (Term.bigint v) A2 A3 =
        .error (.raised (.domain_error "not_less_than_one" (Term.bigint v)))) ∧
    (∀ (cmp : Term → Term → Int) (pre : List Term) (v : Int) (post : List Term) (A2 A3 : Term),
      pre.all (valid_key_arg false) = true → v ≤ 0 →
      pl_sort4 cmp (mkList (pre ++ Term.int v :: post)) A2 A3 =
        .error (.raised (.domain_error "not_less_than_one" (Term.int v)))) ∧
    (∀ (cmp : Term → Term → Int) (A1 A2 A3 : Term), get_key_arg_ex A1 true = .rc_minus1 →
      isNil (skip_list A1).2 = false →
      pl_sort4 cmp A1 A2 A3 = .error (.raised (.type_error "sort_key" A1))) := by
  have hlist : ∀ (pre : List Term) (x : Term) (post : List Term),
      sort4_key (mkList (pre ++ x :: post)) = get_key_args (pre ++ x :: post) := by
    intro pre x post
    have h1 : get_key_arg_ex (mkList (pre ++ x :: post)) true = .rc_minus1 := by
      cases pre <;> rfl
    simp [sort4_key, h1, skip_list_mkList, isNil_ATOM_nil]
  refine ⟨by decide, fun cmp A2 A3 => rfl, fun cmp A2 A3 => rfl, ?_, ?_, ?_, ?_, ?_⟩
  · intro cmp pre x post A2 A3 hpre hx
    have := get_key_args_stop pre x post .failed hpre (by simp [get_key_args, hx])
    simp [pl_sort4, hlist, this]
  · intro cmp v A2 A3 hv
    have h1 : ¬ 0 < v := by omega
    have h2 : ¬ (v = 0 ∧ true = true) := by omega
    have h3 : v ≤ 0 := by omega
    have h4 : v ≠ 0 := by omega
    simp [pl_sort4, sort4_key, get_key_arg_ex, h1, h3, h4]
  · intro cmp v A2 A3 hv
    simp [pl_sort4, sort4_key, get_key_arg_ex, hv]
  · intro cmp pre v post A2 A3 hpre hv
    have h1 : ¬ 0 < v := by omega
    have hx : get_key_arg_ex (Term.int v) false =
        .rc_false (some (.domain_error "not_less_than_one" (Term.int v))) := by
      simp [get_key_arg_ex, h1, hv]
    have := get_key_args_stop pre (Term.int v) post _ hpre
      (show get_key_args [Term.int v] = .error (.raised (.domain_error "not_less_than_one"
        (Term.int v))) by simp [get_key_args, hx])
    simp [pl_sort4, hlist, this]
  · intro cmp A1 A2 A3 h1 h2
    simp [pl_sort4, sort4_key, h1, h2]

theorem run_loop_keep (cmp : Term → Term → Int) (order : sort_order) :
    ∀ (r : list) (q : List_Record),
      r = (run_loop cmp order 1 q r).1 ++ (run_loop cmp order 1 q r).2 ∧
      List.Chain (fun x y => compare cmp order x y ≤ 0) q (run_loop cmp order 1 q r).1 ∧
      (∀ l x s, (q :: (run_loop cmp order 1 q r).1).getLast? = some l →
        (run_loop cmp order 1 q r).2 = x :: s → 0 < compare cmp order l x) := by
  intro r
  induction r with
  | nil => intro q; simp [run_loop]
  | cons x s ih =>
    intro q
    by_cases hgt : compare cmp order q x > 0
    · have e : run_loop cmp order 1 q (x :: s) = ([], x :: s) := by
        simp [run_loop, hgt]
      rw [e]
      refine ⟨by simp, List.Chain.nil, ?_⟩
      intro l y t hl hy
      simp only [List.getLast?_singleton, Option.some.injEq] at hl
      simp only [List.cons.injEq] at hy
      rw [← hy.1, ← hl]
      exact hgt
    · have hne : ¬ compare cmp order q x = 1 := by omega
      have e : run_loop cmp order 1 q (x :: s) =
          (x :: (run_loop cmp order 1 x s).1, (run_loop cmp order 1 x s).2) := by
        simp [run_loop, hgt, hne]
      rw [e]
      obtain ⟨h1, h2, h3⟩ := ih x
      refine ⟨by simp [← h1], List.Chain.cons (by omega) h2, ?_⟩
      intro l y t hl hy
      rw [List.getLast?_cons_cons] at hl
      exact h3 l y t hl hy

theorem run_loop_descending (cmp : Term → Term → Int) (order : sort_order) (rd : Int)
    (q : List_Record) (r : list) (hr : ∀ x ∈ r, 0 < compare cmp order q x) :
    run_loop cmp order rd q r = ([], r) := by
  cases r with
  | nil => rfl
  | cons x s =>
    have := hr x (by simp)
    simp [run_loop, this]

theorem picked_runs_descending (cmp : Term → Term → Int) (order : sort_order) (rd : Int) :
    ∀ (fuel : Nat) (data : list), data.length ≤ fuel →
      data.Pairwise (fun x y => 0 < compare cmp order x y) →
      (picked_runs cmp order rd fuel data).length = (data.length + 1) / 2 := by
  intro fuel
  induction fuel using Nat.strong_induction_on with
  | _ fuel ih =>
    intro data hl hd
    cases data with
    | nil => cases fuel <;> simp [picked_runs]
    | cons a t =>
      cases fuel with
      | zero => simp at hl
      | succ fuel =>
        cases t with
        | nil => simp [picked_runs, pick_run]
        | cons b rest =>
          have hd1 := List.pairwise_cons.1 hd
          have hab : compare cmp order a b > 0 := hd1.1 b (by simp)
          have e : pick_run cmp order rd a (b :: rest) = ([b, a], rest) := by
            have := run_loop_descending cmp order rd a rest
              (fun x hx => hd1.1 x (by simp [hx]))
            simp [pick_run, hab, this]
          have hrest := (List.pairwise_cons.1 hd1.2).2
          rw [picked_runs, e]
          simp only [List.length_cons] at hl ⊢
          rw [ih fuel (by omega) rest (by omega) hrest]
          omega

/-- Counterexample to C16 as stated: the strictly descending chain with the keys `3, 2, 1` is
consumed as the two runs `2, 3` and `1`, not as a single run. -/
theorem runs_are_ascending_stretches_counterexample :
    picked_runs (rank_cmp sample_rank) sort_order.SORT_ASC 1 3
        [ { addr := 0, item := { term := Term.atom "x", key := Term.int 3 } },
          { addr := 1, item := { term := Term.atom "y", key := Term.int 2 } },
          { addr := 2, item := { term := Term.atom "z", key := Term.int 1 } } ] =
      [ [ { addr := 1, item := { term := Term.atom "y", key := Term.int 2 } },
          { addr := 0, item := { term := Term.atom "x", key := Term.int 3 } } ],
        [ { addr := 2, item := { term := Term.atom "z", key := Term.int 1 } } ] ] ∧
    List.Pairwise (fun x y => 0 < compare (rank_cmp sample_rank) sort_order.SORT_ASC x y)
        [ { addr := 0, item := { term := Term.atom "x", key := Term.int 3 } },
          { addr := 1, item := { term := Term.atom "y", key := Term.int 2 } },
          { addr := 2, item := { term := Term.atom "z", key := Term.int 1 } } ] := by
  refine ⟨rfl, ?_⟩
  simp [compare, rank_cmp, sample_rank]

/-- C16 (amended): without duplicate removal, a run picked up from the front of the data is a
prefix of the data put in non-descending order: the first two nodes, swapped when the first is
greater than the second, followed by the nodes after them for as long as the next node is not
less than the last node of the run.  A strictly descending chain of `n` nodes is consumed as
`(n + 1) / 2` runs. -/
theorem runs_are_ascending_stretches (cmp : Term → Term → Int) (h : StandardOrder cmp)
    (order : sort_order) :
    (∀ p : List_Record, pick_run cmp order 1 p [] = ([p], [])) ∧
    (∀ (p q : List_Record) (data : list), ∃ ext rest : list, data = ext ++ rest ∧
      pick_run cmp order 1 p (q :: data) =
        ((if 0 < compare cmp order p q then q :: p :: ext else p :: q :: ext), rest) ∧
      List.Chain' (fun x y => compare cmp order x y ≤ 0)
        (pick_run cmp order 1 p (q :: data)).1 ∧
      (∀ l x s, (pick_run cmp order 1 p (q :: data)).1.getLast? = some l → rest = x :: s →
        0 < compare cmp order l x)) ∧
    (∀ data : list, data.Pairwise (fun x y => 0 < compare cmp order x y) →
      (picked_runs cmp order 1 data.length data).length = (data.length + 1) / 2) := by
  have hn := compare_nodeOrder h order
  refine ⟨fun p => rfl, ?_, fun data hd =>
    picked_runs_descending cmp order 1 data.length data (le_refl _) hd⟩
  intro p q data
  by_cases hgt : 0 < compare cmp order p q
  · obtain ⟨h1, h2, h3⟩ := run_loop_keep cmp order data p
    have e : pick_run cmp order 1 p (q :: data) =
        (q :: p :: (run_loop cmp order 1 p data).1, (run_loop cmp order 1 p data).2) := by
      simp [pick_run, hgt]
    refine ⟨_, _, h1, by rw [e, if_pos hgt], ?_, ?_⟩
    · rw [e]
      have hqp : compare cmp order q p ≤ 0 := by
        have := (hn.flip p q).1 hgt; omega
      exact List.Chain.cons hqp h2
    · intro l x s hl hx
      rw [e] at hl
      simp only at hl
      rw [List.getLast?_cons_cons] at hl
      exact h3 l x s hl hx
  · obtain ⟨h1, h2, h3⟩ := run_loop_keep cmp order data q
    have hne : ¬ compare cmp order p q = 1 := by omega
    have hle : ¬ compare cmp order p q > 0 := hgt
    have e : pick_run cmp order 1 p (q :: data) =
        (p :: q :: (run_loop cmp order 1 q data).1, (run_loop cmp order 1 q data).2) := by
      simp [pick_run, hle, hne]
    refine ⟨_, _, h1, by rw [e, if_neg hgt], ?_, ?_⟩
    · rw [e]
      exact List.Chain.cons (by omega) h2
    · intro l x s hl hx
      rw [e] at hl
      simp only at hl
      rw [List.getLast?_cons_cons] at hl
      exact h3 l x s hl hx

/-- Witness of C16 (amended): the chain with the keys `3, 2, 1, 0` is consumed as two runs. -/
theorem runs_are_ascending_stretches_witness :
    StandardOrder (rank_cmp sample_rank) ∧
    (picked_runs (rank_cmp sample_rank) sort_order.SORT_ASC 1
      ([ { addr := 0, item := { term := Term.atom "x", key := Term.int 3 } },
        { addr := 1, item := { term := Term.atom "y", key := Term.int 2 } },
        { addr := 2, item := { term := Term.atom "z", key := Term.int 1 } },
        { addr := 3, item := { term := Term.atom "w", key := Term.int 0 } } ] : list).length
      [ { addr := 0, item := { term := Term.atom "x", key := Term.int 3 } },
        { addr := 1, item := { term := Term.atom "y", key := Term.int 2 } },
        { addr := 2, item := { term := Term.atom "z", key := Term.int 1 } },
        { addr := 3, item := { term := Term.atom "w", key := Term.int 0 } } ]).length =
      (([ { addr := 0, item := { term := Term.atom "x", key := Term.int 3 } },
        { addr := 1, item := { term := Term.atom "y", key := Term.int 2 } },
        { addr := 2, item := { term := Term.atom "z", key := Term.int 1 } },
        { addr := 3, item := { term := Term.atom "w", key := Term.int 0 } } ] : list).length
        + 1) / 2 :=
  ⟨rank_cmp_standardOrder _,
    (runs_are_ascending_stretches _ (rank_cmp_standardOrder _) sort_order.SORT_ASC).2.2 _
      (by simp [compare, rank_cmp, sample_rank])⟩

theorem oneBits_digits : ∀ n m : Nat, OneBits n m → (Nat.digits 2 n).sum = m := by
  intro n m hb
  induction hb with
  | zero => simp
  | @even n m hn _ ih =>
    rw [Nat.digits_def' (by omega) (by omega)]
    have h1 : 2 * n % 2 = 0 := by omega
    have h2 : 2 * n / 2 = n := by omega
    simp [h1, h2, ih]
  | @odd n m _ ih =>
    rw [Nat.digits_def' (by omega) (by omega)]
    have h1 : (2 * n + 1) % 2 = 1 := by omega
    have h2 : (2 * n + 1) / 2 = n := by omega
    simp [h1, h2, ih]
    omega

theorem oneBits_bound : ∀ n m : Nat, OneBits n m → ∀ k : Nat, n < 2 ^ k → m ≤ k := by
  intro n m hb
  induction hb with
  | zero => intro k _; omega
  | @even n m hn _ ih =>
    intro k hk
    cases k with
    | zero => simp at hk; omega
    | succ k =>
      have := ih k (by rw [pow_succ] at hk; omega)
      omega
  | @odd n m _ ih =>
    intro k hk
    cases k with
    | zero => simp at hk
    | succ k =>
      have := ih k (by rw [pow_succ] at hk; omega)
      omega

theorem stackGood_segments {c : List_Record → List_Record → Int} (h : NodeOrder c) {rd : Int}
    {stack : List list} {consumed : list} (hs : StackGood c rd stack consumed) :
    ∃ segs : List list,
      List.Forall₂ (fun chain seg => chain.Pairwise (keyR c rd) ∧ ∀ x ∈ chain, x ∈ seg)
        stack segs ∧
      segs.reverse.flatten = consumed := by
  induction hs with
  | nil => exact ⟨[], List.Forall₂.nil, rfl⟩
  | @push sp consumed p seg _ hp ih =>
    obtain ⟨segs, h1, h2⟩ := ih
    refine ⟨seg :: segs, List.Forall₂.cons ⟨hp.sorted, fun x hx => hp.mem_seg h hx⟩ h1, ?_⟩
    simp [h2]

section States
variable {cmp : Term → Term → Int} {order : sort_order} {rd : Int}

theorem nat_sort_states_inv (h : NodeOrder (compare cmp order)) (hrd : rd = 0 ∨ rd = 1) :
    ∀ (fuel : Nat) (data : list) (runs : Nat) (stack : List list) (consumed : list),
      data.length ≤ fuel → OneBits runs stack.length →
      StackGood (compare cmp order) rd stack consumed →
      (nat_sort_states cmp order rd fuel data runs stack).length =
        (picked_runs cmp order rd fuel data).length ∧
      ∀ s ∈ nat_sort_states cmp order rd fuel data runs stack,
        OneBits s.1 s.2.1.length ∧
        s.1 ≤ runs + (nat_sort_states cmp order rd fuel data runs stack).length ∧
        ∃ c1, StackGood (compare cmp order) rd s.2.1 c1 ∧ c1 ++ s.2.2 = consumed ++ data := by
  intro fuel
  induction fuel with
  | zero =>
    intro data runs stack consumed hl _ _
    have : data = [] := List.length_eq_zero.1 (by omega)
    subst this
    simp [nat_sort_states, picked_runs]
  | succ fuel ih =>
    intro data runs stack consumed hl hb hs
    cases data with
    | nil => simp [nat_sort_states, picked_runs]
    | cons p rest =>
      obtain ⟨pre, hpre, hne, hg⟩ := pick_run_good h hrd p rest
      obtain ⟨stack1, h1, h2⟩ := @merge_runs_some cmp order rd
        runs stack.length hb (pick_run cmp order rd p rest).1 stack rfl
      have hs1 := merge_runs_good h hrd _ _ _ _ _ _ hs hg h1
      have hlen : (pick_run cmp order rd p rest).2.length ≤ fuel := by
        have := pick_run_length cmp order rd p rest
        simp only [List.length_cons] at hl
        omega
      obtain ⟨h3, h4⟩ := ih _ (runs + 1) stack1 (consumed ++ pre) hlen h2 hs1
      rw [nat_sort_states, picked_runs]
      simp only [h1, List.length_cons, h3, true_and]
      intro s hs'
      rcases List.mem_cons.1 hs' with rfl | hs'
      · refine ⟨h2, by omega, consumed ++ pre, hs1, ?_⟩
        rw [hpre, List.append_assoc]
      · obtain ⟨h5, h6, c1, h7, h8⟩ := h4 s hs'
        refine ⟨h5, by rw [h3] at h6; omega, c1, h7, ?_⟩
        rw [h8, hpre, List.append_assoc]

end States
/-- C17: after each push of `nat_sort` the number of chains on the stack is the number of
one-bits of the run counter; the chains are the sorted forms of consecutive segments of the
input, the lower entries of the earlier segments (the segments, from the bottom of the stack to
its top, followed by the rest of the data, make up the input); there is one such state for
every run, and `nat_sort` returns a chain, so no pop is made on an empty stack; and when there
are fewer than `2^31` runs the stack never holds more than 31 chains, which is within its 64
entries. -/
theorem run_stack_invariant (cmp : Term → Term → Int) (h : StandardOrder cmp) (data : list)
    (remove_dups : Bool) (order : sort_order) :
    (∃ out, nat_sort cmp data remove_dups order = some out) ∧
    (nat_sort_states cmp order (if remove_dups then 0 else 1) data.length data 0 []).length =
      (picked_runs cmp order (if remove_dups then 0 else 1) data.length data).length ∧
    ∀ s ∈ nat_sort_states cmp order (if remove_dups then 0 else 1) data.length data 0 [],
      s.2.1.length = (Nat.digits 2 s.1).sum ∧
      (∃ segs : List list,
        List.Forall₂ (fun chain seg =>
          chain.Pairwise (keyR (compare cmp order) (if remove_dups then 0 else 1)) ∧
          ∀ x ∈ chain, x ∈ seg) s.2.1 segs ∧
        segs.reverse.flatten ++ s.2.2 = data) ∧
      ((nat_sort_states cmp order (if remove_dups then 0 else 1) data.length data 0 []).length
          < 2 ^ 31 →
        s.2.1.length ≤ 31 ∧ s.2.1.length ≤ 64) := by
  have hn := compare_nodeOrder h order
  have hrd := rd_cases remove_dups
  obtain ⟨out, ho, _⟩ := nat_sort_any cmp order data remove_dups
  obtain ⟨h1, h2⟩ := nat_sort_states_inv hn hrd data.length data 0 [] [] (le_refl _)
    OneBits.zero StackGood.nil
  refine ⟨⟨out, ho⟩, h1, ?_⟩
  intro s hs
  obtain ⟨h3, h4, c1, h5, h6⟩ := h2 s hs
  obtain ⟨segs, h7, h8⟩ := stackGood_segments hn h5
  refine ⟨(oneBits_digits _ _ h3).symm, ⟨segs, h7, ?_⟩, ?_⟩
  · rw [h8, h6]; rfl
  · intro hlt
    have := oneBits_bound _ _ h3 31 (by omega)
    omega

/-- Witness of C17 on a chain of three nodes with the keys `3, 2, 1`. -/
theorem run_stack_invariant_witness :
    StandardOrder (rank_cmp sample_rank) ∧
    (nat_sort_states (rank_cmp sample_rank) sort_order.SORT_ASC 1 3
        [ { addr := 0, item := { term := Term.atom "x", key := Term.int 3 } },
          { addr := 1, item := { term := Term.atom "y", key := Term.int 2 } },
          { addr := 2, item := { term := Term.atom "z", key := Term.int 1 } } ] 0 []).length =
      (picked_runs (rank_cmp sample_rank) sort_order.SORT_ASC 1 3
        [ { addr := 0, item := { term := Term.atom "x", key := Term.int 3 } },
          { addr := 1, item := { term := Term.atom "y", key := Term.int 2 } },
          { addr := 2, item := { term := Term.atom "z", key := Term.int 1 } } ]).length :=
  ⟨rank_cmp_standardOrder _,
    (run_stack_invariant (rank_cmp sample_rank) (rank_cmp_standardOrder _)
      [ { addr := 0, item := { term := Term.atom "x", key := Term.int 3 } },
        { addr := 1, item := { term := Term.atom "y", key := Term.int 2 } },
        { addr := 2, item := { term := Term.atom "z", key := Term.int 1 } } ] false
      sort_order.SORT_ASC).2.1⟩

/-! ## The sort engine on the block of nodes -/

theorem Rewrites.rw_refl (H : Heap) : Rewrites H H := by
  intro x
  cases h : H x with
  | freed => exact Or.inl rfl
  | node n i => exact Or.inr ⟨n, n, i, rfl, rfl⟩

theorem Rewrites.rw_trans {H H1 H2 : Heap} (h1 : Rewrites H H1) (h2 : Rewrites H1 H2) :
    Rewrites H H2 := by
  intro x
  rcases h2 x with h | ⟨n, n1, i, e1, e2⟩
  · exact Or.inl h
  · rcases h1 x with h | ⟨m, m1, j, f1, f2⟩
    · rw [h] at e1; cases e1
    · rw [f2] at e1
      cases e1
      exact Or.inr ⟨m, n1, i, f1, e2⟩

theorem rewrites_free (H : Heap) (a : Nat) : Rewrites H (Function.update H a Cell.freed) := by
  intro x
  by_cases hx : x = a
  · subst hx
    exact Or.inl (by simp)
  · rw [Function.update_noteq hx]
    exact Rewrites.rw_refl H x

theorem rewrites_next {H : Heap} {a : Nat} {n : Option Nat} {i : ITEM} (n1 : Option Nat)
    (h : H a = Cell.node n i) : Rewrites H (Function.update H a (Cell.node n1 i)) := by
  intro x
  by_cases hx : x = a
  · subst hx
    exact Or.inr ⟨n, n1, i, h, by simp⟩
  · rw [Function.update_noteq hx]
    exact Rewrites.rw_refl H x

theorem IsChain.frame {H H1 : Heap} {p : Option Nat} {l : List Nat} (h : IsChain H p l)
    (hf : ∀ x, x ∈ l → H1 x = H x) : IsChain H1 p l := by
  induction h with
  | nil => exact IsChain.nil
  | cons ha _ ih =>
    exact IsChain.cons ((hf _ (List.mem_cons_self _ _)).trans ha)
      (ih fun x hx => hf x (List.mem_cons_of_mem _ hx))

theorem IsChain.live {H : Heap} {p : Option Nat} {l : List Nat} (h : IsChain H p l) :
    ∀ x, x ∈ l → ∃ n i, H x = Cell.node n i := by
  induction h with
  | nil => intro x hx; cases hx
  | cons ha _ ih =>
    intro x hx
    rcases List.mem_cons.1 hx with rfl | hx
    · exact ⟨_, _, ha⟩
    · exact ih x hx

theorem IsChain.length_zero {H : Heap} {p : Option Nat} {l : List Nat} (h : IsChain H p l) :
    p = none ↔ l = [] := by
  cases h <;> simp

theorem Seg.seg_frame {H H1 : Heap} {a e : Nat} {l : List Nat} (h : Seg H a l e)
    (hf : ∀ x, x ∈ l → H1 x = H x) : Seg H1 a l e := by
  induction h with
  | one ha => exact Seg.one ((hf _ (List.mem_cons_self _ _)).trans ha)
  | cons ha _ ih =>
    exact Seg.cons ((hf _ (List.mem_cons_self _ _)).trans ha)
      (ih fun x hx => hf x (List.mem_cons_of_mem _ hx))

theorem Seg.last_mem {H : Heap} {a e : Nat} {l : List Nat} (h : Seg H a l e) : e ∈ l := by
  induction h with
  | one _ => simp
  | cons _ _ ih => exact List.mem_cons_of_mem _ ih

theorem Seg.head_eq {H : Heap} {a e : Nat} {l : List Nat} (h : Seg H a l e) :
    ∃ t, l = a :: t := by
  cases h with
  | one _ => exact ⟨[], rfl⟩
  | cons _ _ => exact ⟨_, rfl⟩

theorem Seg.seg_live {H : Heap} {a e : Nat} {l : List Nat} (h : Seg H a l e) :
    ∀ x, x ∈ l → ∃ n i, H x = Cell.node n i := by
  induction h with
  | one ha =>
    intro x hx
    rcases List.mem_singleton.1 hx with rfl
    exact ⟨_, _, ha⟩
  | cons ha _ ih =>
    intro x hx
    rcases List.mem_cons.1 hx with rfl | hx
    · exact ⟨_, _, ha⟩
    · exact ih x hx

/-- Linking a fresh live node after the last node of a segment. -/
theorem Seg.snoc {H : Heap} {a e r : Nat} {l : List Nat} (h : Seg H a l e) (hn : l.Nodup)
    {n : Option Nat} {i : ITEM} (he : H e = Cell.node n i) (hr : r ∉ l)
    {m : Option Nat} {j : ITEM} (hl : H r = Cell.node m j) :
    Seg (Function.update H e (Cell.node (some r) i)) a (l ++ [r]) r := by
  induction h with
  | @one a n0 i0 ha =>
    have hra : r ≠ a := fun h => hr (by simp [h])
    refine Seg.cons (i := i) (by simp) (Seg.one (n := m) (i := j) ?_)
    rw [Function.update_noteq hra]; exact hl
  | @cons a b e i0 l ha hs ih =>
    have hae : a ≠ e := by
      intro h
      have := hs.last_mem
      rw [← h] at this
      exact (List.nodup_cons.1 hn).1 this
    refine Seg.cons (i := i0) ?_ (ih (List.nodup_cons.1 hn).2 he
      (fun h => hr (List.mem_cons_of_mem _ h)))
    rw [Function.update_noteq hae]; exact ha

/-- Closing a segment: the last node is linked to a chain of other slots. -/
theorem Seg.close {H : Heap} {a e : Nat} {l : List Nat} (h : Seg H a l e) (hn : l.Nodup)
    {n : Option Nat} {i : ITEM} (he : H e = Cell.node n i)
    {x : Option Nat} {lx : List Nat} (hx : IsChain H x lx) (hd : ∀ y, y ∈ lx → y ∉ l) :
    IsChain (Function.update H e (Cell.node x i)) (some a) (l ++ lx) := by
  induction h with
  | @one a n0 i0 ha =>
    refine IsChain.cons (n := x) (i := i) (by simp) (hx.frame ?_)
    intro y hy
    have : y ≠ a := fun h => hd y hy (by simp [h])
    rw [Function.update_noteq this]
  | @cons a b e i0 l ha hs ih =>
    have hae : a ≠ e := by
      intro h
      have := hs.last_mem
      rw [← h] at this
      exact (List.nodup_cons.1 hn).1 this
    refine IsChain.cons (n := some b) (i := i0) ?_ (ih (List.nodup_cons.1 hn).2 he
      (fun y hy h => hd y hy (List.mem_cons_of_mem _ h)))
    rw [Function.update_noteq hae]; exact ha

theorem item_at_node {H : Heap} {a : Nat} {n : Option Nat} {i : ITEM} (h : H a = Cell.node n i) :
    item_at H a = i := by
  simp [item_at, h]

theorem Rewrites.item_at {H H1 : Heap} (h : Rewrites H H1) {x : Nat} {n : Option Nat} {i : ITEM}
    (hx : H1 x = Cell.node n i) : item_at H x = i := by
  rcases h x with h | ⟨m, m1, j, e1, e2⟩
  · rw [h] at hx; cases hx
  · rw [e2] at hx
    cases hx
    exact item_at_node e1

theorem nodes_of_congr {H H1 : Heap} {l : List Nat} (h : ∀ x, x ∈ l → item_at H1 x = item_at H x) :
    nodes_of H1 l = nodes_of H l := by
  unfold nodes_of
  apply List.map_congr_left
  intro a ha
  rw [h a ha]

theorem Rewrites.nodes_of {H H1 : Heap} (h : Rewrites H H1) {l : List Nat}
    (hl : ∀ x, x ∈ l → ∃ n i, H1 x = Cell.node n i) : nodes_of H1 l = nodes_of H l := by
  apply nodes_of_congr
  intro x hx
  obtain ⟨n, i, e⟩ := hl x hx
  rw [item_at_node e, h.item_at e]

theorem nodes_of_append (H : Heap) (l1 l2 : List Nat) :
    nodes_of H (l1 ++ l2) = nodes_of H l1 ++ nodes_of H l2 := by
  simp [nodes_of]

theorem nodes_of_addr (H : Heap) (l : List Nat) : (nodes_of H l).map List_Record.addr = l := by
  simp [nodes_of, Function.comp_def]

theorem nodes_of_length (H : Heap) (l : List Nat) : (nodes_of H l).length = l.length := by
  simp [nodes_of]

theorem Step.step_refl (H : Heap) (F : List Nat) : Step H H F F :=
  ⟨Rewrites.rw_refl H, fun _ _ => rfl, fun _ h1 h2 => absurd h1 h2, fun _ h => h⟩

theorem Step.compose {H H1 H2 : Heap} {F o1 F2 o2 o : List Nat} (h1 : Step H H1 F o1)
    (h2 : Step H1 H2 F2 o2) (hF : ∀ x, x ∈ F2 → x ∈ o1)
    (ho : ∀ x, x ∈ o ↔ x ∈ o2 ∨ (x ∈ o1 ∧ x ∉ F2)) : Step H H2 F o := by
  refine ⟨h1.rew.rw_trans h2.rew, ?_, ?_, ?_⟩
  · intro x hx
    have : x ∉ F2 := fun h => hx (h1.sub x (hF x h))
    rw [h2.frame x this, h1.frame x hx]
  · intro x hx hxo
    by_cases h : x ∈ F2
    · exact h2.freed x h (fun h3 => hxo ((ho x).2 (Or.inl h3)))
    · rw [h2.frame x h]
      exact h1.freed x hx (fun h3 => hxo ((ho x).2 (Or.inr ⟨h3, h⟩)))
  · intro x hx
    rcases (ho x).1 hx with h | ⟨h, _⟩
    · exact h1.sub x (hF x (h2.sub x h))
    · exact h1.sub x h

/-- Freeing one slot of the footprint. -/
theorem Step.free (H : Heap) {F o : List Nat} {a : Nat} (ha : a ∈ F)
    (ho : ∀ x, x ∈ o ↔ x ∈ F ∧ x ≠ a) : Step H (Function.update H a Cell.freed) F o := by
  refine ⟨rewrites_free H a, ?_, ?_, ?_⟩
  · intro x hx
    have : x ≠ a := fun h => hx (h ▸ ha)
    rw [Function.update_noteq this]
  · intro x hx hxo
    have : x = a := by
      by_contra h
      exact hxo ((ho x).2 ⟨hx, h⟩)
    subst this
    simp
  · intro x hx
    exact ((ho x).1 hx).1

/-- Rewriting the `next` field of one slot of the footprint. -/
theorem Step.next {H : Heap} {F : List Nat} {a : Nat} {n : Option Nat} {i : ITEM}
    (n1 : Option Nat) (h : H a = Cell.node n i) (ha : a ∈ F) :
    Step H (Function.update H a (Cell.node n1 i)) F F := by
  refine ⟨rewrites_next n1 h, ?_, fun _ h1 h2 => absurd h1 h2, fun _ h => h⟩
  intro x hx
  have : x ≠ a := fun h => hx (h ▸ ha)
  rw [Function.update_noteq this]

theorem Step.mono {H H1 : Heap} {F o F1 o1 : List Nat} (h : Step H H1 F o)
    (hF : ∀ x, x ∈ F1 ↔ x ∈ F) (ho : ∀ x, x ∈ o1 ↔ x ∈ o) : Step H H1 F1 o1 :=
  ⟨h.rew, fun x hx => h.frame x (fun h1 => hx ((hF x).2 h1)),
    fun x hx hxo => h.freed x ((hF x).1 hx) (fun h1 => hxo ((ho x).2 h1)),
    fun x hx => (hF x).2 (h.sub x ((ho x).1 hx))⟩

theorem item_at_update_next {H : Heap} {a : Nat} {n : Option Nat} {i : ITEM} (n1 : Option Nat)
    (h : H a = Cell.node n i) (x : Nat) :
    item_at (Function.update H a (Cell.node n1 i)) x = item_at H x := by
  by_cases hx : x = a
  · subst hx
    simp [item_at, h]
  · simp [item_at, Function.update_noteq hx]

theorem item_at_update_ne (H : Heap) {a x : Nat} (c : Cell) (hx : x ≠ a) :
    item_at (Function.update H a c) x = item_at H x := by
  simp [item_at, Function.update_noteq hx]

theorem nodes_of_update_next {H : Heap} {a : Nat} {n : Option Nat} {i : ITEM} (n1 : Option Nat)
    (h : H a = Cell.node n i) (l : List Nat) :
    nodes_of (Function.update H a (Cell.node n1 i)) l = nodes_of H l :=
  nodes_of_congr fun y _ => item_at_update_next n1 h y

theorem nodes_of_update_ne (H : Heap) {a : Nat} (c : Cell) {l : List Nat} (h : a ∉ l) :
    nodes_of (Function.update H a c) l = nodes_of H l :=
  nodes_of_congr fun _ hx => item_at_update_ne H c (fun e => h (e ▸ hx))

theorem nodes_of_cons (H : Heap) (a : Nat) (l : List Nat) :
    nodes_of H (a :: l) = ⟨a, item_at H a⟩ :: nodes_of H l := rfl

theorem run_loop_sim (cmp : Term → Term → Int) (order : sort_order) (rd : Int) :
    ∀ (lr : List Nat) (fuel : Nat) (H : Heap) (a q : Nat) (l : List Nat) (r : Option Nat),
      Seg H a l q → IsChain H r lr → (l ++ lr).Nodup → lr.length ≤ fuel →
      ∃ H1 q1 r1 ltl lrest, Ptr.run_loop cmp order rd fuel H q r = some (H1, q1, r1) ∧
        Seg H1 a (l ++ ltl) q1 ∧ IsChain H1 r1 lrest ∧
        run_loop cmp order rd ⟨q, item_at H q⟩ (nodes_of H lr)
          = (nodes_of H ltl, nodes_of H lrest) ∧
        (ltl ++ lrest).Sublist lr ∧ Step H H1 (l ++ lr) (l ++ (ltl ++ lrest)) := by
  intro lr
  induction lr with
  | nil =>
    intro fuel H a q l r hs hc _ _
    cases hc
    refine ⟨H, q, none, [], [], ?_, by simpa using hs, IsChain.nil, rfl, by simp, ?_⟩
    · cases fuel <;> rfl
    · simpa using Step.step_refl H l
  | cons r0 ls ih =>
    intro fuel H a q l r hs hc hn hf
    cases hc with
    | @cons _ s ri _ hr0 hcs =>
    obtain ⟨nq, qi, hq⟩ := hs.seg_live q hs.last_mem
    have hnl : l.Nodup := (List.nodup_append.1 hn).1
    have hnr : (r0 :: ls).Nodup := (List.nodup_append.1 hn).2.1
    have hdis : ∀ x, x ∈ l → x ∉ r0 :: ls := fun x h1 h2 => (List.nodup_append.1 hn).2.2 h1 h2
    have hr0l : r0 ∉ l := fun h => hdis r0 h (List.mem_cons_self _ _)
    have hr0s : r0 ∉ ls := (List.nodup_cons.1 hnr).1
    have hqr : q ≠ r0 := fun h => hr0l (h ▸ hs.last_mem)
    have hqs : q ∉ ls := fun h => hdis q hs.last_mem (List.mem_cons_of_mem _ h)
    obtain ⟨fuel, rfl⟩ : ∃ k, fuel = k + 1 := ⟨fuel - 1, by simp at hf; omega⟩
    have hf1 : ls.length ≤ fuel := by simpa using hf
    have eq_q : item_at H q = qi := item_at_node hq
    have eq_r : item_at H r0 = ri := item_at_node hr0
    by_cases hc1 : compare cmp order ⟨q, qi⟩ ⟨r0, ri⟩ > 0
    · refine ⟨H, q, some r0, [], r0 :: ls, ?_, by simpa using hs, IsChain.cons hr0 hcs, ?_,
        by simp, ?_⟩
      · simp only [Ptr.run_loop, hq, hr0, hc1, if_true]
      · rw [nodes_of_cons, run_loop, eq_q, eq_r]
        simp only [hc1, if_true]
        rfl
      · simpa using Step.step_refl H (l ++ r0 :: ls)
    · by_cases hc2 : compare cmp order ⟨q, qi⟩ ⟨r0, ri⟩ = rd
      · have hs1 : Seg (Function.update H r0 Cell.freed) a l q :=
          hs.seg_frame fun x hx => Function.update_noteq (ne_of_mem_of_not_mem hx hr0l) _ _
        have hcs1 : IsChain (Function.update H r0 Cell.freed) s ls :=
          hcs.frame fun x hx => Function.update_noteq (ne_of_mem_of_not_mem hx hr0s) _ _
        have hn1 : (l ++ ls).Nodup :=
          List.nodup_append.2 ⟨hnl, (List.nodup_cons.1 hnr).2,
            fun x h1 h2 => hdis x h1 (List.mem_cons_of_mem _ h2)⟩
        obtain ⟨H1, q1, r1, ltl, lrest, e1, e2, e3, e4, e5, e6⟩ :=
          ih fuel _ a q l s hs1 hcs1 hn1 hf1
        have hsub : ∀ x, x ∈ ltl ++ lrest → x ∈ ls := fun x hx => e5.subset hx
        have hr0tl : r0 ∉ ltl := fun h => hr0s (hsub _ (List.mem_append_left _ h))
        have hr0rest : r0 ∉ lrest := fun h => hr0s (hsub _ (List.mem_append_right _ h))
        refine ⟨H1, q1, r1, ltl, lrest, ?_, e2, e3, ?_, e5.trans (List.sublist_cons_self _ _), ?_⟩
        · simp only [Ptr.run_loop, hq, hr0, hc1, if_false]
          rw [if_pos hc2]
          exact e1
        · rw [nodes_of_cons, run_loop, eq_q, eq_r]
          simp only [hc1, if_false]
          rw [if_pos hc2]
          rw [item_at_update_ne H _ hqr, nodes_of_update_ne H _ hr0s,
            nodes_of_update_ne H _ hr0tl, nodes_of_update_ne H _ hr0rest, eq_q] at e4
          exact e4
        · have st1 : Step H (Function.update H r0 Cell.freed) (l ++ r0 :: ls) (l ++ ls) :=
            Step.free H (by simp) (by
              intro x
              simp only [List.mem_append, List.mem_cons]
              constructor
              · rintro (h | h)
                · exact ⟨Or.inl h, fun e => hr0l (e ▸ h)⟩
                · exact ⟨Or.inr (Or.inr h), fun e => hr0s (e ▸ h)⟩
              · rintro ⟨h | h | h, hne⟩
                · exact Or.inl h
                · exact absurd h hne
                · exact Or.inr h)
          refine st1.compose e6 (fun x hx => hx) ?_
          intro x
          constructor
          · intro h; exact Or.inl h
          · rintro (h | ⟨_, h2⟩)
            · exact h
            · exact absurd ‹_› h2
      · have hr1 : Function.update H q (Cell.node (some r0) qi) r0 = Cell.node s ri := by
          rw [Function.update_noteq (Ne.symm hqr)]; exact hr0
        have hs1 : Seg (Function.update H q (Cell.node (some r0) qi)) a (l ++ [r0]) r0 :=
          hs.snoc hnl hq hr0l hr0
        have hcs1 : IsChain (Function.update H q (Cell.node (some r0) qi)) s ls :=
          hcs.frame fun x hx => Function.update_noteq (ne_of_mem_of_not_mem hx hqs) _ _
        have hn1 : ((l ++ [r0]) ++ ls).Nodup := by simpa using hn
        obtain ⟨H1, q1, r1, ltl, lrest, e1, e2, e3, e4, e5, e6⟩ :=
          ih fuel _ a r0 (l ++ [r0]) s hs1 hcs1 hn1 hf1
        refine ⟨H1, q1, r1, r0 :: ltl, lrest, ?_, by simpa using e2, e3, ?_,
          by simpa using e5, ?_⟩
        · simp only [Ptr.run_loop, hq, hr0, hc1, hc2, if_true, if_false, hr1]
          exact e1
        · rw [nodes_of_cons, run_loop, eq_q, eq_r]
          simp only [hc1, hc2, if_true, if_false]
          rw [item_at_update_next _ hq, nodes_of_update_next _ hq, nodes_of_update_next _ hq,
            nodes_of_update_next _ hq, eq_r] at e4
          rw [e4, nodes_of_cons, eq_r]
        · have st1 : Step H (Function.update H q (Cell.node (some r0) qi)) (l ++ r0 :: ls)
              (l ++ r0 :: ls) :=
            Step.next _ hq (List.mem_append_left _ hs.last_mem)
          refine st1.compose e6 (fun x hx => by simpa using hx) ?_
          intro x
          simp only [List.mem_append, List.mem_cons, List.mem_singleton]
          tauto

theorem end_run_sim (cmp : Term → Term → Int) (order : sort_order) (rd : Int)
    {fuel : Nat} {H : Heap} {a q : Nat} {l ldat : List Nat} {data : Option Nat}
    (hs : Seg H a l q) (hc : IsChain H data ldat) (hn : (l ++ ldat).Nodup)
    (hf : ldat.length ≤ fuel) :
    ∃ H1 r1 ltl ld, Ptr.end_run a (Ptr.run_loop cmp order rd fuel H q data) = some (H1, a, r1) ∧
      IsChain H1 (some a) (l ++ ltl) ∧ IsChain H1 r1 ld ∧
      run_loop cmp order rd ⟨q, item_at H q⟩ (nodes_of H ldat) = (nodes_of H ltl, nodes_of H ld) ∧
      (ltl ++ ld).Sublist ldat ∧ Step H H1 (l ++ ldat) (l ++ (ltl ++ ld)) := by
  obtain ⟨H2, q2, r1, ltl, ld, e1, e2, e3, e4, e5, e6⟩ :=
    run_loop_sim cmp order rd ldat fuel H a q l data hs hc hn hf
  have hn2 : (l ++ (ltl ++ ld)).Nodup := hn.sublist ((List.append_sublist_append_left l).2 e5)
  have hn3 : (l ++ ltl).Nodup := by
    rw [← List.append_assoc] at hn2
    exact (List.nodup_append.1 hn2).1
  obtain ⟨n2, i2, hq2⟩ := e2.seg_live q2 e2.last_mem
  have hq2ld : q2 ∉ ld := by
    intro h
    rw [← List.append_assoc] at hn2
    exact (List.nodup_append.1 hn2).2.2 e2.last_mem h
  refine ⟨Function.update H2 q2 (Cell.node none i2), r1, ltl, ld, ?_, ?_, ?_, e4, e5, ?_⟩
  · rw [e1]
    simp only [Ptr.end_run, hq2]
  · simpa using e2.close hn3 hq2 IsChain.nil (by simp)
  · exact e3.frame fun x hx => Function.update_noteq (ne_of_mem_of_not_mem hx hq2ld) _ _
  · have hq2m : q2 ∈ l ++ (ltl ++ ld) := by
      rw [← List.append_assoc]
      exact List.mem_append_left _ e2.last_mem
    refine e6.compose (Step.next none hq2 hq2m) (fun x hx => hx) ?_
    intro x
    tauto

theorem pick_run_sim (cmp : Term → Term → Int) (order : sort_order) (rd : Int)
    {fuel : Nat} {H : Heap} {p : Nat} {lrest : List Nat}
    (hc : IsChain H (some p) (p :: lrest)) (hn : (p :: lrest).Nodup)
    (hf : lrest.length ≤ fuel) :
    ∃ H1 p1 r1 lrun ld, Ptr.pick_run cmp order rd fuel H p = some (H1, p1, r1) ∧
      IsChain H1 (some p1) lrun ∧ IsChain H1 r1 ld ∧
      pick_run cmp order rd ⟨p, item_at H p⟩ (nodes_of H lrest)
        = (nodes_of H lrun, nodes_of H ld) ∧
      (lrun ++ ld).Subperm (p :: lrest) ∧ Step H H1 (p :: lrest) (lrun ++ ld) := by
  cases hc with
  | @cons _ n pi _ hp hrest =>
  have eq_p : item_at H p = pi := item_at_node hp
  cases hrest with
  | nil =>
    refine ⟨H, p, none, [p], [], ?_, IsChain.cons hp IsChain.nil, IsChain.nil, ?_, by simp, ?_⟩
    · simp only [Ptr.pick_run, hp]
    · simp [pick_run, nodes_of]
    · simpa using Step.step_refl H [p]
  | @cons q data qi ldat hq hdat =>
    have eq_q : item_at H q = qi := item_at_node hq
    have hpq : p ≠ q := fun h => (List.nodup_cons.1 hn).1 (by simp [h])
    have hpd : p ∉ ldat := fun h => (List.nodup_cons.1 hn).1 (by simp [h])
    have hnq : (q :: ldat).Nodup := (List.nodup_cons.1 hn).2
    have hqd : q ∉ ldat := (List.nodup_cons.1 hnq).1
    have hnd : ldat.Nodup := (List.nodup_cons.1 hnq).2
    have hfd : ldat.length ≤ fuel := by simp at hf; omega
    by_cases hc1 : compare cmp order ⟨p, pi⟩ ⟨q, qi⟩ > 0
    · -- the first two nodes are swapped
      have hs0 : Seg (Function.update H q (Cell.node (some p) qi)) q [q, p] p :=
        Seg.cons (i := qi) (by simp) (Seg.one (n := some q) (i := pi) (by
          rw [Function.update_noteq hpq]; exact hp))
      have hd0 : IsChain (Function.update H q (Cell.node (some p) qi)) data ldat :=
        hdat.frame fun x hx => Function.update_noteq (ne_of_mem_of_not_mem hx hqd) _ _
      have hn0 : ([q, p] ++ ldat).Nodup := by
        simp only [List.cons_append, List.nil_append, List.nodup_cons, List.mem_cons]
        exact ⟨fun h => h.elim (fun e => hpq e.symm) hqd, hpd, hnd⟩
      obtain ⟨H1, r1, ltl, ld, e1, e2, e3, e4, e5, e6⟩ := end_run_sim cmp order rd hs0 hd0 hn0 hfd
      refine ⟨H1, q, r1, [q, p] ++ ltl, ld, ?_, e2, e3, ?_, ?_, ?_⟩
      · simp only [Ptr.pick_run, hp, hq, hc1, if_true]
        exact e1
      · rw [nodes_of_cons, pick_run, eq_p, eq_q]
        simp only [hc1, if_true]
        rw [item_at_update_ne H _ hpq, nodes_of_update_next _ hq, nodes_of_update_next _ hq,
          nodes_of_update_next _ hq, eq_p] at e4
        rw [e4]
        simp [nodes_of, eq_p, eq_q]
      · have h1 : ([q, p] ++ ltl ++ ld).Sublist ([q, p] ++ ldat) := by
          rw [List.append_assoc]
          exact (List.append_sublist_append_left _).2 e5
        exact h1.subperm.trans (List.Perm.subperm (by simpa using List.Perm.swap p q ldat))
      · have st0 : Step H (Function.update H q (Cell.node (some p) qi)) (p :: q :: ldat)
            (p :: q :: ldat) := Step.next _ hq (by simp)
        have e7 : Step (Function.update H q (Cell.node (some p) qi)) H1 (p :: q :: ldat)
            ([q, p] ++ ltl ++ ld) :=
          e6.mono (by intro x; simp; tauto) (by intro x; simp)
        refine st0.compose e7 (fun x hx => hx) ?_
        intro x
        tauto
    · by_cases hc2 : compare cmp order ⟨p, pi⟩ ⟨q, qi⟩ = rd
      · -- the second node is a duplicate of the first
        have hp1 : Function.update H p (Cell.node data pi) p = Cell.node data pi := by simp
        have hs0 : Seg (Function.update (Function.update H p (Cell.node data pi)) q Cell.freed)
            p [p] p :=
          Seg.one (n := data) (i := pi) (by rw [Function.update_noteq hpq]; simp)
        have hd0 : IsChain (Function.update (Function.update H p (Cell.node data pi)) q
            Cell.freed) data ldat :=
          hdat.frame fun x hx => by
            rw [Function.update_noteq (ne_of_mem_of_not_mem hx hqd),
              Function.update_noteq (ne_of_mem_of_not_mem hx hpd)]
        have hn0 : ([p] ++ ldat).Nodup := by
          simp only [List.cons_append, List.nil_append, List.nodup_cons]
          exact ⟨hpd, hnd⟩
        obtain ⟨H1, r1, ltl, ld, e1, e2, e3, e4, e5, e6⟩ :=
          end_run_sim cmp order rd hs0 hd0 hn0 hfd
        have hsub : ∀ x, x ∈ ltl ++ ld → x ∈ ldat := fun x hx => e5.subset hx
        have hqtl : q ∉ ltl := fun h => hqd (hsub _ (List.mem_append_left _ h))
        have hqld : q ∉ ld := fun h => hqd (hsub _ (List.mem_append_right _ h))
        refine ⟨H1, p, r1, [p] ++ ltl, ld, ?_, e2, e3, ?_, ?_, ?_⟩
        · simp only [Ptr.pick_run, hp, hq, hc1, if_false]
          rw [if_pos hc2]
          exact e1
        · rw [nodes_of_cons, pick_run, eq_p, eq_q]
          simp only [hc1, if_false]
          rw [if_pos hc2]
          rw [item_at_update_ne _ _ hpq, nodes_of_update_ne _ _ hqd, nodes_of_update_ne _ _ hqtl,
            nodes_of_update_ne _ _ hqld, item_at_update_next _ hp, nodes_of_update_next _ hp,
            nodes_of_update_next _ hp, nodes_of_update_next _ hp, eq_p] at e4
          rw [e4]
          simp [nodes_of, eq_p]
        · have h1 : ([p] ++ ltl ++ ld).Sublist ([p] ++ ldat) := by
            rw [List.append_assoc]
            exact (List.append_sublist_append_left _).2 e5
          exact (h1.trans (by simp)).subperm
        · have st0 : Step H (Function.update H p (Cell.node data pi)) (p :: q :: ldat)
              (p :: q :: ldat) := Step.next _ hp (by simp)
          have st1 : Step (Function.update H p (Cell.node data pi))
              (Function.update (Function.update H p (Cell.node data pi)) q Cell.freed)
              (p :: q :: ldat) (p :: ldat) :=
            Step.free _ (by simp) (by
              intro x
              simp only [List.mem_cons]
              constructor
              · rintro (h | h)
                · exact ⟨Or.inl h, fun e => hpq (h.symm.trans e)⟩
                · exact ⟨Or.inr (Or.inr h), ne_of_mem_of_not_mem h hqd⟩
              · rintro ⟨h | h | h, hne⟩
                · exact Or.inl h
                · exact absurd h hne
                · exact Or.inr h)
          have st2 := st0.compose st1 (fun x hx => hx) (o := p :: ldat) (by intro x; tauto)
          refine st2.compose e6 (fun x hx => by simpa using hx) ?_
          intro x
          simp only [List.mem_append, List.mem_cons, List.mem_singleton, List.cons_append,
            List.nil_append]
          tauto
      · -- the first two nodes stay in place
        have hs0 : Seg H p [p, q] q := Seg.cons hp (Seg.one hq)
        have hn0 : ([p, q] ++ ldat).Nodup := by simpa using hn
        obtain ⟨H1, r1, ltl, ld, e1, e2, e3, e4, e5, e6⟩ :=
          end_run_sim cmp order rd hs0 hdat hn0 hfd
        refine ⟨H1, p, r1, [p, q] ++ ltl, ld, ?_, e2, e3, ?_, ?_, ?_⟩
        · simp only [Ptr.pick_run, hp, hq, hc1, hc2, if_false]
          exact e1
        · rw [nodes_of_cons, pick_run, eq_p, eq_q]
          simp only [hc1, hc2, if_false]
          rw [eq_q] at e4
          rw [e4]
          simp [nodes_of, eq_p, eq_q]
        · have h1 : ([p, q] ++ ltl ++ ld).Sublist ([p, q] ++ ldat) := by
            rw [List.append_assoc]
            exact (List.append_sublist_append_left _).2 e5
          exact (h1.trans (by simp)).subperm
        · exact e6.mono (by intro x; simp) (by intro x; simp)

theorem OutSeg.out_frame {H H1 : Heap} {hd r : Option Nat} {pre : List Nat} (h : OutSeg H hd r pre)
    (hf : ∀ x, x ∈ pre → H1 x = H x) : OutSeg H1 hd r pre := by
  cases r with
  | none => exact h
  | some b =>
    obtain ⟨a, e, hs⟩ := h
    exact ⟨a, e, hs.seg_frame hf⟩

/-- The assignment `r->next = q` that appends the live node `q` to the output. -/
theorem link_node {H : Heap} {hd r : Option Nat} {pre : List Nat} (h : OutSeg H hd r pre)
    (hn : pre.Nodup) {q : Nat} {n : Option Nat} {i : ITEM} (hq : H q = Cell.node n i)
    (hqp : q ∉ pre) :
    ∃ H1 hd1, Ptr.link H hd r (some q) = some (H1, hd1) ∧ OutSeg H1 hd1 (some q) (pre ++ [q]) ∧
      Step H H1 pre pre ∧ ∀ x, item_at H1 x = item_at H x := by
  cases r with
  | none =>
    have hp : pre = [] := h
    subst hp
    exact ⟨H, some q, rfl, ⟨q, rfl, Seg.one hq⟩, Step.step_refl H [], fun _ => rfl⟩
  | some b =>
    obtain ⟨a, e, hs⟩ := h
    obtain ⟨nb, bi, hb⟩ := hs.seg_live b hs.last_mem
    refine ⟨Function.update H b (Cell.node (some q) bi), hd, ?_, ⟨a, e, hs.snoc hn hb hqp hq⟩,
      Step.next _ hb hs.last_mem, item_at_update_next _ hb⟩
    simp only [Ptr.link, hb]

/-- The assignment `r->next = q ? q : p` that ends a merge. -/
theorem link_close {H : Heap} {hd r : Option Nat} {pre : List Nat} (h : OutSeg H hd r pre)
    (hn : pre.Nodup) {x : Option Nat} {lx : List Nat} (hx : IsChain H x lx)
    (hd0 : ∀ y, y ∈ lx → y ∉ pre) :
    ∃ H1 hd1, Ptr.link H hd r x = some (H1, hd1) ∧ IsChain H1 hd1 (pre ++ lx) ∧
      Step H H1 pre pre := by
  cases r with
  | none =>
    have hp : pre = [] := h
    subst hp
    exact ⟨H, x, rfl, by simpa using hx, Step.step_refl H []⟩
  | some b =>
    obtain ⟨a, e, hs⟩ := h
    obtain ⟨nb, bi, hb⟩ := hs.seg_live b hs.last_mem
    refine ⟨Function.update H b (Cell.node x bi), hd, ?_, ?_, Step.next _ hb hs.last_mem⟩
    · simp only [Ptr.link, hb]
    · rw [e]
      exact hs.close hn hb hx hd0

theorem Step.widen {H H1 : Heap} {F o : List Nat} (h : Step H H1 F o) (G : List Nat) :
    Step H H1 (F ++ G) (o ++ G) := by
  refine ⟨h.rew, ?_, ?_, ?_⟩
  · intro x hx
    exact h.frame x (fun h1 => hx (List.mem_append_left _ h1))
  · intro x hx hxo
    rcases List.mem_append.1 hx with h1 | h1
    · exact h.freed x h1 (fun h2 => hxo (List.mem_append_left _ h2))
    · exact absurd (List.mem_append_right _ h1) hxo
  · intro x hx
    rcases List.mem_append.1 hx with h1 | h1
    · exact List.mem_append_left _ (h.sub x h1)
    · exact List.mem_append_right _ h1

theorem Step.free_mid (H : Heap) {l1 l2 : List Nat} {a : Nat} (hn : (l1 ++ a :: l2).Nodup) :
    Step H (Function.update H a Cell.freed) (l1 ++ a :: l2) (l1 ++ l2) := by
  have h1 : a ∉ l1 := fun h => (List.nodup_append.1 hn).2.2 h (List.mem_cons_self _ _)
  have h2 : a ∉ l2 := (List.nodup_cons.1 (List.nodup_append.1 hn).2.1).1
  refine Step.free H (by simp) ?_
  intro x
  simp only [List.mem_append, List.mem_cons]
  constructor
  · rintro (h | h)
    · exact ⟨Or.inl h, ne_of_mem_of_not_mem h h1⟩
    · exact ⟨Or.inr (Or.inr h), ne_of_mem_of_not_mem h h2⟩
  · rintro ⟨h | h | h, hne⟩
    · exact Or.inl h
    · exact absurd h hne
    · exact Or.inr h

section MergeSim
variable (cmp : Term → Term → Int) (order : sort_order) (rd : Int)

theorem merge_loop_none_left (fuel : Nat) (H : Heap) (hd r p : Option Nat) :
    Ptr.merge_loop cmp order rd fuel H hd r none p = Ptr.link H hd r p := by
  cases fuel <;> simp [Ptr.merge_loop]

theorem merge_loop_none_right (fuel : Nat) (H : Heap) (hd r : Option Nat) (q : Nat) :
    Ptr.merge_loop cmp order rd fuel H hd r (some q) none = Ptr.link H hd r (some q) := by
  cases fuel <;> simp [Ptr.merge_loop]

set_option maxHeartbeats 1600000 in
theorem merge_loop_sim : ∀ (fuel : Nat) (H : Heap) (hd r : Option Nat) (pre : List Nat)
    (q p : Option Nat) (lq lp : List Nat),
    OutSeg H hd r pre → IsChain H q lq → IsChain H p lp → (pre ++ (lq ++ lp)).Nodup →
    lq.length + lp.length ≤ fuel →
    ∃ H1 hd1 lm, Ptr.merge_loop cmp order rd fuel H hd r q p = some (H1, hd1) ∧
      IsChain H1 hd1 (pre ++ lm) ∧
      merge cmp order rd (nodes_of H lq) (nodes_of H lp) = nodes_of H lm ∧
      lm.Subperm (lq ++ lp) ∧ Step H H1 (pre ++ (lq ++ lp)) (pre ++ lm) := by
  intro fuel
  induction fuel with
  | zero =>
    intro H hd r pre q p lq lp ho hq hp hn hf
    have h1 : lq = [] := List.length_eq_zero.1 (by omega)
    have h2 : lp = [] := List.length_eq_zero.1 (by omega)
    subst h1 h2
    cases hq
    obtain ⟨H1, hd1, e1, e2, e3⟩ := link_close ho (List.nodup_append.1 hn).1 hp (by simp)
    exact ⟨H1, hd1, [], by rw [merge_loop_none_left]; exact e1, e2, rfl, by simp,
      by simpa using e3⟩
  | succ k ih =>
    intro H hd r pre q p lq lp ho hq hp hn hf
    have hnpre : pre.Nodup := (List.nodup_append.1 hn).1
    have hdis : ∀ x, x ∈ lq ++ lp → x ∉ pre :=
      fun x h1 h2 => (List.nodup_append.1 hn).2.2 h2 h1
    cases hq with
    | nil =>
      obtain ⟨H1, hd1, e1, e2, e3⟩ := link_close ho hnpre hp (fun y hy => hdis y (by simpa using hy))
      exact ⟨H1, hd1, lp, by rw [merge_loop_none_left]; exact e1, e2, rfl,
        by simpa using List.Subperm.refl lp, by simpa using e3.widen lp⟩
    | @cons q0 qn qi tq hq0 hqt =>
    cases hp with
    | nil =>
      obtain ⟨H1, hd1, e1, e2, e3⟩ := link_close ho hnpre (IsChain.cons hq0 hqt)
        (fun y hy => hdis y (by simpa using hy))
      exact ⟨H1, hd1, q0 :: tq, by rw [merge_loop_none_right]; exact e1, e2,
        merge_nil_right cmp order rd _, by simpa using List.Subperm.refl (q0 :: tq),
        by simpa using e3.widen (q0 :: tq)⟩
    | @cons p0 pn pi tp hp0 hpt =>
    have hn2 : (q0 :: tq ++ p0 :: tp).Nodup := (List.nodup_append.1 hn).2.1
    have hq0pre : q0 ∉ pre := hdis q0 (by simp)
    have hp0pre : p0 ∉ pre := hdis p0 (by simp)
    have hp0tq : p0 ∉ tq := fun h => by
      have := (List.nodup_append.1 hn2).2.2 (List.mem_cons_of_mem _ h) (List.mem_cons_self _ _)
      exact this
    have hp0tp : p0 ∉ tp := (List.nodup_cons.1 (List.nodup_append.1 hn2).2.1).1
    have hqp : q0 ≠ p0 := fun e => by
      have := (List.nodup_append.1 hn2).2.2 (List.mem_cons_self _ _)
        (e ▸ List.mem_cons_self p0 tp)
      exact this
    have eq_q : item_at H q0 = qi := item_at_node hq0
    have eq_p : item_at H p0 = pi := item_at_node hp0
    have hk : tq.length + tp.length + 1 ≤ k := by
      simp only [List.length_cons] at hf; omega
    by_cases hc1 : compare cmp order ⟨q0, qi⟩ ⟨p0, pi⟩ ≤ 0
    · obtain ⟨H1, hd1, l1, l2, l3, l4⟩ := link_node ho hnpre hq0 hq0pre
      have hq1 : H1 q0 = Cell.node qn qi := (l3.frame q0 hq0pre).trans hq0
      have hp1 : H1 p0 = Cell.node pn pi := (l3.frame p0 hp0pre).trans hp0
      have hqt1 : IsChain H1 qn tq :=
        hqt.frame fun x hx => l3.frame x (hdis x (by simp [hx]))
      have hpt1 : IsChain H1 pn tp :=
        hpt.frame fun x hx => l3.frame x (hdis x (by simp [hx]))
      have nodes1 : ∀ l, nodes_of H1 l = nodes_of H l := fun l => nodes_of_congr fun x _ => l4 x
      have st1 : Step H H1 (pre ++ (q0 :: tq ++ p0 :: tp)) (pre ++ (q0 :: tq ++ p0 :: tp)) :=
        l3.widen _
      by_cases hc2 : compare cmp order ⟨q0, qi⟩ ⟨p0, pi⟩ = rd
      · have ho2 : OutSeg (Function.update H1 p0 Cell.freed) hd1 (some q0) (pre ++ [q0]) :=
          l2.out_frame fun x hx => Function.update_noteq (by
            rcases List.mem_append.1 hx with h | h
            · exact ne_of_mem_of_not_mem h hp0pre
            · rw [List.mem_singleton.1 h]; exact hqp) _ _
        have hqt2 : IsChain (Function.update H1 p0 Cell.freed) qn tq :=
          hqt1.frame fun x hx => Function.update_noteq (ne_of_mem_of_not_mem hx hp0tq) _ _
        have hpt2 : IsChain (Function.update H1 p0 Cell.freed) pn tp :=
          hpt1.frame fun x hx => Function.update_noteq (ne_of_mem_of_not_mem hx hp0tp) _ _
        have hsub : (tq ++ tp).Sublist (tq ++ p0 :: tp) :=
          (List.append_sublist_append_left _).2 (List.sublist_cons_self _ _)
        have hn3 : ((pre ++ [q0]) ++ (tq ++ tp)).Nodup :=
          hn.sublist (by simp [hsub])
        obtain ⟨H3, hd3, lm, m1, m2, m3, m4, m5⟩ :=
          ih _ hd1 (some q0) (pre ++ [q0]) qn pn tq tp ho2 hqt2 hpt2 hn3 (by omega)
        have hp0lm : p0 ∉ lm := fun h => by
          rcases List.mem_append.1 (m4.subset h) with h | h
          · exact hp0tq h
          · exact hp0tp h
        refine ⟨H3, hd3, q0 :: lm, ?_, by simpa using m2, ?_, ?_, ?_⟩
        · simp only [Ptr.merge_loop, hq0, hp0, hc1, if_true, l1, hq1, hp1]
          rw [if_pos hc2]
          exact m1
        · rw [nodes_of_cons, nodes_of_cons, merge_cons_cons, eq_q, eq_p, if_pos hc1, if_pos hc2,
            nodes_of_cons, eq_q]
          rw [nodes_of_update_ne _ _ hp0tq, nodes_of_update_ne _ _ hp0tp,
            nodes_of_update_ne _ _ hp0lm, nodes1, nodes1, nodes1] at m3
          rw [m3]
        · have h1 : (q0 :: lm).Subperm (q0 :: (tq ++ tp)) := (List.subperm_cons q0).2 m4
          exact h1.trans (List.Sublist.subperm (hsub.cons₂ q0))
        · have st2 : Step H1 (Function.update H1 p0 Cell.freed)
              ((pre ++ q0 :: tq) ++ p0 :: tp) ((pre ++ q0 :: tq) ++ tp) :=
            Step.free_mid H1 (by simpa using hn)
          have st2a : Step H1 (Function.update H1 p0 Cell.freed)
              (pre ++ (q0 :: tq ++ p0 :: tp)) ((pre ++ [q0]) ++ (tq ++ tp)) :=
            st2.mono (by intro x; simp) (by intro x; simp)
          have st3 : Step H (Function.update H1 p0 Cell.freed)
              (pre ++ (q0 :: tq ++ p0 :: tp)) ((pre ++ [q0]) ++ (tq ++ tp)) :=
            st1.compose st2a (fun x hx => hx) (by intro x; tauto)
          refine st3.compose m5 (fun x hx => hx) ?_
          intro x
          simp only [List.mem_append, List.mem_cons, List.mem_singleton]
          tauto
      · have hn3 : ((pre ++ [q0]) ++ (tq ++ p0 :: tp)).Nodup := by simpa using hn
        obtain ⟨H3, hd3, lm, m1, m2, m3, m4, m5⟩ :=
          ih H1 hd1 (some q0) (pre ++ [q0]) qn (some p0) tq (p0 :: tp) l2 hqt1
            (IsChain.cons hp1 hpt1) hn3 (by simp only [List.length_cons]; omega)
        refine ⟨H3, hd3, q0 :: lm, ?_, by simpa using m2, ?_, ?_, ?_⟩
        · simp only [Ptr.merge_loop, hq0, hp0, hc1, if_true, l1, hq1, hp1]
          rw [if_neg hc2]
          exact m1
        · rw [nodes_of_cons, nodes_of_cons, merge_cons_cons, eq_q, eq_p, if_pos hc1, if_neg hc2,
            nodes_of_cons, eq_q]
          rw [nodes1, nodes1, nodes1, nodes_of_cons, eq_p] at m3
          rw [m3]
        · simpa using (List.subperm_cons q0).2 m4
        · refine st1.compose m5 (fun x hx => by simpa using hx) ?_
          intro x
          simp only [List.mem_append, List.mem_cons, List.mem_singleton]
          tauto
    · obtain ⟨H1, hd1, l1, l2, l3, l4⟩ := link_node ho hnpre hp0 hp0pre
      have hq1 : H1 q0 = Cell.node qn qi := (l3.frame q0 hq0pre).trans hq0
      have hp1 : H1 p0 = Cell.node pn pi := (l3.frame p0 hp0pre).trans hp0
      have hqt1 : IsChain H1 qn tq :=
        hqt.frame fun x hx => l3.frame x (hdis x (by simp [hx]))
      have hpt1 : IsChain H1 pn tp :=
        hpt.frame fun x hx => l3.frame x (hdis x (by simp [hx]))
      have nodes1 : ∀ l, nodes_of H1 l = nodes_of H l := fun l => nodes_of_congr fun x _ => l4 x
      have st1 : Step H H1 (pre ++ (q0 :: tq ++ p0 :: tp)) (pre ++ (q0 :: tq ++ p0 :: tp)) :=
        l3.widen _
      have hmid : (p0 :: (q0 :: tq ++ tp)).Perm (q0 :: tq ++ p0 :: tp) :=
        List.perm_middle.symm
      have hperm : ((pre ++ [p0]) ++ (q0 :: tq ++ tp)).Perm (pre ++ (q0 :: tq ++ p0 :: tp)) := by
        rw [List.append_assoc]
        exact List.Perm.append_left pre (by simpa using hmid)
      have hn3 : ((pre ++ [p0]) ++ (q0 :: tq ++ tp)).Nodup := hperm.nodup_iff.2 hn
      obtain ⟨H3, hd3, lm, m1, m2, m3, m4, m5⟩ :=
        ih H1 hd1 (some p0) (pre ++ [p0]) (some q0) pn (q0 :: tq) tp l2
          (IsChain.cons hq1 hqt1) hpt1 hn3 (by simp only [List.length_cons]; omega)
      refine ⟨H3, hd3, p0 :: lm, ?_, by simpa using m2, ?_, ?_, ?_⟩
      · simp only [Ptr.merge_loop, hq0, hp0, hc1, if_false, l1, hq1, hp1]
        exact m1
      · rw [nodes_of_cons, nodes_of_cons, merge_cons_cons, eq_q, eq_p, if_neg hc1,
          nodes_of_cons, eq_p]
        rw [nodes1, nodes1, nodes1, nodes_of_cons, eq_q] at m3
        rw [m3]
      · have h1 : (p0 :: lm).Subperm (p0 :: (q0 :: tq ++ tp)) := (List.subperm_cons p0).2 m4
        exact h1.trans hmid.subperm
      · have m6 : Step H1 H3 (pre ++ (q0 :: tq ++ p0 :: tp)) (pre ++ p0 :: lm) :=
          m5.mono (by
            intro x
            simp only [List.mem_append, List.mem_cons, List.mem_singleton]
            tauto) (by
            intro x
            simp only [List.mem_append, List.mem_cons, List.mem_singleton]
            tauto)
        exact st1.compose m6 (fun x hx => hx) (by intro x; tauto)

end MergeSim

theorem chains_frame {H H1 : Heap} {stack : List (Option Nat)} {ls : List (List Nat)}
    (h : List.Forall₂ (IsChain H) stack ls) (hf : ∀ x, x ∈ ls.flatten → H1 x = H x) :
    List.Forall₂ (IsChain H1) stack ls := by
  induction h with
  | nil => exact List.Forall₂.nil
  | cons h1 _ ih =>
    refine List.Forall₂.cons (h1.frame fun x hx => hf x ?_) (ih fun x hx => hf x ?_)
    · simp [hx]
    · simp only [List.flatten_cons, List.mem_append]
      exact Or.inr hx

theorem chains_live {H : Heap} {stack : List (Option Nat)} {ls : List (List Nat)}
    (h : List.Forall₂ (IsChain H) stack ls) :
    ∀ x, x ∈ ls.flatten → ∃ n i, H x = Cell.node n i := by
  induction h with
  | nil => intro x hx; simp at hx
  | cons h1 _ ih =>
    intro x hx
    simp only [List.flatten_cons, List.mem_append] at hx
    rcases hx with hx | hx
    · exact h1.live x hx
    · exact ih x hx

theorem map_nodes_of_congr {H H1 : Heap} {ls : List (List Nat)}
    (h : ∀ x, x ∈ ls.flatten → item_at H1 x = item_at H x) :
    ls.map (nodes_of H1) = ls.map (nodes_of H) := by
  apply List.map_congr_left
  intro l hl
  exact nodes_of_congr fun x hx => h x (List.mem_flatten.2 ⟨l, hl, hx⟩)

theorem item_at_congr {H H1 : Heap} {x : Nat} (h : H1 x = H x) : item_at H1 x = item_at H x := by
  simp [item_at, h]

theorem nodup_of_subperm {l1 l2 : List Nat} (h : l1.Subperm l2) (hn : l2.Nodup) : l1.Nodup := by
  obtain ⟨l, hp, hs⟩ := h
  exact hp.nodup_iff.1 (hn.sublist hs)

section Sim
variable (cmp : Term → Term → Int) (order : sort_order) (rd : Int)

/-- One merge on the block does what `merge` does on the chains of nodes. -/
theorem merge_sim {fuel : Nat} {H : Heap} {q p : Option Nat} {lq lp : List Nat}
    (hq : IsChain H q lq) (hp : IsChain H p lp) (hn : (lq ++ lp).Nodup)
    (hf : lq.length + lp.length ≤ fuel) :
    ∃ H1 p1 lm, Ptr.merge cmp order rd fuel H q p = some (H1, p1) ∧ IsChain H1 p1 lm ∧
      merge cmp order rd (nodes_of H lq) (nodes_of H lp) = nodes_of H1 lm ∧
      lm.Subperm (lq ++ lp) ∧ Step H H1 (lq ++ lp) lm := by
  obtain ⟨H1, p1, lm, e1, e2, e3, e4, e5⟩ :=
    merge_loop_sim cmp order rd fuel H none none [] q p lq lp rfl hq hp (by simpa using hn) hf
  have e2a : IsChain H1 p1 lm := by simpa using e2
  refine ⟨H1, p1, lm, e1, e2a, ?_, e4, by simpa using e5⟩
  rw [e3, e5.rew.nodes_of e2a.live]

/-- Picking up a run on the block does what `pick_run` does on the chain of nodes. -/
theorem pick_run_sim_final {fuel : Nat} {H : Heap} {p : Nat} {lrest : List Nat}
    (hc : IsChain H (some p) (p :: lrest)) (hn : (p :: lrest).Nodup)
    (hf : lrest.length ≤ fuel) :
    ∃ H1 p1 r1 lrun ld, Ptr.pick_run cmp order rd fuel H p = some (H1, p1, r1) ∧
      IsChain H1 (some p1) lrun ∧ IsChain H1 r1 ld ∧
      pick_run cmp order rd ⟨p, item_at H p⟩ (nodes_of H lrest)
        = (nodes_of H1 lrun, nodes_of H1 ld) ∧
      (lrun ++ ld).Subperm (p :: lrest) ∧ Step H H1 (p :: lrest) (lrun ++ ld) := by
  obtain ⟨H1, p1, r1, lrun, ld, e1, e2, e3, e4, e5, e6⟩ := pick_run_sim cmp order rd hc hn hf
  refine ⟨H1, p1, r1, lrun, ld, e1, e2, e3, ?_, e5, e6⟩
  rw [e4, e6.rew.nodes_of e2.live, e6.rew.nodes_of e3.live]

/-- The merges after a run was picked up, on the block and on the chains of nodes. -/
theorem merge_runs_sim {fuel : Nat} : ∀ (stack : List (Option Nat)) (ls : List (List Nat))
    (H : Heap) (k : Nat) (p : Option Nat) (lp : List Nat) (st : List list),
    List.Forall₂ (IsChain H) stack ls → IsChain H p lp → (lp ++ ls.flatten).Nodup →
    (lp ++ ls.flatten).length ≤ fuel →
    merge_runs cmp order rd k (nodes_of H lp) (ls.map (nodes_of H)) = some st →
    ∃ H1 stack1 ls1, Ptr.merge_runs cmp order rd fuel H k p stack = some (H1, stack1) ∧
      List.Forall₂ (IsChain H1) stack1 ls1 ∧ st = ls1.map (nodes_of H1) ∧
      ls1.flatten.Subperm (lp ++ ls.flatten) ∧ Step H H1 (lp ++ ls.flatten) ls1.flatten := by
  intro stack
  induction stack with
  | nil =>
    intro ls H k p lp st hst hp hn hf hm
    cases hst
    simp only [List.map_nil, merge_runs] at hm
    by_cases hk : k % 2 = 0
    · simp [hk] at hm
    · simp only [hk, if_false, Option.some.injEq] at hm
      refine ⟨H, [p], [lp], ?_, List.Forall₂.cons hp List.Forall₂.nil, ?_, ?_, ?_⟩
      · simp [Ptr.merge_runs, hk]
      · simp [← hm]
      · simpa using List.Subperm.refl lp
      · simpa using Step.step_refl H lp
  | cons q sp ih =>
    intro ls H k p lp st hst hp hn hf hm
    cases hst with
    | @cons _ lq _ ls1 hq hsp =>
    simp only [List.map_cons, merge_runs] at hm
    by_cases hk : k % 2 = 0
    · simp only [hk, if_true] at hm
      simp only [List.flatten_cons] at hn hf
      have hsp1 : (lq ++ lp ++ ls1.flatten).Perm (lp ++ (lq ++ ls1.flatten)) := by
        rw [← List.append_assoc]
        exact List.Perm.append_right _ List.perm_append_comm
      have hn0 : (lq ++ lp ++ ls1.flatten).Nodup := hsp1.nodup_iff.2 hn
      have hn1 : (lq ++ lp).Nodup := (List.nodup_append.1 hn0).1
      have hdis : ∀ x, x ∈ ls1.flatten → x ∉ lq ++ lp :=
        fun x h1 h2 => (List.nodup_append.1 hn0).2.2 h2 h1
      have hl0 : (lq ++ lp ++ ls1.flatten).length ≤ fuel := by
        rw [hsp1.length_eq]; exact hf
      have hl1 : lq.length + lp.length ≤ fuel := by
        simp only [List.length_append] at hl0
        omega
      obtain ⟨H1, p1, lm, e1, e2, e3, e4, e5⟩ := merge_sim cmp order rd hq hp hn1 hl1
      have hsp2 : List.Forall₂ (IsChain H1) sp ls1 :=
        chains_frame hsp fun x hx => e5.frame x (hdis x hx)
      have hm1 : merge_runs cmp order rd (k / 2) (nodes_of H1 lm) (ls1.map (nodes_of H1))
          = some st := by
        rw [← e3, map_nodes_of_congr fun x hx => item_at_congr (e5.frame x (hdis x hx))]
        exact hm
      have hsub : (lm ++ ls1.flatten).Subperm (lq ++ lp ++ ls1.flatten) :=
        (List.subperm_append_right _).2 e4
      have hn2 : (lm ++ ls1.flatten).Nodup := nodup_of_subperm hsub hn0
      obtain ⟨H2, stack1, ls2, f1, f2, f3, f4, f5⟩ :=
        ih ls1 H1 (k / 2) p1 lm st hsp2 e2 hn2 (hsub.length_le.trans hl0) hm1
      refine ⟨H2, stack1, ls2, ?_, f2, f3, (f4.trans hsub).trans hsp1.subperm, ?_⟩
      · simp only [Ptr.merge_runs, hk, if_true, e1]
        exact f1
      · have st1 : Step H H1 (lp ++ (lq ++ ls1.flatten)) (lm ++ ls1.flatten) :=
          (e5.widen ls1.flatten).mono (fun x => by
            simp only [List.mem_append]
            tauto) (fun x => Iff.rfl)
        exact st1.compose f5 (fun x hx => hx) (fun x => by tauto)
    · simp only [hk, if_false, Option.some.injEq] at hm
      refine ⟨H, p :: q :: sp, lp :: lq :: ls1, ?_,
        List.Forall₂.cons hp (List.Forall₂.cons hq hsp), ?_, ?_, ?_⟩
      · simp [Ptr.merge_runs, hk]
      · simp [← hm]
      · simpa using List.Subperm.refl _
      · simpa using Step.step_refl H (lp ++ (lq ++ ls1.flatten))

end Sim

theorem Step.widen_left {H H1 : Heap} {F o : List Nat} (h : Step H H1 F o) (G : List Nat) :
    Step H H1 (G ++ F) (G ++ o) :=
  (h.widen G).mono (fun x => by simp only [List.mem_append]; tauto)
    (fun x => by simp only [List.mem_append]; tauto)

section Sim
variable (cmp : Term → Term → Int) (order : sort_order) (rd : Int)

/-- The merges of the runs left on the stack, on the block and on the chains of nodes. -/
theorem merge_all_sim {fuel : Nat} : ∀ (stack : List (Option Nat)) (ls : List (List Nat))
    (H : Heap) (p : Option Nat) (lp : List Nat),
    List.Forall₂ (IsChain H) stack ls → IsChain H p lp → (lp ++ ls.flatten).Nodup →
    (lp ++ ls.flatten).length ≤ fuel →
    ∃ H1 p1 l1, Ptr.merge_all cmp order rd fuel H p stack = some (H1, p1) ∧ IsChain H1 p1 l1 ∧
      merge_all cmp order rd (nodes_of H lp) (ls.map (nodes_of H)) = nodes_of H1 l1 ∧
      l1.Subperm (lp ++ ls.flatten) ∧ Step H H1 (lp ++ ls.flatten) l1 := by
  intro stack
  induction stack with
  | nil =>
    intro ls H p lp hst hp hn hf
    cases hst
    exact ⟨H, p, lp, rfl, hp, rfl, by simpa using List.Subperm.refl lp,
      by simpa using Step.step_refl H lp⟩
  | cons q sp ih =>
    intro ls H p lp hst hp hn hf
    cases hst with
    | @cons _ lq _ ls1 hq hsp =>
    simp only [List.flatten_cons] at hn hf
    have hsp1 : (lq ++ lp ++ ls1.flatten).Perm (lp ++ (lq ++ ls1.flatten)) := by
      rw [← List.append_assoc]
      exact List.Perm.append_right _ List.perm_append_comm
    have hn0 : (lq ++ lp ++ ls1.flatten).Nodup := hsp1.nodup_iff.2 hn
    have hn1 : (lq ++ lp).Nodup := (List.nodup_append.1 hn0).1
    have hdis : ∀ x, x ∈ ls1.flatten → x ∉ lq ++ lp :=
      fun x h1 h2 => (List.nodup_append.1 hn0).2.2 h2 h1
    have hl0 : (lq ++ lp ++ ls1.flatten).length ≤ fuel := by
      rw [hsp1.length_eq]; exact hf
    have hl1 : lq.length + lp.length ≤ fuel := by
      simp only [List.length_append] at hl0
      omega
    obtain ⟨H1, p1, lm, e1, e2, e3, e4, e5⟩ := merge_sim cmp order rd hq hp hn1 hl1
    have hsp2 : List.Forall₂ (IsChain H1) sp ls1 :=
      chains_frame hsp fun x hx => e5.frame x (hdis x hx)
    have hsub : (lm ++ ls1.flatten).Subperm (lq ++ lp ++ ls1.flatten) :=
      (List.subperm_append_right _).2 e4
    have hn2 : (lm ++ ls1.flatten).Nodup := nodup_of_subperm hsub hn0
    obtain ⟨H2, p2, l2, f1, f2, f3, f4, f5⟩ :=
      ih ls1 H1 p1 lm hsp2 e2 hn2 (hsub.length_le.trans hl0)
    refine ⟨H2, p2, l2, ?_, f2, ?_, (f4.trans hsub).trans hsp1.subperm, ?_⟩
    · simp only [Ptr.merge_all, e1]
      exact f1
    · simp only [List.map_cons, merge_all]
      rw [e3, ← map_nodes_of_congr fun x hx => item_at_congr (e5.frame x (hdis x hx))]
      exact f3
    · have st1 : Step H H1 (lp ++ (lq ++ ls1.flatten)) (lm ++ ls1.flatten) :=
        (e5.widen ls1.flatten).mono (fun x => by
          simp only [List.mem_append]
          tauto) (fun x => Iff.rfl)
      exact st1.compose f5 (fun x hx => hx) (fun x => by tauto)

/-- The outer loop of `nat_sort`, on the block and on the chains of nodes. -/
theorem nat_sort_loop_sim {n : Nat} : ∀ (fuel : Nat) (H : Heap) (data : Option Nat)
    (ld : List Nat) (runs : Nat) (stack : List (Option Nat)) (ls : List (List Nat))
    (st : List list),
    List.Forall₂ (IsChain H) stack ls → IsChain H data ld → (ls.flatten ++ ld).Nodup →
    (ls.flatten ++ ld).length ≤ n →
    nat_sort_loop cmp order rd fuel (nodes_of H ld) runs (ls.map (nodes_of H)) = some st →
    ∃ H1 stack1 ls1, Ptr.nat_sort_loop cmp order rd n fuel H data runs stack
        = some (H1, stack1) ∧
      List.Forall₂ (IsChain H1) stack1 ls1 ∧ st = ls1.map (nodes_of H1) ∧
      ls1.flatten.Subperm (ls.flatten ++ ld) ∧ Step H H1 (ls.flatten ++ ld) ls1.flatten := by
  intro fuel
  induction fuel with
  | zero =>
    intro H data ld runs stack ls st hst hd hn hl hm
    cases hd with
    | nil =>
      simp only [nodes_of, List.map_nil, nat_sort_loop, Option.some.injEq] at hm
      exact ⟨H, stack, ls, rfl, hst, hm.symm, by simpa using List.Subperm.refl _,
        by simpa using Step.step_refl H ls.flatten⟩
    | cons _ _ => simp [nodes_of, nat_sort_loop] at hm
  | succ fuel ih =>
    intro H data ld runs stack ls st hst hd hn hl hm
    cases hd with
    | nil =>
      simp only [nodes_of, List.map_nil, nat_sort_loop, Option.some.injEq] at hm
      exact ⟨H, stack, ls, rfl, hst, hm.symm, by simpa using List.Subperm.refl _,
        by simpa using Step.step_refl H ls.flatten⟩
    | @cons p pn pi rest hp hrest =>
    have hc : IsChain H (some p) (p :: rest) := IsChain.cons hp hrest
    have hnd : (p :: rest).Nodup := (List.nodup_append.1 hn).2.1
    have hdis : ∀ x, x ∈ ls.flatten → x ∉ p :: rest :=
      fun x h1 h2 => (List.nodup_append.1 hn).2.2 h1 h2
    have hlr : rest.length ≤ n := by
      simp only [List.length_append, List.length_cons] at hl
      omega
    obtain ⟨H1, p1, r1, lrun, ld1, e1, e2, e3, e4, e5, e6⟩ :=
      pick_run_sim_final cmp order rd hc hnd hlr
    have hst1 : List.Forall₂ (IsChain H1) stack ls :=
      chains_frame hst fun x hx => e6.frame x (hdis x hx)
    have hmap1 : ls.map (nodes_of H1) = ls.map (nodes_of H) :=
      map_nodes_of_congr fun x hx => item_at_congr (e6.frame x (hdis x hx))
    -- the slots after the run was picked up
    have hT1 : ((lrun ++ ls.flatten) ++ ld1).Subperm (ls.flatten ++ p :: rest) := by
      have h1 : (ls.flatten ++ (lrun ++ ld1)).Subperm (ls.flatten ++ p :: rest) :=
        (List.subperm_append_left _).2 e5
      refine List.Subperm.trans (List.Perm.subperm ?_) h1
      rw [← List.append_assoc]
      exact List.Perm.append_right _ List.perm_append_comm
    have hnT1 : ((lrun ++ ls.flatten) ++ ld1).Nodup := nodup_of_subperm hT1 hn
    have hlT1 : ((lrun ++ ls.flatten) ++ ld1).length ≤ n := hT1.length_le.trans hl
    have hn2 : (lrun ++ ls.flatten).Nodup := (List.nodup_append.1 hnT1).1
    have hdis2 : ∀ x, x ∈ ld1 → x ∉ lrun ++ ls.flatten :=
      fun x h1 h2 => (List.nodup_append.1 hnT1).2.2 h2 h1
    have hl2 : (lrun ++ ls.flatten).length ≤ n := by
      simp only [List.length_append] at hlT1 ⊢
      omega
    rw [nodes_of_cons, nat_sort_loop, e4, ← hmap1] at hm
    cases hmr : merge_runs cmp order rd (runs + 1) (nodes_of H1 lrun) (ls.map (nodes_of H1)) with
    | none => simp [hmr] at hm
    | some st1 =>
      simp only [hmr] at hm
      obtain ⟨H2, stack1, ls1, f1, f2, f3, f4, f5⟩ :=
        merge_runs_sim cmp order rd stack ls H1 (runs + 1) (some p1) lrun st1 hst1 e2 hn2 hl2 hmr
      have hd2 : IsChain H2 r1 ld1 := e3.frame fun x hx => f5.frame x (hdis2 x hx)
      have hnodes2 : nodes_of H2 ld1 = nodes_of H1 ld1 :=
        nodes_of_congr fun x hx => item_at_congr (f5.frame x (hdis2 x hx))
      have hT2 : (ls1.flatten ++ ld1).Subperm ((lrun ++ ls.flatten) ++ ld1) :=
        (List.subperm_append_right _).2 f4
      have hnT2 : (ls1.flatten ++ ld1).Nodup := nodup_of_subperm hT2 hnT1
      rw [f3, ← hnodes2] at hm
      obtain ⟨H3, stack2, ls2, g1, g2, g3, g4, g5⟩ :=
        ih H2 r1 ld1 (runs + 1) stack1 ls1 st f2 hd2 hnT2 (hT2.length_le.trans hlT1) hm
      refine ⟨H3, stack2, ls2, ?_, g2, g3, (g4.trans hT2).trans hT1, ?_⟩
      · simp only [Ptr.nat_sort_loop, e1, f1]
        exact g1
      · have sA : Step H H1 (ls.flatten ++ p :: rest) ((lrun ++ ls.flatten) ++ ld1) :=
          (e6.widen_left ls.flatten).mono (fun x => Iff.rfl) (fun x => by
            simp only [List.mem_append]
            tauto)
        have sB : Step H1 H2 ((lrun ++ ls.flatten) ++ ld1) (ls1.flatten ++ ld1) := f5.widen ld1
        have sAB : Step H H2 (ls.flatten ++ p :: rest) (ls1.flatten ++ ld1) :=
          sA.compose sB (fun x hx => hx) (fun x => by tauto)
        exact sAB.compose g5 (fun x hx => hx) (fun x => by tauto)

/-- The function `nat_sort` on the block does what `nat_sort` does on the chain of nodes: it
returns, the slots of the chain it returns hold the nodes that the list model returns, and the
block is changed by rewriting `next` fields of slots of the input chain and by freeing the slots
of the input chain that are not in the result. -/
theorem nat_sort_sim {n : Nat} {H : Heap} {data : Option Nat} {l : List Nat}
    (remove_dups : Bool) (hc : IsChain H data l) (hn : l.Nodup) (hl : l.length ≤ n) :
    ∃ H1 p1 l1, Ptr.nat_sort cmp n H data remove_dups order = some (H1, p1) ∧
      IsChain H1 p1 l1 ∧ nat_sort cmp (nodes_of H l) remove_dups order = some (nodes_of H1 l1) ∧
      l1.Subperm l ∧ Step H H1 l l1 := by
  obtain ⟨s1, h1, _⟩ := nat_sort_loop_any cmp order (if remove_dups then 0 else 1)
    (nodes_of H l).length (nodes_of H l) 0 [] (le_refl _) OneBits.zero (by simp)
  have h2 := nat_sort_loop_fuel cmp order _ _ _ _ _ _ h1 n (by rw [nodes_of_length]; exact hl)
  obtain ⟨H1, stack1, ls1, e1, e2, e3, e4, e5⟩ :=
    nat_sort_loop_sim cmp order (if remove_dups then 0 else 1) n H data l 0 [] [] s1
      List.Forall₂.nil hc (by simpa using hn) (by simpa using hl) (by simpa using h2)
  simp only [List.flatten_nil, List.nil_append] at e4 e5
  cases e2 with
  | nil =>
    refine ⟨H1, none, [], ?_, IsChain.nil, ?_, by simp, by simpa using e5⟩
    · simp only [Ptr.nat_sort, e1]
    · simp only [nat_sort, h1, e3]
      rfl
  | @cons p lp sp ls2 hp hsp =>
    simp only [List.flatten_cons] at e4 e5
    have hn1 : (lp ++ ls2.flatten).Nodup := nodup_of_subperm e4 hn
    obtain ⟨H2, p2, l2, f1, f2, f3, f4, f5⟩ :=
      merge_all_sim cmp order (if remove_dups then 0 else 1) sp ls2 H1 p lp hsp hp hn1
        (e4.length_le.trans hl)
    refine ⟨H2, p2, l2, ?_, f2, ?_, f4.trans e4, e5.compose f5 (fun x hx => hx) (fun x => by tauto)⟩
    · simp only [Ptr.nat_sort, e1]
      exact f1
    · simp only [nat_sort, h1, e3, List.map_cons]
      rw [f3]

end Sim

theorem IsChain.unique {H : Heap} {p : Option Nat} {l l1 : List Nat} (h : IsChain H p l)
    (h1 : IsChain H p l1) : l = l1 := by
  induction h generalizing l1 with
  | nil => cases h1; rfl
  | cons ha _ ih =>
    cases h1 with
    | cons hb hr =>
      rw [ha] at hb
      cases hb
      rw [ih hr]

theorem IsChain.suffix {H : Heap} {a : Nat} {l2 : List Nat} :
    ∀ {l1 : List Nat} {p : Option Nat}, IsChain H p (l1 ++ a :: l2) →
      IsChain H (some a) (a :: l2) := by
  intro l1
  induction l1 with
  | nil =>
    intro p h
    cases h with
    | cons ha hr => exact IsChain.cons ha hr
  | cons b t ih =>
    intro p h
    cases h with
    | cons _ hr => exact ih hr

/-- A chain that ends in `NIL` visits no slot twice. -/
theorem IsChain.nodup {H : Heap} {p : Option Nat} {l : List Nat} (h : IsChain H p l) :
    l.Nodup := by
  induction h with
  | nil => exact List.nodup_nil
  | @cons a n i l ha hr ih =>
    refine List.nodup_cons.2 ⟨?_, ih⟩
    intro hmem
    obtain ⟨s, t, e⟩ := List.append_of_mem hmem
    have h1 : IsChain H (some a) (a :: t) := IsChain.suffix (e ▸ hr)
    have h2 := (IsChain.cons ha hr).unique h1
    have h3 : l.length = t.length := by rw [List.cons.inj h2 |>.2]
    rw [e] at h3
    simp at h3
    omega

section Fuel
variable (cmp : Term → Term → Int) (order : sort_order) (rd : Int)

theorem run_loop_mono : ∀ (fuel : Nat) (H : Heap) (q : Nat) (r : Option Nat)
    (res : Heap × Nat × Option Nat), Ptr.run_loop cmp order rd fuel H q r = some res →
    ∀ fuel1, fuel ≤ fuel1 → Ptr.run_loop cmp order rd fuel1 H q r = some res := by
  intro fuel
  induction fuel with
  | zero =>
    intro H q r res h fuel1 _
    cases r with
    | none => cases fuel1 <;> simpa [Ptr.run_loop] using h
    | some r => simp [Ptr.run_loop] at h
  | succ fuel ih =>
    intro H q r res h fuel1 hf
    cases r with
    | none => cases fuel1 <;> simpa [Ptr.run_loop] using h
    | some r =>
      obtain ⟨k, rfl⟩ : ∃ k, fuel1 = k + 1 := ⟨fuel1 - 1, by omega⟩
      have hk : fuel ≤ k := by omega
      simp only [Ptr.run_loop] at h ⊢
      cases hq : H q with
      | freed => simp [hq] at h
      | node qn qi =>
        cases hr : H r with
        | freed => simp [hq, hr] at h
        | node s ri =>
          simp only [hq, hr] at h ⊢
          by_cases hc1 : compare cmp order ⟨q, qi⟩ ⟨r, ri⟩ > 0
          · simpa [hc1] using h
          · simp only [hc1, if_false] at h ⊢
            by_cases hc2 : compare cmp order ⟨q, qi⟩ ⟨r, ri⟩ = rd
            · rw [if_pos hc2] at h ⊢
              exact ih _ _ _ _ h k hk
            · rw [if_neg hc2] at h ⊢
              cases h1 : Function.update H q (Cell.node (some r) qi) r with
              | freed => simp [h1] at h
              | node s1 _ =>
                simp only [h1] at h ⊢
                exact ih _ _ _ _ h k hk

theorem end_run_mono {fuel fuel1 : Nat} (hf : fuel ≤ fuel1) (a : Nat) (H : Heap) (q : Nat)
    (r : Option Nat) (res : Heap × Nat × Option Nat)
    (h : Ptr.end_run a (Ptr.run_loop cmp order rd fuel H q r) = some res) :
    Ptr.end_run a (Ptr.run_loop cmp order rd fuel1 H q r) = some res := by
  cases h1 : Ptr.run_loop cmp order rd fuel H q r with
  | none => simp [h1, Ptr.end_run] at h
  | some x =>
    rw [run_loop_mono cmp order rd _ _ _ _ _ h1 fuel1 hf]
    rw [h1] at h
    exact h

theorem pick_run_mono {fuel fuel1 : Nat} (hf : fuel ≤ fuel1) (H : Heap) (p : Nat)
    (res : Heap × Nat × Option Nat) (h : Ptr.pick_run cmp order rd fuel H p = some res) :
    Ptr.pick_run cmp order rd fuel1 H p = some res := by
  unfold Ptr.pick_run at h ⊢
  cases hp : H p with
  | freed => simp [hp] at h
  | node pn pi =>
    cases pn with
    | none => simpa [hp] using h
    | some q =>
      cases hq : H q with
      | freed => simp [hp, hq] at h
      | node data qi =>
        simp only [hp, hq] at h ⊢
        exact end_run_mono cmp order rd hf _ _ _ _ _ h

theorem merge_loop_mono : ∀ (fuel : Nat) (H : Heap) (hd r q p : Option Nat)
    (res : Heap × Option Nat), Ptr.merge_loop cmp order rd fuel H hd r q p = some res →
    ∀ fuel1, fuel ≤ fuel1 → Ptr.merge_loop cmp order rd fuel1 H hd r q p = some res := by
  intro fuel
  induction fuel with
  | zero =>
    intro H hd r q p res h fuel1 _
    cases q with
    | none => rw [merge_loop_none_left] at h ⊢; exact h
    | some q =>
      cases p with
      | none => rw [merge_loop_none_right] at h ⊢; exact h
      | some p => simp [Ptr.merge_loop] at h
  | succ fuel ih =>
    intro H hd r q p res h fuel1 hf
    cases q with
    | none => rw [merge_loop_none_left] at h ⊢; exact h
    | some q =>
      cases p with
      | none => rw [merge_loop_none_right] at h ⊢; exact h
      | some p =>
        obtain ⟨k, rfl⟩ : ∃ k, fuel1 = k + 1 := ⟨fuel1 - 1, by omega⟩
        have hk : fuel ≤ k := by omega
        simp only [Ptr.merge_loop] at h ⊢
        cases hq : H q with
        | freed => simp [hq] at h
        | node qn qi =>
          cases hp : H p with
          | freed => simp [hq, hp] at h
          | node pn pi =>
            simp only [hq, hp] at h ⊢
            by_cases hc1 : compare cmp order ⟨q, qi⟩ ⟨p, pi⟩ ≤ 0
            · simp only [hc1, if_true] at h ⊢
              cases hl : Ptr.link H hd r (some q) with
              | none => simp [hl] at h
              | some x =>
                obtain ⟨H1, hd1⟩ := x
                simp only [hl] at h ⊢
                cases hq1 : H1 q with
                | freed => simp [hq1] at h
                | node qn1 _ =>
                  simp only [hq1] at h ⊢
                  by_cases hc2 : compare cmp order ⟨q, qi⟩ ⟨p, pi⟩ = rd
                  · rw [if_pos hc2] at h ⊢
                    cases hp1 : H1 p with
                    | freed => simp [hp1] at h
                    | node s _ =>
                      simp only [hp1] at h ⊢
                      exact ih _ _ _ _ _ _ h k hk
                  · rw [if_neg hc2] at h ⊢
                    exact ih _ _ _ _ _ _ h k hk
            · simp only [hc1, if_false] at h ⊢
              cases hl : Ptr.link H hd r (some p) with
              | none => simp [hl] at h
              | some x =>
                obtain ⟨H1, hd1⟩ := x
                simp only [hl] at h ⊢
                cases hp1 : H1 p with
                | freed => simp [hp1] at h
                | node pn1 _ =>
                  simp only [hp1] at h ⊢
                  exact ih _ _ _ _ _ _ h k hk

theorem merge_mono {fuel fuel1 : Nat} (hf : fuel ≤ fuel1) (H : Heap) (q p : Option Nat)
    (res : Heap × Option Nat) (h : Ptr.merge cmp order rd fuel H q p = some res) :
    Ptr.merge cmp order rd fuel1 H q p = some res :=
  merge_loop_mono cmp order rd fuel H none none q p res h fuel1 hf

theorem merge_runs_mono {fuel fuel1 : Nat} (hf : fuel ≤ fuel1) :
    ∀ (stack : List (Option Nat)) (H : Heap) (k : Nat) (p : Option Nat)
      (res : Heap × List (Option Nat)),
      Ptr.merge_runs cmp order rd fuel H k p stack = some res →
      Ptr.merge_runs cmp order rd fuel1 H k p stack = some res := by
  intro stack
  induction stack with
  | nil =>
    intro H k p res h
    simpa [Ptr.merge_runs] using h
  | cons q sp ih =>
    intro H k p res h
    simp only [Ptr.merge_runs] at h ⊢
    by_cases hk : k % 2 = 0
    · simp only [hk, if_true] at h ⊢
      cases hm : Ptr.merge cmp order rd fuel H q p with
      | none => simp [hm] at h
      | some x =>
        obtain ⟨H1, p1⟩ := x
        rw [merge_mono cmp order rd hf _ _ _ _ hm]
        simp only [hm] at h
        exact ih _ _ _ _ h
    · simpa [hk] using h

theorem merge_all_mono {fuel fuel1 : Nat} (hf : fuel ≤ fuel1) :
    ∀ (stack : List (Option Nat)) (H : Heap) (p : Option Nat) (res : Heap × Option Nat),
      Ptr.merge_all cmp order rd fuel H p stack = some res →
      Ptr.merge_all cmp order rd fuel1 H p stack = some res := by
  intro stack
  induction stack with
  | nil =>
    intro H p res h
    simpa [Ptr.merge_all] using h
  | cons q sp ih =>
    intro H p res h
    simp only [Ptr.merge_all] at h ⊢
    cases hm : Ptr.merge cmp order rd fuel H q p with
    | none => simp [hm] at h
    | some x =>
      obtain ⟨H1, p1⟩ := x
      rw [merge_mono cmp order rd hf _ _ _ _ hm]
      simp only [hm] at h
      exact ih _ _ _ h

theorem nat_sort_loop_mono {n n1 : Nat} (hn : n ≤ n1) : ∀ (fuel : Nat) (H : Heap)
    (data : Option Nat) (runs : Nat) (stack : List (Option Nat))
    (res : Heap × List (Option Nat)),
    Ptr.nat_sort_loop cmp order rd n fuel H data runs stack = some res →
    ∀ fuel1, fuel ≤ fuel1 →
      Ptr.nat_sort_loop cmp order rd n1 fuel1 H data runs stack = some res := by
  intro fuel
  induction fuel with
  | zero =>
    intro H data runs stack res h fuel1 _
    cases data with
    | none => cases fuel1 <;> simpa [Ptr.nat_sort_loop] using h
    | some p => simp [Ptr.nat_sort_loop] at h
  | succ fuel ih =>
    intro H data runs stack res h fuel1 hf
    cases data with
    | none => cases fuel1 <;> simpa [Ptr.nat_sort_loop] using h
    | some p =>
      obtain ⟨k, rfl⟩ : ∃ k, fuel1 = k + 1 := ⟨fuel1 - 1, by omega⟩
      have hk : fuel ≤ k := by omega
      simp only [Ptr.nat_sort_loop] at h ⊢
      cases h1 : Ptr.pick_run cmp order rd n H p with
      | none => simp [h1] at h
      | some x =>
        obtain ⟨H1, p1, data1⟩ := x
        rw [pick_run_mono cmp order rd hn _ _ _ h1]
        simp only [h1] at h ⊢
        cases h2 : Ptr.merge_runs cmp order rd n H1 (runs + 1) (some p1) stack with
        | none => simp [h2] at h
        | some y =>
          obtain ⟨H2, stack1⟩ := y
          rw [merge_runs_mono cmp order rd hn _ _ _ _ _ h2]
          simp only [h2] at h ⊢
          exact ih _ _ _ _ _ h k hk

/-- A larger bound on the number of iterations does not change what `nat_sort` returns. -/
theorem nat_sort_mono {n n1 : Nat} (hn : n ≤ n1) (H : Heap) (data : Option Nat)
    (remove_dups : Bool) (res : Heap × Option Nat)
    (h : Ptr.nat_sort cmp n H data remove_dups order = some res) :
    Ptr.nat_sort cmp n1 H data remove_dups order = some res := by
  unfold Ptr.nat_sort at h ⊢
  cases h1 : Ptr.nat_sort_loop cmp order (if remove_dups then 0 else 1) n n H data 0 [] with
  | none => simp [h1] at h
  | some x =>
    obtain ⟨H1, stack⟩ := x
    simp only [nat_sort_loop_mono cmp order _ hn _ _ _ _ _ _ h1 n1 hn]
    simp only [h1] at h
    cases stack with
    | nil => exact h
    | cons p sp => exact merge_all_mono cmp order _ hn _ _ _ _ h

end Fuel

theorem build_nodes_addr (argv : List KeyArg) (pair : Bool) : ∀ (L : List Term) (addr : Nat)
    (lp : list), build_nodes argv pair addr L = .ok lp →
    lp.map (fun n => n.addr) = List.range' addr L.length := by
  intro L
  induction L with
  | nil => intro addr lp h; simp [build_nodes] at h; subst h; rfl
  | cons x t ih =>
    intro addr lp h
    rw [build_nodes] at h
    cases hk : extract_key x argv pair with
    | error f => simp [hk] at h
    | ok k =>
      cases hr : build_nodes argv pair (addr + 1) t with
      | error f => simp [hk, hr] at h
      | ok rest =>
        simp only [hk, hr, Except.ok.injEq] at h
        subst h
        simp [ih _ _ hr, List.range'_succ]

theorem block_of_frame (x : List_Record) (rest : list) {a : Nat} (h : a ≠ x.addr) :
    block_of (x :: rest) a = block_of rest a := by
  simp [block_of, Function.update_noteq h]

/-- The block built for nodes in distinct slots holds them as one chain, in order. -/
theorem block_of_chain : ∀ (data : list), (data.map fun n => n.addr).Nodup →
    IsChain (block_of data) (data.head?.map fun n => n.addr) (data.map fun n => n.addr) ∧
    nodes_of (block_of data) (data.map fun n => n.addr) = data := by
  intro data
  induction data with
  | nil => intro _; exact ⟨IsChain.nil, rfl⟩
  | cons x rest ih =>
    intro hn
    simp only [List.map_cons, List.nodup_cons] at hn
    obtain ⟨h1, h2⟩ := ih hn.2
    have hfr : ∀ a, a ∈ rest.map (fun n => n.addr) → block_of (x :: rest) a = block_of rest a :=
      fun a ha => block_of_frame x rest (ne_of_mem_of_not_mem ha hn.1)
    have hx : block_of (x :: rest) x.addr
        = Cell.node (rest.head?.map fun n => n.addr) x.item := by
      simp [block_of]
    refine ⟨IsChain.cons hx (h1.frame hfr), ?_⟩
    rw [List.map_cons, nodes_of_cons, item_at_node hx,
      nodes_of_congr fun a ha => item_at_congr (hfr a ha), h2]

/-- What the list model of `nat_sort` returns for nodes in distinct slots is what the block
model returns on the block built for them: the nodes of the chain that it returns. -/
theorem nat_sort_on_block (cmp : Term → Term → Int) (data : list) (remove_dups : Bool)
    (order : sort_order) (hn : (data.map fun n => n.addr).Nodup) :
    ∃ H1 p1 l1, Ptr.nat_sort cmp data.length (block_of data) (data.head?.map fun n => n.addr)
        remove_dups order = some (H1, p1) ∧
      IsChain H1 p1 l1 ∧ nat_sort cmp data remove_dups order = some (nodes_of H1 l1) := by
  obtain ⟨h1, h2⟩ := block_of_chain data hn
  obtain ⟨H1, p1, l1, e1, e2, e3, _, _⟩ :=
    @nat_sort_sim cmp order data.length (block_of data) _ _ remove_dups h1 hn (by simp)
  rw [h2] at e3
  exact ⟨H1, p1, l1, e1, e2, e3⟩

/-- Where `pl_nat_sort` sorts (the case `SORT_SORT`), its result is `put_sort_list` of the chain
that the block model of `nat_sort` returns on the block built by `prolog_list_to_sort_list`. -/
theorem pl_nat_sort_on_block (cmp : Term → Term → Int) (t : Term) (remove_dups : Bool)
    (order : sort_order) (argv : List KeyArg) (pair : Bool) (l : list)
    (h : prolog_list_to_sort_list t remove_dups argv pair = list_sort.SORT_SORT l) :
    ∃ H1 p1 l1, Ptr.nat_sort cmp l.length (block_of l) (l.head?.map fun n => n.addr)
        remove_dups order = some (H1, p1) ∧
      IsChain H1 p1 l1 ∧
      pl_nat_sort cmp t remove_dups order argv pair =
        match put_sort_list (nodes_of H1 l1) with
        | none => .error .undefined
        | some tmp => .ok tmp := by
  have hn : (l.map fun n => n.addr).Nodup := by
    unfold prolog_list_to_sort_list prolog_list_to_sort_list_walked at h
    split at h
    · split at h <;> cases h
    · split at h
      · cases h
      · split at h
        · cases h
        · cases hb : build_nodes argv pair 0 (skip_list t).1 with
          | error f => simp [hb] at h
          | ok lp =>
            simp only [hb, list_sort.SORT_SORT.injEq] at h
            subst h
            rw [build_nodes_addr argv pair _ _ _ hb]
            exact List.nodup_range' _ _
  obtain ⟨H1, p1, l1, e1, e2, e3⟩ := nat_sort_on_block cmp l remove_dups order hn
  refine ⟨H1, p1, l1, e1, e2, ?_⟩
  cases hput : put_sort_list (nodes_of H1 l1) <;> simp [pl_nat_sort, h, e3, hput]

/-- The block model run on `sample_heap`, ascending with duplicates removed: the first two nodes
are swapped, the third is freed, and the result is the chain of slot 1 and slot 0. -/
theorem ptr_nat_sort_sample_dedup :
    (Ptr.nat_sort (rank_cmp sample_rank) 3 sample_heap (some 0) true sort_order.SORT_ASC).map
      (fun r => (r.2, r.1 0, r.1 1, r.1 2))
    = some (some 1, Cell.node none ⟨Term.atom "x", Term.int 2⟩,
        Cell.node (some 0) ⟨Term.atom "y", Term.int 1⟩, Cell.freed) := by
  rfl

/-- The block model run on `sample_heap`, descending with duplicates kept: the result is the chain
of the slots 0, 2 and 1. -/
theorem ptr_nat_sort_sample_keep :
    (Ptr.nat_sort (rank_cmp sample_rank) 3 sample_heap (some 0) false sort_order.SORT_DESC).map
      (fun r => (r.2, r.1 0, r.1 1, r.1 2))
    = some (some 0, Cell.node (some 2) ⟨Term.atom "x", Term.int 2⟩,
        Cell.node none ⟨Term.atom "y", Term.int 1⟩,
        Cell.node (some 1) ⟨Term.atom "z", Term.int 2⟩) := by
  rfl

theorem nodes_of_eq_nil {H : Heap} {l : List Nat} : nodes_of H l = [] ↔ l = [] := by
  simp [nodes_of]

theorem mem_nodes_of {H : Heap} {l : List Nat} {y : List_Record} :
    y ∈ nodes_of H l ↔ ∃ a, a ∈ l ∧ y = ⟨a, item_at H a⟩ := by
  simp only [nodes_of, List.mem_map]
  constructor
  · rintro ⟨a, ha, e⟩
    exact ⟨a, ha, e.symm⟩
  · rintro ⟨a, ha, e⟩
    exact ⟨a, ha, e.symm⟩

/-- C18: `nat_sort` terminates on every finite input chain.  With the input chain in the slots
`l` of the block, the function returns, and it returns the same block and pointer for every
bound on the iterations of its loops that is at least the length of the chain; the pointer
returned heads a chain that ends in `NIL`; it is `NIL` exactly when the input pointer is `NIL`,
and the chain returned is empty exactly when the input chain is. -/
theorem nat_sort_terminates (cmp : Term → Term → Int) (H : Heap) (data : Option Nat)
    (l : List Nat) (remove_dups : Bool) (order : sort_order) (hc : IsChain H data l) :
    ∃ H1 p1 l1,
      (∀ n, l.length ≤ n → Ptr.nat_sort cmp n H data remove_dups order = some (H1, p1)) ∧
      IsChain H1 p1 l1 ∧ (p1 = none ↔ data = none) ∧ (l1 = [] ↔ l = []) := by
  obtain ⟨H1, p1, l1, e1, e2, e3, _, _⟩ :=
    @nat_sort_sim cmp order l.length H data l remove_dups hc hc.nodup (le_refl _)
  obtain ⟨out, h1, h2, _⟩ := nat_sort_any cmp order (nodes_of H l) remove_dups
  rw [e3] at h1
  cases h1
  have h3 : l1 = [] ↔ l = [] := by
    rw [← @nodes_of_eq_nil H1 l1, ← @nodes_of_eq_nil H l]
    exact h2
  refine ⟨H1, p1, l1, fun n hn => nat_sort_mono cmp order hn _ _ _ _ e1, e2, ?_, h3⟩
  rw [e2.length_zero, hc.length_zero]
  exact h3

/-- Witness of C18 on the chain of three slots of `sample_heap`. -/
theorem nat_sort_terminates_witness :
    IsChain sample_heap (some 0) [0, 1, 2] ∧
    ∃ H1 p1 l1,
      (∀ n, [0, 1, 2].length ≤ n →
        Ptr.nat_sort (rank_cmp sample_rank) n sample_heap (some 0) true sort_order.SORT_ASC
          = some (H1, p1)) ∧
      IsChain H1 p1 l1 ∧ (p1 = none ↔ some 0 = none) ∧ (l1 = [] ↔ [0, 1, 2] = []) :=
  ⟨IsChain.cons rfl (IsChain.cons rfl (IsChain.cons rfl IsChain.nil)),
    nat_sort_terminates _ _ _ _ _ _
      (IsChain.cons rfl (IsChain.cons rfl (IsChain.cons rfl IsChain.nil)))⟩

/-- C19: for every finite input chain that ends in `NIL` (the slots `l` of the block `H`),
`nat_sort` returns a pointer that heads a chain ending in `NIL` (so finite and without a cycle:
no slot occurs twice in it), made of slots of the input chain only; every slot of the result
holds the item (`term` and `key`) it held before; between the two blocks only `next` fields were
rewritten and slots freed, and no slot outside the input chain was touched; a slot of the input
chain that is absent from the result was reset by `FREE`, which happens only when duplicates are
removed and its key compares equal to the key of a slot that is in the result; without
duplicate removal the result has all the slots of the input chain. -/
theorem nat_sort_relinks_nodes (cmp : Term → Term → Int) (h : StandardOrder cmp) (n : Nat)
    (H : Heap) (data : Option Nat) (l : List Nat) (remove_dups : Bool) (order : sort_order)
    (hc : IsChain H data l) (hl : l.length ≤ n) :
    ∃ H1 p1 l1, Ptr.nat_sort cmp n H data remove_dups order = some (H1, p1) ∧
      IsChain H1 p1 l1 ∧ l1.Nodup ∧ (∀ x ∈ l1, x ∈ l) ∧
      (∀ x ∈ l1, ∃ nx nx1 i, H x = Cell.node nx i ∧ H1 x = Cell.node nx1 i) ∧
      Rewrites H H1 ∧ (∀ x, x ∉ l → H1 x = H x) ∧
      (∀ x ∈ l, x ∉ l1 → H1 x = Cell.freed ∧ remove_dups = true ∧
        ∃ y ∈ l1, cmp (item_at H x).key (item_at H y).key = 0) ∧
      (remove_dups = false → l1.Perm l) := by
  obtain ⟨H1, p1, l1, e1, e2, e3, e4, e5⟩ :=
    @nat_sort_sim cmp order n H data l remove_dups hc hc.nodup hl
  obtain ⟨out, h1, _, _, _, h5, h6⟩ := nat_sort_nodes cmp h (nodes_of H l) remove_dups order
  rw [e3] at h1
  cases h1
  have hitem : ∀ x ∈ l1, ∃ nx nx1 i, H x = Cell.node nx i ∧ H1 x = Cell.node nx1 i := by
    intro x hx
    obtain ⟨m, i, hm⟩ := e2.live x hx
    rcases e5.rew x with hfr | hsame
    · rw [hfr] at hm; cases hm
    · exact hsame
  have hitem1 : ∀ x ∈ l1, item_at H1 x = item_at H x := by
    intro x hx
    obtain ⟨nx, nx1, i, g1, g2⟩ := hitem x hx
    rw [item_at_node g1, item_at_node g2]
  refine ⟨H1, p1, l1, e1, e2, e2.nodup, fun x hx => e4.subset hx, hitem, e5.rew, e5.frame,
    ?_, ?_⟩
  · intro x hx hxo
    have hx1 : (⟨x, item_at H x⟩ : List_Record) ∈ nodes_of H l := mem_nodes_of.2 ⟨x, hx, rfl⟩
    have hx2 : (⟨x, item_at H x⟩ : List_Record) ∉ nodes_of H1 l1 := by
      intro hin
      obtain ⟨a, ha, e⟩ := mem_nodes_of.1 hin
      have : x = a := congrArg List_Record.addr e
      exact hxo (this ▸ ha)
    obtain ⟨g1, y, hy, g2⟩ := h6 _ hx1 hx2
    obtain ⟨a, ha, rfl⟩ := mem_nodes_of.1 hy
    refine ⟨e5.freed x hx hxo, g1, a, ha, ?_⟩
    rw [← hitem1 a ha]
    exact g2
  · intro hb
    have hp := (h5 hb).map List_Record.addr
    rw [nodes_of_addr, nodes_of_addr] at hp
    exact hp

/-- Witness of C19 on the chain of three slots of `sample_heap`, two of them with the key 2. -/
theorem nat_sort_relinks_nodes_witness :
    StandardOrder (rank_cmp sample_rank) ∧ IsChain sample_heap (some 0) [0, 1, 2] ∧
    [0, 1, 2].length ≤ 3 ∧
    ∃ H1 p1 l1, Ptr.nat_sort (rank_cmp sample_rank) 3 sample_heap (some 0) true
        sort_order.SORT_ASC = some (H1, p1) ∧
      IsChain H1 p1 l1 ∧ l1.Nodup ∧ (∀ x ∈ l1, x ∈ [0, 1, 2]) ∧
      (∀ x ∈ l1, ∃ nx nx1 i, sample_heap x = Cell.node nx i ∧ H1 x = Cell.node nx1 i) ∧
      Rewrites sample_heap H1 ∧ (∀ x, x ∉ [0, 1, 2] → H1 x = sample_heap x) ∧
      (∀ x ∈ [0, 1, 2], x ∉ l1 → H1 x = Cell.freed ∧ true = true ∧
        ∃ y ∈ l1, rank_cmp sample_rank (item_at sample_heap x).key (item_at sample_heap y).key
          = 0) ∧
      (true = false → l1.Perm [0, 1, 2]) :=
  ⟨rank_cmp_standardOrder _, IsChain.cons rfl (IsChain.cons rfl (IsChain.cons rfl IsChain.nil)),
    by decide,
    nat_sort_relinks_nodes _ (rank_cmp_standardOrder _) 3 sample_heap (some 0) [0, 1, 2] true
      sort_order.SORT_ASC (IsChain.cons rfl (IsChain.cons rfl (IsChain.cons rfl IsChain.nil)))
      (by decide)⟩

end PlList
